import Mathlib

/-!
Verification of c-portfolio: the dynamic integer array `IntVector`
(vector-library/src/vector_int.c), the counting loop of the word counter
(wc-clone/my_wc.c) and the fixed-string matcher of the line searcher
(grep-clone/my_grep.c).

Shallow embedding of the dynamic integer array; the conventions of the other two programs
stand at the head of their definitions.

* `size_t` values are natural numbers below `SIZE_MOD = 2 ^ 64`; every `size_t`
  operation of the source that can wrap is written with an explicit `% SIZE_MOD`.
* The heap block behind `vec->data` is the list `data`; its length is the number
  of `int` slots that the allocator really handed out, which is the requested
  byte count divided by `SIZEOF_INT`. A `NULL` pointer (capacity 0) is the empty block.
* The allocator is the environment: every call that allocates takes the
  allocator's answer (`Reply`) as an argument. `none` is a `NULL` return, `some junk`
  grants the request, fresh slot `i` holding the indeterminate value `junk i`. The one
  request that is not left to the answer is `realloc` of zero bytes on an existing block,
  which releases the block and returns `NULL`.
* A failed `assert` aborts the program; an access outside the allocated block is
  undefined behaviour. Both end the run with a `Fault`.
-/

/-- Number of values of the type `size_t` (64-bit target). -/
def SIZE_MOD : Nat := 2 ^ 64

/-- The value of `sizeof(int)` (4-byte `int`). -/
def SIZEOF_INT : Nat := 4

/-- The macro `GROWTH_FACTOR`. -/
def GROWTH_FACTOR : Nat := 2

/-- The macro `DEFAULT_SIZE`. -/
def DEFAULT_SIZE : Nat := 8

/-- Ways in which a call stops without returning. -/
inductive Fault where
  /-- The check `assert(new_capacity >= vec->size)` in `int_vector_resize`. -/
  | resizeBelowSize
  /-- The check `assert(success)` after a call of `int_vector_resize`. -/
  | allocFailed
  /-- The check `assert(vec->size != 0)` in `int_vector_pop`. -/
  | emptyContainer
  /-- The check `assert(index <= vec->size)` or `assert(index < vec->size)`. -/
  | indexOutOfBounds
  /-- A read or write outside the allocated block (undefined behaviour). -/
  | undefinedBehaviour
  /-- The capacity loop of `int_vector_extend` did not finish within the given fuel. -/
  | outOfFuel
  deriving DecidableEq, Repr

/-- The `struct IntVector`: the heap block, `size` and `capacity`. -/
structure IntVector where
  data : List Int
  size : Nat
  capacity : Nat
  deriving DecidableEq, Repr

deriving instance DecidableEq for Except

/-- Answer of the allocator to one request. -/
abbrev Reply := Option (Nat → Int)

/-- The libc call `malloc(bytes)` for a block of `int`. -/
def malloc (bytes : Nat) : Reply → Option (List Int)
  | none => none
  | some junk => some ((List.range (bytes / SIZEOF_INT)).map junk)

/-- Outcome of a call of `realloc`. -/
inductive ReallocResult where
  /-- A block is returned; the old pointer is no longer valid. -/
  | block (d : List Int)
  /-- The call returns `NULL` and the old block is untouched. -/
  | null
  /-- The call returns `NULL` and the old block has been released. -/
  | released
  deriving DecidableEq, Repr

/-- The libc call `realloc(old, bytes)`; `old_null` tells whether the pointer passed is
`NULL`. A request of zero bytes on an existing block releases the block and returns `NULL`
(the behaviour of glibc; the language leaves a zero-byte request to the implementation).
Every other request is answered by the allocator: `NULL` with the old block untouched, or
a block that keeps the common prefix of the old one. -/
def realloc (old : List Int) (old_null : Bool) (bytes : Nat) (r : Reply) : ReallocResult :=
  if bytes = 0 ∧ old_null = false then .released
  else
    match r with
    | none => .null
    | some junk => .block ((List.range (bytes / SIZEOF_INT)).map fun i => old.getD i (junk i))

/-- Read of `data[i]`. -/
def load (data : List Int) (i : Nat) : Except Fault Int :=
  match data[i]? with
  | some x => .ok x
  | none => .error .undefinedBehaviour

/-- Write `data[i] = x`. -/
def store (data : List Int) (i : Nat) (x : Int) : Except Fault (List Int) :=
  if i < data.length then .ok (data.set i x) else .error .undefinedBehaviour

/-- The helper `int_vector_resize`; the Boolean is its return value. The pointer
`vec->data` is `NULL` exactly when the capacity is 0: `int_vector_create` never stores
`NULL`, and this function stores `NULL` only together with capacity 0. When `realloc` has
released the block and returned `NULL`, the function returns false and `vec->data` keeps
the old pointer, behind which there is no block any more. -/
def int_vector_resize (vec : IntVector) (new_capacity : Nat) (r : Reply) :
    Except Fault (IntVector × Bool) :=
  if new_capacity < vec.size then .error .resizeBelowSize
  else if new_capacity = 0 then .ok ({ vec with data := [], capacity := 0 }, true)
  else
    match realloc vec.data (decide (vec.capacity = 0))
        (new_capacity * SIZEOF_INT % SIZE_MOD) r with
    | .null => .ok (vec, false)
    | .released => .ok ({ vec with data := [] }, false)
    | .block new_data => .ok ({ vec with data := new_data, capacity := new_capacity }, true)

/-- The function `int_vector_create`; `vec_ok` tells whether the `malloc` of the
struct itself succeeded, `r` is the answer to the `malloc` of the block. -/
def int_vector_create (initial_capacity : Nat) (vec_ok : Bool) (r : Reply) : Option IntVector :=
  if vec_ok then
    let cap := if initial_capacity > 0 then initial_capacity else DEFAULT_SIZE
    match malloc (cap * SIZEOF_INT % SIZE_MOD) r with
    | none => none
    | some d => some { data := d, size := 0, capacity := cap }
  else none

/-- The function `int_vector_clear`. -/
def int_vector_clear (vec : IntVector) : IntVector :=
  { vec with size := 0 }

/-- The growth step shared by `int_vector_push` and `int_vector_insert`:
`if (vec->size == vec->capacity) { ... resize ...; assert(success); }`. -/
def grow_if_full (vec : IntVector) (r : Reply) : Except Fault IntVector :=
  if vec.size = vec.capacity then
    let new_cap :=
      if vec.capacity = 0 then DEFAULT_SIZE else vec.capacity * GROWTH_FACTOR % SIZE_MOD
    match int_vector_resize vec new_cap r with
    | .error e => .error e
    | .ok (v, success) => if success then .ok v else .error .allocFailed
  else .ok vec

/-- The function `int_vector_push`. -/
def int_vector_push (vec : IntVector) (value : Int) (r : Reply) : Except Fault IntVector :=
  match grow_if_full vec r with
  | .error e => .error e
  | .ok v =>
    match store v.data v.size value with
    | .error e => .error e
    | .ok d => .ok { v with data := d, size := (v.size + 1) % SIZE_MOD }

/-- The function `int_vector_pop`: the returned element and the vector afterwards. -/
def int_vector_pop (vec : IntVector) : Except Fault (Int × IntVector) :=
  if vec.size = 0 then .error .emptyContainer
  else
    match load vec.data (vec.size - 1) with
    | .error e => .error e
    | .ok x => .ok (x, { vec with size := vec.size - 1 })

/-- The loop `for (i = size; i > index; i--) data[i] = data[i - 1];` of
`int_vector_insert`, entered with loop variable `i`. -/
def shift_right (index : Nat) : Nat → List Int → Except Fault (List Int)
  | 0, data => .ok data
  | i + 1, data =>
    if i + 1 > index then
      match load data i with
      | .error e => .error e
      | .ok x =>
        match store data (i + 1) x with
        | .error e => .error e
        | .ok d => shift_right index i d
    else .ok data

/-- The function `int_vector_insert`. -/
def int_vector_insert (vec : IntVector) (index : Nat) (value : Int) (r : Reply) :
    Except Fault IntVector :=
  if index ≤ vec.size then
    match grow_if_full vec r with
    | .error e => .error e
    | .ok v =>
      match shift_right index v.size v.data with
      | .error e => .error e
      | .ok d =>
        match store d index value with
        | .error e => .error e
        | .ok d2 => .ok { v with data := d2, size := (v.size + 1) % SIZE_MOD }
  else .error .indexOutOfBounds

/-- The loop `for (i = index; i < size - 1; i++) data[i] = data[i + 1];` of
`int_vector_remove`, entered with loop variable `i` and `n` iterations to go
(`n = size - 1 - i`). -/
def shift_left : Nat → Nat → List Int → Except Fault (List Int)
  | _, 0, data => .ok data
  | i, n + 1, data =>
    match load data (i + 1) with
    | .error e => .error e
    | .ok x =>
      match store data i x with
      | .error e => .error e
      | .ok d => shift_left (i + 1) n d

/-- The function `int_vector_remove`. -/
def int_vector_remove (vec : IntVector) (index : Nat) : Except Fault IntVector :=
  if index < vec.size then
    match shift_left index (vec.size - 1 - index) vec.data with
    | .error e => .error e
    | .ok d => .ok { vec with data := d, size := vec.size - 1 }
  else .error .indexOutOfBounds

/-- The function `int_vector_get`. -/
def int_vector_get (vec : IntVector) (index : Nat) : Except Fault Int :=
  if index < vec.size then load vec.data index else .error .indexOutOfBounds

/-- The function `int_vector_set`. -/
def int_vector_set (vec : IntVector) (index : Nat) (value : Int) : Except Fault IntVector :=
  if index < vec.size then
    match store vec.data index value with
    | .error e => .error e
    | .ok d => .ok { vec with data := d }
  else .error .indexOutOfBounds

/-- The function `int_vector_size`. -/
def int_vector_size (vec : IntVector) : Nat := vec.size

/-- The function `int_vector_capacity`. -/
def int_vector_capacity (vec : IntVector) : Nat := vec.capacity

/-- The function `int_vector_is_empty`. -/
def int_vector_is_empty (vec : IntVector) : Bool := vec.size == 0

/-- The function `int_vector_is_full`. -/
def int_vector_is_full (vec : IntVector) : Bool := vec.size == vec.capacity

/-- The function `int_vector_reserve`. -/
def int_vector_reserve (vec : IntVector) (new_capacity : Nat) (r : Reply) :
    Except Fault IntVector :=
  if new_capacity > vec.capacity then
    match int_vector_resize vec new_capacity r with
    | .error e => .error e
    | .ok (v, success) => if success then .ok v else .error .allocFailed
  else .ok vec

/-- The function `int_vector_shrink_to_fit`. -/
def int_vector_shrink_to_fit (vec : IntVector) (r : Reply) : Except Fault IntVector :=
  if vec.size < vec.capacity then
    match int_vector_resize vec vec.size r with
    | .error e => .error e
    | .ok (v, success) => if success then .ok v else .error .allocFailed
  else .ok vec

/-- The loop `for (i = 0; i < vec->size; i++) copy->data[i] = vec->data[i];` of
`int_vector_copy`, entered with loop variable `i` and `n` iterations to go. -/
def copy_elems (src : List Int) : Nat → Nat → List Int → Except Fault (List Int)
  | _, 0, dst => .ok dst
  | i, n + 1, dst =>
    match load src i with
    | .error e => .error e
    | .ok x =>
      match store dst i x with
      | .error e => .error e
      | .ok d => copy_elems src (i + 1) n d

/-- The function `int_vector_copy`; `none` is the `NULL` return. -/
def int_vector_copy (vec : IntVector) (vec_ok : Bool) (r : Reply) :
    Except Fault (Option IntVector) :=
  match int_vector_create vec.capacity vec_ok r with
  | none => .ok none
  | some copy =>
    match copy_elems vec.data 0 vec.size copy.data with
    | .error e => .error e
    | .ok d => .ok (some { copy with data := d, size := vec.size })

/-- The loop `while (new_cap < new_size) new_cap = new_cap == 0 ? DEFAULT_SIZE :
new_cap * GROWTH_FACTOR;` of `int_vector_extend`, run for at most `fuel` iterations;
`none` when the loop is still running after them. -/
def extend_new_cap (new_size : Nat) : Nat → Nat → Option Nat
  | 0, new_cap => if new_cap < new_size then none else some new_cap
  | fuel + 1, new_cap =>
    if new_cap < new_size then
      extend_new_cap new_size fuel
        (if new_cap = 0 then DEFAULT_SIZE else new_cap * GROWTH_FACTOR % SIZE_MOD)
    else some new_cap

/-- The loop `for (i = 0; i < src->size; i++) dest->data[dest->size + i] = src->data[i];`
of `int_vector_extend`, entered with loop variable `i` and `n` iterations to go. -/
def append_elems (src : List Int) (dest_size : Nat) : Nat → Nat → List Int → Except Fault (List Int)
  | _, 0, dst => .ok dst
  | i, n + 1, dst =>
    match load src i with
    | .error e => .error e
    | .ok x =>
      match store dst ((dest_size + i) % SIZE_MOD) x with
      | .error e => .error e
      | .ok d => append_elems src dest_size (i + 1) n d

/-- The function `int_vector_extend` for two distinct vectors; `fuel` bounds the
capacity loop. -/
def int_vector_extend (fuel : Nat) (dest src : IntVector) (r : Reply) : Except Fault IntVector :=
  let new_size := (dest.size + src.size) % SIZE_MOD
  let grown : Except Fault IntVector :=
    if new_size > dest.capacity then
      match extend_new_cap new_size fuel dest.capacity with
      | none => .error .outOfFuel
      | some new_cap =>
        match int_vector_resize dest new_cap r with
        | .error e => .error e
        | .ok (v, success) => if success then .ok v else .error .allocFailed
    else .ok dest
  match grown with
  | .error e => .error e
  | .ok d =>
    match append_elems src.data d.size 0 src.size d.data with
    | .error e => .error e
    | .ok new_data => .ok { d with data := new_data, size := new_size }

/-- The logical elements `data[0 .. size)`. -/
def IntVector.elems (vec : IntVector) : List Int := vec.data.take vec.size

/-- Representation invariant of a vector whose block really has `capacity` slots:
`size ≤ capacity`, the block has `capacity` slots, and its byte size fits `size_t`. -/
def IntVector.WF (vec : IntVector) : Prop :=
  vec.size ≤ vec.capacity ∧ vec.capacity = vec.data.length ∧
    vec.capacity * SIZEOF_INT < SIZE_MOD

instance (vec : IntVector) : Decidable vec.WF := by
  unfold IntVector.WF; infer_instance

/-- The allocator answer used in examples: it grants the request, fresh slots read 0. -/
def grant : Reply := some fun _ => 0

/-- The inductive invariant of the reachable vectors: `size ≤ capacity`, with a capacity that is a
`size_t` value. -/
def IntVector.Inv (v : IntVector) : Prop := v.size ≤ v.capacity ∧ v.capacity < SIZE_MOD

/-- The scenario "push each element of a list in order": every `int_vector_push` comes
with the allocator's answer for that call. -/
def push_all : IntVector → List (Int × Reply) → Except Fault IntVector
  | v, [] => .ok v
  | v, (x, r) :: rest =>
    match int_vector_push v x r with
    | .error e => .error e
    | .ok v' => push_all v' rest

/-- Vectors reachable from `int_vector_create` by calls of the mutating operations that
return (no assertion stops them, no access leaves the block); the arguments of type
`size_t` are below `SIZE_MOD`. -/
inductive Reachable : IntVector → Prop where
  | create (c : Nat) (vec_ok : Bool) (r : Reply) (v : IntVector) :
      c < SIZE_MOD → int_vector_create c vec_ok r = some v → Reachable v
  | push (v v' : IntVector) (value : Int) (r : Reply) :
      Reachable v → int_vector_push v value r = .ok v' → Reachable v'
  | pop (v v' : IntVector) (x : Int) :
      Reachable v → int_vector_pop v = .ok (x, v') → Reachable v'
  | insert (v v' : IntVector) (index : Nat) (value : Int) (r : Reply) :
      Reachable v → index < SIZE_MOD → int_vector_insert v index value r = .ok v' →
      Reachable v'
  | remove (v v' : IntVector) (index : Nat) :
      Reachable v → index < SIZE_MOD → int_vector_remove v index = .ok v' → Reachable v'
  | set (v v' : IntVector) (index : Nat) (value : Int) :
      Reachable v → index < SIZE_MOD → int_vector_set v index value = .ok v' → Reachable v'
  | clear (v : IntVector) : Reachable v → Reachable (int_vector_clear v)
  | reserve (v v' : IntVector) (n : Nat) (r : Reply) :
      Reachable v → n < SIZE_MOD → int_vector_reserve v n r = .ok v' → Reachable v'
  | shrink_to_fit (v v' : IntVector) (r : Reply) :
      Reachable v → int_vector_shrink_to_fit v r = .ok v' → Reachable v'
  | copy (v c : IntVector) (vec_ok : Bool) (r : Reply) :
      Reachable v → int_vector_copy v vec_ok r = .ok (some c) → Reachable c
  | extend (fuel : Nat) (dest src dest' : IntVector) (r : Reply) :
      Reachable dest → Reachable src → int_vector_extend fuel dest src r = .ok dest' →
      Reachable dest'

/-- The conversion `(int)i` of a `size_t` value to the 32-bit `int`: the value is
reduced modulo `2 ^ 32` into the range of `int` (the conversion of the usual compilers). -/
def size_to_int (i : Nat) : Int :=
  if i % 2 ^ 32 < 2 ^ 31 then ((i % 2 ^ 32 : Nat) : Int) else ((i % 2 ^ 32 : Nat) : Int) - 2 ^ 32

/-- The loop `for (i = 0; i < vec->size; i++) if (vec->data[i] == value) return (int)i;`
of `int_vector_find` with the final `return -1`, entered with loop variable `i` and `n`
iterations to go. -/
def find_loop (data : List Int) (value : Int) : Nat → Nat → Except Fault Int
  | _, 0 => .ok (-1)
  | i, n + 1 =>
    match load data i with
    | .error e => .error e
    | .ok x => if x = value then .ok (size_to_int i) else find_loop data value (i + 1) n

/-- The function `int_vector_find`. -/
def int_vector_find (vec : IntVector) (value : Int) : Except Fault Int :=
  find_loop vec.data value 0 vec.size

/-- The function `int_vector_contains`. -/
def int_vector_contains (vec : IntVector) (value : Int) : Except Fault Bool :=
  match int_vector_find vec value with
  | .error e => .error e
  | .ok k => .ok (k != -1)

/-- The loop `for (i = 0; i < a->size; i++) if (a->data[i] != b->data[i]) return false;`
of `int_vector_equals` with the final `return true`, entered with loop variable `i` and
`n` iterations to go. -/
def equals_loop (a b : List Int) : Nat → Nat → Except Fault Bool
  | _, 0 => .ok true
  | i, n + 1 =>
    match load a i with
    | .error e => .error e
    | .ok x =>
      match load b i with
      | .error e => .error e
      | .ok y => if x ≠ y then .ok false else equals_loop a b (i + 1) n

/-- The function `int_vector_equals`. -/
def int_vector_equals (a b : IntVector) : Except Fault Bool :=
  if a.size ≠ b.size then .ok false else equals_loop a.data b.data 0 a.size

/-- The growth step `c == 0 ? 8 : 2 * c` as the claims word it, on unbounded naturals. -/
def grow_step (c : Nat) : Nat := if c = 0 then 8 else 2 * c

/-- The copy loop of `int_vector_extend` when `dest` and `src` are the same instance:
`src->data[i]` and `dest->data[dest->size + i]` are slots of the one block; entered with
loop variable `i` and `n` iterations to go. -/
def self_append_elems (size : Nat) : Nat → Nat → List Int → Except Fault (List Int)
  | _, 0, data => .ok data
  | i, n + 1, data =>
    match load data i with
    | .error e => .error e
    | .ok x =>
      match store data ((size + i) % SIZE_MOD) x with
      | .error e => .error e
      | .ok d => self_append_elems size (i + 1) n d

/-- The function `int_vector_extend` called with `dest` and `src` being the same
instance: `src->size` and `src->data` are the fields of `dest`. -/
def int_vector_extend_self (fuel : Nat) (vec : IntVector) (r : Reply) : Except Fault IntVector :=
  let new_size := (vec.size + vec.size) % SIZE_MOD
  let grown : Except Fault IntVector :=
    if new_size > vec.capacity then
      match extend_new_cap new_size fuel vec.capacity with
      | none => .error .outOfFuel
      | some new_cap =>
        match int_vector_resize vec new_cap r with
        | .error e => .error e
        | .ok (v, success) => if success then .ok v else .error .allocFailed
    else .ok vec
  match grown with
  | .error e => .error e
  | .ok d =>
    match self_append_elems d.size 0 d.size d.data with
    | .error e => .error e
    | .ok new_data => .ok { d with data := new_data, size := new_size }

/-! ## The word counter (wc-clone/my_wc.c)

The input stream is the list of the bytes that `fgetc` returns before `EOF`. The three
counters of `struct file_stats` are of type `int`: an increment at `INT_MAX` is a signed
overflow, which the language leaves undefined, so a run that reaches one has no result
(`none`). -/

/-- The largest value of the 32-bit `int`. -/
def INT_MAX : Nat := 2147483647

/-- The classification `isspace` of the C locale (the program never calls `setlocale`):
space, and the bytes from `'\t'` (9) to `'\r'` (13). -/
def isspace (ch : Nat) : Bool :=
  ch == 32 || (9 ≤ ch && ch ≤ 13)

/-- The record `struct file_stats`. -/
structure file_stats where
  lines : Nat
  words : Nat
  chars : Nat
  deriving DecidableEq, Repr

/-- The local state of the loop of `count_stream`. -/
structure CountState where
  stats : file_stats
  looking_for_word_start : Bool
  last_char : Nat
  deriving DecidableEq, Repr

/-- The increment `x++` of an `int` counter: undefined at `INT_MAX`. -/
def int_incr (x : Nat) : Option Nat :=
  if x < INT_MAX then some (x + 1) else none

/-- One pass through the body of `while ((ch = fgetc(fp)) != EOF)` in `count_stream`. -/
def count_step (st : CountState) (ch : Nat) : Option CountState :=
  match int_incr st.stats.chars with
  | none => none
  | some chars =>
    let lines : Option Nat := if ch = 10 then int_incr st.stats.lines else some st.stats.lines
    match lines with
    | none => none
    | some lines =>
      if isspace ch then
        some ⟨⟨lines, st.stats.words, chars⟩, true, ch⟩
      else if st.looking_for_word_start then
        match int_incr st.stats.words with
        | none => none
        | some words => some ⟨⟨lines, words, chars⟩, false, ch⟩
      else
        some ⟨⟨lines, st.stats.words, chars⟩, false, ch⟩

/-- The loop `while ((ch = fgetc(fp)) != EOF)` of `count_stream` over the bytes still to be
read. -/
def count_loop : CountState → List Nat → Option CountState
  | st, [] => some st
  | st, ch :: rest =>
    match count_step st ch with
    | none => none
    | some st1 => count_loop st1 rest

/-- The function `count_stream`: the loop, then
`if ((stats.chars > 0) && (last_char != '\n')) stats.lines++;`. -/
def count_stream (input : List Nat) : Option file_stats :=
  match count_loop ⟨⟨0, 0, 0⟩, true, 0⟩ input with
  | none => none
  | some st =>
    if st.stats.chars > 0 ∧ st.last_char ≠ 10 then
      match int_incr st.stats.lines with
      | none => none
      | some lines => some { st.stats with lines := lines }
    else some st.stats

/-- The number of non-empty pieces in a list of pieces. -/
def nonempty_pieces (pieces : List (List Nat)) : Nat :=
  (pieces.filter (fun p => !p.isEmpty)).length

/-- The number of maximal runs of consecutive non-whitespace bytes of the input, as the
specification words it: the non-empty pieces that remain when the input is cut at every
whitespace byte. -/
def word_runs (input : List Nat) : Nat :=
  nonempty_pieces (input.splitOnP isspace)

/-- The part of the words figure that the bytes still to be read contribute, by the state of
the loop: inside a word the first piece continues that word and is not counted again. -/
def words_to_come (looking : Bool) (rest : List Nat) : Nat :=
  if looking then nonempty_pieces (rest.splitOnP isspace)
  else nonempty_pieces (rest.splitOnP isspace).tail

/-! ## The fixed-string matcher (grep-clone/my_grep.c)

A C string is the list of its bytes before the terminating NUL, so `strlen` is the length of
the list. -/

/-- The function `tolower` of the C locale on a byte. -/
def tolower (c : Nat) : Nat :=
  if 65 ≤ c ∧ c ≤ 90 then c + 32 else c

/-- The function `char_equal`. -/
def char_equal (a b : Nat) (case_insensitive : Bool) : Bool :=
  if case_insensitive then tolower a == tolower b else a == b

/-- The inner loop
`for (j = 0; j < pattern_len; j++) if (!char_equal(line[i + j], pattern[j], ci)) { match = false; break; }`
of `raw_string_match`, entered with loop variable `j` and `n` iterations to go: the value of
`match` after the loop. -/
def match_at (line pattern : List Nat) (case_insensitive : Bool) (i : Nat) : Nat → Nat → Bool
  | _, 0 => true
  | j, n + 1 =>
    if !char_equal (line.getD (i + j) 0) (pattern.getD j 0) case_insensitive then false
    else match_at line pattern case_insensitive i (j + 1) n

/-- The outer loop `for (i = 0; i <= line_len - pattern_len; i++)` of `raw_string_match`,
entered with loop variable `i` and `n` iterations to go. The result `some (s, l)` is the
return value `true` with `*match_start = s` and `*match_len = l` (both of type `int`, so the
`size_t` values are converted); `none` is the return value `false`. -/
def search_loop (line pattern : List Nat) (case_insensitive : Bool) :
    Nat → Nat → Option (Int × Int)
  | _, 0 => none
  | i, n + 1 =>
    if match_at line pattern case_insensitive i 0 pattern.length then
      some (size_to_int i, size_to_int pattern.length)
    else search_loop line pattern case_insensitive (i + 1) n

/-- The function `raw_string_match`. -/
def raw_string_match (line pattern : List Nat) (case_insensitive : Bool) :
    Option (Int × Int) :=
  if pattern.length = 0 then some (0, 0)
  else if line.length < pattern.length then none
  else search_loop line pattern case_insensitive 0 (line.length - pattern.length + 1)

/-- The pattern occurs in the line at position `i`: the bytes of the line from `i` on agree
with the bytes of the pattern, compared exactly or after `tolower`. -/
def occurs_at (line pattern : List Nat) (case_insensitive : Bool) (i : Nat) : Prop :=
  i + pattern.length ≤ line.length ∧
  ∀ j, j < pattern.length →
    (if case_insensitive then tolower (line.getD (i + j) 0) = tolower (pattern.getD j 0)
     else line.getD (i + j) 0 = pattern.getD j 0)

/-! ## Memory primitives -/

theorem load_of_lt {data : List Int} {i : Nat} (h : i < data.length) :
    load data i = .ok (data.get ⟨i, h⟩) := by
  simp [load, List.getElem?_eq_getElem h]

theorem load_eq_ok {data : List Int} {i : Nat} {x : Int} :
    load data i = .ok x ↔ data[i]? = some x := by
  unfold load
  cases h : data[i]? <;> simp

theorem store_of_lt {data : List Int} {i : Nat} (x : Int) (h : i < data.length) :
    store data i x = .ok (data.set i x) := by
  simp [store, h]

theorem store_eq_ok {data d : List Int} {i : Nat} {x : Int} :
    store data i x = .ok d ↔ i < data.length ∧ d = data.set i x := by
  unfold store
  split <;> simp_all [eq_comm]

theorem getElem?_range_map (m i : Nat) (f : Nat → Int) :
    ((List.range m).map f)[i]? = if i < m then some (f i) else none := by
  by_cases h : i < m
  · simp [h, List.getElem?_range h]
  · simp [h, List.getElem?_eq_none]
    omega

theorem realloc_block {old d : List Int} {b : Bool} {bytes : Nat} {r : Reply}
    (h : realloc old b bytes r = .block d) :
    ∃ junk, r = some junk ∧
      d = (List.range (bytes / SIZEOF_INT)).map fun i => old.getD i (junk i) := by
  unfold realloc at h
  split at h
  · cases h
  · cases r with
    | none => cases h
    | some junk =>
      simp only [ReallocResult.block.injEq] at h
      exact ⟨junk, rfl, h.symm⟩

/-- A request of at least one byte is answered by the allocator. -/
theorem realloc_pos {old : List Int} {b : Bool} {bytes : Nat} (hb : 0 < bytes) (r : Reply) :
    realloc old b bytes r =
      match r with
      | none => .null
      | some junk =>
        .block ((List.range (bytes / SIZEOF_INT)).map fun i => old.getD i (junk i)) := by
  unfold realloc
  rw [if_neg (by omega)]

theorem realloc_length {old d : List Int} {b : Bool} {bytes : Nat} {r : Reply}
    (h : realloc old b bytes r = .block d) : d.length = bytes / SIZEOF_INT := by
  obtain ⟨junk, -, h⟩ := realloc_block h
  subst h
  simp

theorem realloc_take {old d : List Int} {b : Bool} {bytes n : Nat} {r : Reply}
    (h : realloc old b bytes r = .block d) (h1 : n ≤ old.length)
    (h2 : n ≤ bytes / SIZEOF_INT) :
    d.take n = old.take n := by
  obtain ⟨junk, -, h⟩ := realloc_block h
  · subst h
    apply List.ext_getElem?
    intro i
    by_cases hi : i < n
    · have h3 : i < bytes / SIZEOF_INT := by omega
      have h4 : i < old.length := by omega
      simp [List.getElem?_take, hi, getElem?_range_map, h3, List.getD_eq_getElem?_getD,
        List.getElem?_eq_getElem h4]
    · simp [List.getElem?_take, hi]

/-! ## `int_vector_resize` and the growth step -/

theorem resize_ok {vec v : IntVector} {n : Nat} {r : Reply} {b : Bool}
    (h : int_vector_resize vec n r = .ok (v, b)) :
    vec.size ≤ n ∧ v.size = vec.size ∧
      (b = false → v.capacity = vec.capacity ∧
        (v = vec ∨ (v.data = [] ∧ n * SIZEOF_INT % SIZE_MOD = 0 ∧ vec.capacity ≠ 0))) ∧
      (b = true → v.capacity = n ∧
        ((n = 0 ∧ v.data = []) ∨
          (n ≠ 0 ∧ realloc vec.data (decide (vec.capacity = 0))
            (n * SIZEOF_INT % SIZE_MOD) r = .block v.data))) := by
  unfold int_vector_resize at h
  split at h
  · simp at h
  · rename_i hsz
    split at h
    · rename_i hz
      simp only [Except.ok.injEq, Prod.mk.injEq] at h
      obtain ⟨h1, h2⟩ := h
      subst h1 h2
      simp [hz] at hsz ⊢
      omega
    · rename_i hz
      split at h
      · simp only [Except.ok.injEq, Prod.mk.injEq] at h
        obtain ⟨h1, h2⟩ := h
        subst h1 h2
        simp
        omega
      · rename_i hrel
        simp only [Except.ok.injEq, Prod.mk.injEq] at h
        obtain ⟨h1, h2⟩ := h
        subst h1 h2
        have hcond : n * SIZEOF_INT % SIZE_MOD = 0 ∧ vec.capacity ≠ 0 := by
          unfold realloc at hrel
          split at hrel
          · rename_i hc
            exact ⟨hc.1, by simpa using hc.2⟩
          · cases r <;> cases hrel
        refine ⟨by omega, rfl, fun _ => ⟨rfl, Or.inr ⟨rfl, hcond.1, hcond.2⟩⟩, fun hb => ?_⟩
        cases hb
      · rename_i d hd
        simp only [Except.ok.injEq, Prod.mk.injEq] at h
        obtain ⟨h1, h2⟩ := h
        subst h1 h2
        simp [hz, hd]
        omega

theorem resize_fault {vec : IntVector} {n : Nat} {r : Reply} {e : Fault}
    (h : int_vector_resize vec n r = .error e) : e = .resizeBelowSize ∧ n < vec.size := by
  unfold int_vector_resize at h
  split at h
  · rename_i hlt
    simp at h
    exact ⟨h.symm, hlt⟩
  · split at h
    · simp at h
    · split at h <;> simp at h

/-- A successful resize to a capacity whose byte size does not wrap keeps the
representation invariant and the logical elements. -/
theorem resize_wf {vec v : IntVector} {n : Nat} {r : Reply}
    (hwf : vec.WF) (hn : n * SIZEOF_INT < SIZE_MOD)
    (h : int_vector_resize vec n r = .ok (v, true)) :
    v.WF ∧ v.size = vec.size ∧ v.capacity = n ∧ v.elems = vec.elems := by
  obtain ⟨hsz, hsize, -, hb⟩ := resize_ok h
  obtain ⟨hcap, hd⟩ := hb rfl
  obtain ⟨w1, w2, w3⟩ := hwf
  rcases hd with ⟨hz, hd⟩ | ⟨hz, hd⟩
  · have h0 : vec.size = 0 := by omega
    refine ⟨⟨by omega, by simp [hcap, hz, hd], ?_⟩, hsize, hcap, ?_⟩
    · rw [hcap]; exact hn
    · simp [IntVector.elems, hsize, h0]
  · have hlen := realloc_length hd
    rw [Nat.mod_eq_of_lt hn] at hlen hd
    have hlen2 : v.data.length = n := by
      rw [hlen]; simp [SIZEOF_INT]
    refine ⟨⟨by omega, by omega, ?_⟩, hsize, hcap, ?_⟩
    · rw [hcap]; exact hn
    · unfold IntVector.elems
      rw [hsize]
      exact realloc_take hd (by omega) (by rw [← hlen, hlen2]; exact hsz)

theorem grow_if_full_ok {vec v : IntVector} {r : Reply}
    (hcap : vec.capacity < SIZE_MOD) (h : grow_if_full vec r = .ok v) :
    v.size = vec.size ∧
      v.capacity = (if vec.size = vec.capacity then
        (if vec.capacity = 0 then 8 else 2 * vec.capacity) else vec.capacity) ∧
      (vec.size ≤ vec.capacity → v.size < v.capacity) ∧
      (vec.size ≠ vec.capacity → v = vec) := by
  unfold grow_if_full at h
  split at h
  · rename_i hfull
    simp only at h
    split at h
    · simp at h
    · rename_i v2 success hres
      cases success with
      | false => simp at h
      | true =>
        simp only [if_true, Except.ok.injEq] at h
        subst h
        obtain ⟨hsz, hsize, -, hb⟩ := resize_ok hres
        obtain ⟨hc, -⟩ := hb rfl
        simp only [SIZE_MOD, GROWTH_FACTOR, DEFAULT_SIZE] at hc hsz hcap
        refine ⟨hsize, ?_, ?_, fun hne => absurd hfull hne⟩
        · rw [if_pos hfull, hc]
          split
          · rfl
          · rename_i hz
            rw [if_neg hz] at hsz
            omega
        · intro _
          rw [hsize, hc]
          split
          · rename_i hz; omega
          · rename_i hz
            rw [if_neg hz] at hsz
            omega
  · rename_i hne
    simp only [Except.ok.injEq] at h
    subst h
    simp [hne]
    omega

/-! ## Accessors on a well-formed vector -/

theorem IntVector.WF.size_le_length {v : IntVector} (h : v.WF) : v.size ≤ v.data.length := by
  obtain ⟨h1, h2, -⟩ := h
  omega

theorem IntVector.elems_length {v : IntVector} (h : v.WF) : v.elems.length = v.size := by
  have := h.size_le_length
  simp [IntVector.elems]
  omega

theorem IntVector.elems_getElem? {v : IntVector} {i : Nat} (hi : i < v.size) :
    v.elems[i]? = v.data[i]? := by
  simp [IntVector.elems, List.getElem?_take, hi]

theorem get_eq_of_lt {v : IntVector} {i : Nat} (h : v.WF) (hi : i < v.size) :
    ∃ y, int_vector_get v i = .ok y ∧ v.elems[i]? = some y := by
  have hlen : i < v.data.length := lt_of_lt_of_le hi h.size_le_length
  refine ⟨v.data.get ⟨i, hlen⟩, ?_, ?_⟩
  · simp [int_vector_get, hi, load_of_lt hlen]
  · rw [IntVector.elems_getElem? hi, List.getElem?_eq_getElem hlen]
    rfl

theorem get_of_elems {v : IntVector} {i : Nat} {y : Int} (hi : i < v.size)
    (h : v.elems[i]? = some y) : int_vector_get v i = .ok y := by
  rw [IntVector.elems_getElem? hi] at h
  simp [int_vector_get, hi, load, h]

/-! ## Claims about single calls -/

/-- A vector returned by `int_vector_create` has size 0 and the capacity chosen by the
source; it is returned only when both `malloc` calls succeeded. -/
theorem create_ok {initial_capacity : Nat} {vec_ok : Bool} {r : Reply} {v : IntVector}
    (h : int_vector_create initial_capacity vec_ok r = some v) :
    int_vector_size v = 0 ∧ int_vector_is_empty v = true ∧
      int_vector_capacity v = (if initial_capacity = 0 then 8 else initial_capacity) ∧
      vec_ok = true ∧ r.isSome = true := by
  unfold int_vector_create at h
  split at h
  · rename_i hok
    simp only at h
    split at h
    · simp at h
    · rename_i d hd
      simp only [Option.some.injEq] at h
      subst h
      refine ⟨rfl, rfl, ?_, hok, ?_⟩
      · simp only [int_vector_capacity, DEFAULT_SIZE]
        by_cases hz : initial_capacity = 0
        · simp [hz]
        · have : initial_capacity > 0 := Nat.pos_of_ne_zero hz
          simp [hz, this]
      · cases r with
        | none => simp [malloc] at hd
        | some junk => rfl
  · simp at h

/-- C4: when allocation succeeds (`int_vector_create` returns a vector), the vector has
size 0, is empty, and its capacity is 8 for a requested capacity of 0 and the requested
capacity otherwise; it returns a vector exactly when both `malloc` calls succeed. -/
theorem int_vector_create_spec (initial_capacity : Nat) (vec_ok : Bool) (r : Reply)
    (v : IntVector) (h : int_vector_create initial_capacity vec_ok r = some v) :
    int_vector_size v = 0 ∧ int_vector_is_empty v = true ∧
      int_vector_capacity v = (if initial_capacity = 0 then 8 else initial_capacity) ∧
      (vec_ok = true ∧ r.isSome = true) ∧
      ∀ junk, ∃ w, int_vector_create initial_capacity true (some junk) = some w := by
  obtain ⟨h1, h2, h3, h4, h5⟩ := create_ok h
  refine ⟨h1, h2, h3, ⟨h4, h5⟩, fun junk => ?_⟩
  simp [int_vector_create, malloc]

/-- Witness of C4: `int_vector_create(10)` with a granting allocator. -/
theorem int_vector_create_spec_witness :
    int_vector_create 10 true grant = some ⟨List.replicate 10 0, 0, 10⟩ ∧
      (int_vector_size ⟨List.replicate 10 0, 0, 10⟩ = 0 ∧
        int_vector_is_empty ⟨List.replicate 10 0, 0, 10⟩ = true ∧
        int_vector_capacity ⟨List.replicate 10 0, 0, 10⟩ = (if 10 = 0 then 8 else 10) ∧
        (true = true ∧ grant.isSome = true) ∧
        ∀ junk, ∃ w, int_vector_create 10 true (some junk) = some w) :=
  ⟨by decide, int_vector_create_spec 10 true grant _ (by decide)⟩

/-- C5: on a well-formed vector `int_vector_pop` stops on its precondition check exactly
when `size == 0` and has no other way to fail; for `size > 0` it returns the element at
index `size - 1`, the size drops by exactly 1, and block, capacity and the elements at
the indices below `size - 1` are as before. -/
theorem int_vector_pop_spec (v : IntVector) (hwf : v.WF) :
    ((∃ e, int_vector_pop v = .error e) ↔ v.size = 0) ∧
      (v.size = 0 → int_vector_pop v = .error .emptyContainer) ∧
      (0 < v.size → ∃ x v', int_vector_pop v = .ok (x, v') ∧
        int_vector_get v (v.size - 1) = .ok x ∧
        v'.size = v.size - 1 ∧ v'.capacity = v.capacity ∧ v'.data = v.data ∧
        v.elems = v'.elems ++ [x] ∧
        ∀ i, i < v.size - 1 → int_vector_get v' i = int_vector_get v i) := by
  have hlen := hwf.size_le_length
  have hpos : 0 < v.size → ∃ x v', int_vector_pop v = .ok (x, v') ∧
        int_vector_get v (v.size - 1) = .ok x ∧
        v'.size = v.size - 1 ∧ v'.capacity = v.capacity ∧ v'.data = v.data ∧
        v.elems = v'.elems ++ [x] ∧
        ∀ i, i < v.size - 1 → int_vector_get v' i = int_vector_get v i := by
    intro hp
    have hl : v.size - 1 < v.data.length := by omega
    refine ⟨v.data.get ⟨v.size - 1, hl⟩, { v with size := v.size - 1 }, ?_, ?_, rfl, rfl, rfl,
      ?_, ?_⟩
    · have hne : v.size ≠ 0 := by omega
      simp [int_vector_pop, hne, load_of_lt hl]
    · have : v.size - 1 < v.size := by omega
      simp [int_vector_get, this, load_of_lt hl]
    · simp only [IntVector.elems]
      have e1 : v.size = (v.size - 1) + 1 := by omega
      conv_lhs => rw [e1]
      rw [List.take_succ, List.getElem?_eq_getElem hl]
      rfl
    · intro i hi
      have h1 : i < v.size := by omega
      simp [int_vector_get, hi, h1]
  refine ⟨⟨?_, ?_⟩, ?_, hpos⟩
  · rintro ⟨e, he⟩
    by_contra hne
    obtain ⟨x, v', hx, -⟩ := hpos (Nat.pos_of_ne_zero hne)
    rw [hx] at he
    cases he
  · intro h0
    exact ⟨.emptyContainer, by simp [int_vector_pop, h0]⟩
  · intro h0
    simp [int_vector_pop, h0]

/-- Witness of C5: popping from the vector `[10, 20, 30]` of capacity 4. -/
theorem int_vector_pop_spec_witness :
    int_vector_pop ⟨[10, 20, 30, 0], 3, 4⟩ = .ok (30, ⟨[10, 20, 30, 0], 2, 4⟩) ∧
      (((∃ e, int_vector_pop ⟨[10, 20, 30, 0], 3, 4⟩ = .error e) ↔ 3 = 0) ∧
        (3 = 0 → int_vector_pop ⟨[10, 20, 30, 0], 3, 4⟩ = .error .emptyContainer) ∧
        (0 < 3 → ∃ x v', int_vector_pop ⟨[10, 20, 30, 0], 3, 4⟩ = .ok (x, v') ∧
          int_vector_get ⟨[10, 20, 30, 0], 3, 4⟩ (3 - 1) = .ok x ∧
          v'.size = 3 - 1 ∧ v'.capacity = 4 ∧ v'.data = [10, 20, 30, 0] ∧
          IntVector.elems ⟨[10, 20, 30, 0], 3, 4⟩ = v'.elems ++ [x] ∧
          ∀ i, i < 3 - 1 → int_vector_get v' i = int_vector_get ⟨[10, 20, 30, 0], 3, 4⟩ i)) :=
  ⟨by decide, int_vector_pop_spec ⟨[10, 20, 30, 0], 3, 4⟩ (by decide)⟩

/-- C8: on a well-formed vector `int_vector_get` and `int_vector_set` fail exactly when
`index >= size` (on their bounds check); for `index < size`, `get` returns the element at
`index` (it is a pure function of the vector), and after `set(index, value)` a `get(index)`
returns `value`, every other index reads as before, and size and capacity are unchanged. -/
theorem int_vector_get_set_spec (v : IntVector) (index : Nat) (value : Int) (hwf : v.WF) :
    ((∃ e, int_vector_get v index = .error e) ↔ v.size ≤ index) ∧
      ((∃ e, int_vector_set v index value = .error e) ↔ v.size ≤ index) ∧
      (v.size ≤ index → int_vector_get v index = .error .indexOutOfBounds ∧
        int_vector_set v index value = .error .indexOutOfBounds) ∧
      (index < v.size → ∃ y v', int_vector_get v index = .ok y ∧ v.elems[index]? = some y ∧
        int_vector_set v index value = .ok v' ∧
        int_vector_get v' index = .ok value ∧
        (∀ j, j ≠ index → int_vector_get v' j = int_vector_get v j) ∧
        v'.size = v.size ∧ v'.capacity = v.capacity ∧ v'.WF) := by
  have hlen := hwf.size_le_length
  have hok : index < v.size → ∃ y v', int_vector_get v index = .ok y ∧
        v.elems[index]? = some y ∧
        int_vector_set v index value = .ok v' ∧
        int_vector_get v' index = .ok value ∧
        (∀ j, j ≠ index → int_vector_get v' j = int_vector_get v j) ∧
        v'.size = v.size ∧ v'.capacity = v.capacity ∧ v'.WF := by
    intro hi
    have hl : index < v.data.length := by omega
    obtain ⟨y, hy, hy2⟩ := get_eq_of_lt hwf hi
    refine ⟨y, { v with data := v.data.set index value }, hy, hy2, ?_, ?_, ?_, rfl, rfl, ?_⟩
    · simp [int_vector_set, hi, store_of_lt value hl]
    · simp [int_vector_get, hi, load, hl]
    · intro j hj
      simp only [int_vector_get, load]
      rw [List.getElem?_set_ne (Ne.symm hj)]
    · obtain ⟨w1, w2, w3⟩ := hwf
      exact ⟨w1, by simpa using w2, w3⟩
  have hbad : v.size ≤ index → int_vector_get v index = .error .indexOutOfBounds ∧
        int_vector_set v index value = .error .indexOutOfBounds := by
    intro hi
    have : ¬ index < v.size := by omega
    simp [int_vector_get, int_vector_set, this]
  refine ⟨⟨?_, fun hi => ⟨_, (hbad hi).1⟩⟩, ⟨?_, fun hi => ⟨_, (hbad hi).2⟩⟩, hbad, hok⟩
  · rintro ⟨e, he⟩
    by_contra hne
    obtain ⟨y, v', hy, -⟩ := hok (by omega)
    rw [hy] at he
    cases he
  · rintro ⟨e, he⟩
    by_contra hne
    obtain ⟨y, v', -, -, hy, -⟩ := hok (by omega)
    rw [hy] at he
    cases he

/-- Witness of C8: `set(2, 99)` on the vector `[0, 10, 20, 30, 40]`. -/
theorem int_vector_get_set_spec_witness :
    int_vector_set ⟨[0, 10, 20, 30, 40], 5, 5⟩ 2 99 = .ok ⟨[0, 10, 99, 30, 40], 5, 5⟩ ∧
      (((∃ e, int_vector_get ⟨[0, 10, 20, 30, 40], 5, 5⟩ 2 = .error e) ↔ 5 ≤ 2) ∧
      ((∃ e, int_vector_set ⟨[0, 10, 20, 30, 40], 5, 5⟩ 2 99 = .error e) ↔ 5 ≤ 2) ∧
      (5 ≤ 2 → int_vector_get ⟨[0, 10, 20, 30, 40], 5, 5⟩ 2 = .error .indexOutOfBounds ∧
        int_vector_set ⟨[0, 10, 20, 30, 40], 5, 5⟩ 2 99 = .error .indexOutOfBounds) ∧
      (2 < 5 → ∃ y v', int_vector_get ⟨[0, 10, 20, 30, 40], 5, 5⟩ 2 = .ok y ∧
        (IntVector.elems ⟨[0, 10, 20, 30, 40], 5, 5⟩)[2]? = some y ∧
        int_vector_set ⟨[0, 10, 20, 30, 40], 5, 5⟩ 2 99 = .ok v' ∧
        int_vector_get v' 2 = .ok 99 ∧
        (∀ j, j ≠ 2 → int_vector_get v' j = int_vector_get ⟨[0, 10, 20, 30, 40], 5, 5⟩ j) ∧
        v'.size = 5 ∧ v'.capacity = 5 ∧ v'.WF)) :=
  ⟨by decide, int_vector_get_set_spec ⟨[0, 10, 20, 30, 40], 5, 5⟩ 2 99 (by decide)⟩


theorem shift_left_spec (n : Nat) : ∀ (i : Nat) (data : List Int), i + n < data.length →
    ∃ d, shift_left i n data = .ok d ∧ d.length = data.length ∧
      ∀ j, d[j]? = if i ≤ j ∧ j < i + n then data[j + 1]? else data[j]? := by
  induction n with
  | zero =>
    intro i data _
    refine ⟨data, rfl, rfl, fun j => ?_⟩
    have : ¬ (i ≤ j ∧ j < i + 0) := by omega
    rw [if_neg this]
  | succ n ih =>
    intro i data h
    have h1 : i + 1 < data.length := by omega
    have h2 : i < data.length := by omega
    obtain ⟨d, hd, hlen, hget⟩ := ih (i + 1) (data.set i (data.get ⟨i + 1, h1⟩))
      (by simp; omega)
    refine ⟨d, ?_, by simpa using hlen, fun j => ?_⟩
    · simp only [shift_left, load_of_lt h1, store_of_lt _ h2]
      exact hd
    · rw [hget j]
      by_cases c1 : j < i
      · have n1 : ¬ (i + 1 ≤ j ∧ j < i + 1 + n) := by omega
        have n2 : ¬ (i ≤ j ∧ j < i + (n + 1)) := by omega
        rw [if_neg n1, if_neg n2, List.getElem?_set_ne (by omega)]
      · by_cases c2 : j = i
        · subst c2
          have n1 : ¬ (j + 1 ≤ j ∧ j < j + 1 + n) := by omega
          have n2 : (j ≤ j ∧ j < j + (n + 1)) := by omega
          rw [if_neg n1, if_pos n2, List.getElem?_eq_getElem h1]
          simp [h2]
        · by_cases c3 : j < i + 1 + n
          · have n1 : (i + 1 ≤ j ∧ j < i + 1 + n) := by omega
            have n2 : (i ≤ j ∧ j < i + (n + 1)) := by omega
            rw [if_pos n1, if_pos n2, List.getElem?_set_ne (by omega)]
          · have n1 : ¬ (i + 1 ≤ j ∧ j < i + 1 + n) := by omega
            have n2 : ¬ (i ≤ j ∧ j < i + (n + 1)) := by omega
            rw [if_neg n1, if_neg n2, List.getElem?_set_ne (by omega)]

theorem shift_right_spec (index : Nat) : ∀ (i : Nat) (data : List Int), i < data.length →
    index ≤ i →
    ∃ d, shift_right index i data = .ok d ∧ d.length = data.length ∧
      ∀ j, d[j]? = if index < j ∧ j ≤ i then data[j - 1]? else data[j]? := by
  intro i
  induction i with
  | zero =>
    intro data _ _
    refine ⟨data, rfl, rfl, fun j => ?_⟩
    have : ¬ (index < j ∧ j ≤ 0) := by omega
    rw [if_neg this]
  | succ i ih =>
    intro data h hidx
    by_cases hgt : i + 1 > index
    · have h2 : i < data.length := by omega
      obtain ⟨d, hd, hlen, hget⟩ := ih (data.set (i + 1) (data.get ⟨i, h2⟩))
        (by simp; omega) (by omega)
      refine ⟨d, ?_, by simpa using hlen, fun j => ?_⟩
      · simp only [shift_right, if_pos hgt, load_of_lt h2, store_of_lt _ h]
        exact hd
      · rw [hget j]
        by_cases c1 : j ≤ index
        · have n1 : ¬ (index < j ∧ j ≤ i) := by omega
          have n2 : ¬ (index < j ∧ j ≤ i + 1) := by omega
          rw [if_neg n1, if_neg n2, List.getElem?_set_ne (by omega)]
        · by_cases c2 : j ≤ i
          · have n1 : (index < j ∧ j ≤ i) := by omega
            have n2 : (index < j ∧ j ≤ i + 1) := by omega
            rw [if_pos n1, if_pos n2, List.getElem?_set_ne (by omega)]
          · by_cases c3 : j = i + 1
            · subst c3
              have n1 : ¬ (index < i + 1 ∧ i + 1 ≤ i) := by omega
              have n2 : (index < i + 1 ∧ i + 1 ≤ i + 1) := by omega
              rw [if_neg n1, if_pos n2]
              simp [h, List.getElem?_eq_getElem h2]
            · have n1 : ¬ (index < j ∧ j ≤ i) := by omega
              have n2 : ¬ (index < j ∧ j ≤ i + 1) := by omega
              rw [if_neg n1, if_neg n2, List.getElem?_set_ne (by omega)]
    · refine ⟨data, ?_, rfl, fun j => ?_⟩
      · simp only [shift_right, if_neg hgt]
      · have : ¬ (index < j ∧ j ≤ i + 1) := by omega
        rw [if_neg this]

theorem shift_right_ok {index : Nat} : ∀ (i : Nat) (data d : List Int),
    shift_right index i data = .ok d →
    d.length = data.length ∧ (index < i → i < data.length) := by
  intro i
  induction i with
  | zero =>
    intro data d h
    simp only [shift_right, Except.ok.injEq] at h
    subst h
    exact ⟨rfl, fun h => absurd h (Nat.not_lt_zero _)⟩
  | succ i ih =>
    intro data d h
    unfold shift_right at h
    split at h
    · split at h
      · simp at h
      · split at h
        · simp at h
        · rename_i x hx d1 hd1
          obtain ⟨hl, hdd⟩ := store_eq_ok.mp hd1
          obtain ⟨h1, -⟩ := ih _ _ h
          subst hdd
          exact ⟨by simpa using h1, fun _ => hl⟩
    · rename_i hgt
      simp only [Except.ok.injEq] at h
      subst h
      exact ⟨rfl, fun hh => absurd hh hgt⟩

theorem getElem?_take_insert (e : List Int) (index j : Nat) (value : Int)
    (h : index ≤ e.length) :
    (e.take index ++ value :: e.drop index)[j]? =
      if j < index then e[j]? else if j = index then some value else e[j - 1]? := by
  rw [List.getElem?_append, List.length_take, Nat.min_eq_left h]
  by_cases c1 : j < index
  · rw [if_pos c1, if_pos c1, List.getElem?_take, if_pos c1]
  · rw [if_neg c1, if_neg c1]
    by_cases c2 : j = index
    · subst c2
      simp
    · rw [if_neg c2]
      obtain ⟨k, hk⟩ : ∃ k, j - index = k + 1 := ⟨j - index - 1, by omega⟩
      rw [hk, List.getElem?_cons_succ, List.getElem?_drop]
      congr 1
      omega

theorem take_set_shift_right {data d : List Int} {size index : Nat} (value : Int)
    (hsz : size < data.length) (hidx : index ≤ size) (hlen : d.length = data.length)
    (hd : ∀ j, d[j]? = if index < j ∧ j ≤ size then data[j - 1]? else data[j]?) :
    (d.set index value).take (size + 1) =
      (data.take size).take index ++ value :: (data.take size).drop index := by
  apply List.ext_getElem?
  intro j
  rw [getElem?_take_insert _ _ _ _ (by simp; omega), List.getElem?_take]
  by_cases c1 : j < index
  · rw [if_pos (by omega), if_pos c1, List.getElem?_set_ne (by omega), hd,
      if_neg (by omega), List.getElem?_take, if_pos (by omega)]
  · by_cases c2 : j = index
    · subst c2
      rw [if_pos (by omega), if_neg c1, if_pos rfl, List.getElem?_set, if_pos rfl,
        if_pos (by omega)]
    · rw [if_neg c1, if_neg c2, List.getElem?_take]
      by_cases c3 : j ≤ size
      · rw [if_pos (by omega), if_pos (by omega), List.getElem?_set_ne (by omega), hd,
          if_pos (by omega)]
      · rw [if_neg (by omega), if_neg (by omega)]

theorem take_shift_left {data d : List Int} {size index : Nat} (hidx : index < size)
    (hd : ∀ j, d[j]? = if index ≤ j ∧ j < index + (size - 1 - index) then data[j + 1]?
      else data[j]?) :
    d.take (size - 1) = (data.take size).take index ++ (data.take size).drop (index + 1) := by
  rw [← List.eraseIdx_eq_take_drop_succ]
  apply List.ext_getElem?
  intro j
  rw [List.getElem?_eraseIdx, List.getElem?_take, List.getElem?_take, List.getElem?_take, hd]
  by_cases c1 : j < index
  · rw [if_pos (by omega), if_neg (by omega), if_pos c1, if_pos (by omega)]
  · by_cases c2 : j < size - 1
    · rw [if_pos c2, if_pos (by omega), if_neg c1, if_pos (by omega)]
    · rw [if_neg c2, if_neg c1, if_neg (by omega)]

/-- C7: on a well-formed vector `int_vector_remove` fails exactly when `index >= size`
(so also for `index == size`), on its bounds check; for `index < size` the size drops by 1,
the capacity is untouched, and the logical elements become `e[0..index)` followed by
`e[index+1..size)`. -/
theorem int_vector_remove_spec (v : IntVector) (index : Nat) (hwf : v.WF) :
    ((∃ e, int_vector_remove v index = .error e) ↔ v.size ≤ index) ∧
      (v.size ≤ index → int_vector_remove v index = .error .indexOutOfBounds) ∧
      (index < v.size → ∃ v', int_vector_remove v index = .ok v' ∧
        v'.size = v.size - 1 ∧ v'.capacity = v.capacity ∧
        v'.elems = v.elems.take index ++ v.elems.drop (index + 1) ∧ v'.WF) := by
  have hlen := hwf.size_le_length
  have hok : index < v.size → ∃ v', int_vector_remove v index = .ok v' ∧
        v'.size = v.size - 1 ∧ v'.capacity = v.capacity ∧
        v'.elems = v.elems.take index ++ v.elems.drop (index + 1) ∧ v'.WF := by
    intro hi
    obtain ⟨d, hd, hdl, hget⟩ := shift_left_spec (v.size - 1 - index) index v.data (by omega)
    refine ⟨{ v with data := d, size := v.size - 1 }, ?_, rfl, rfl, ?_, ?_⟩
    · simp [int_vector_remove, hi, hd]
    · exact take_shift_left hi hget
    · obtain ⟨w1, w2, w3⟩ := hwf
      exact ⟨by simp only; omega, by simp only; omega, w3⟩
  have hbad : v.size ≤ index → int_vector_remove v index = .error .indexOutOfBounds := by
    intro hi
    have : ¬ index < v.size := by omega
    simp [int_vector_remove, this]
  refine ⟨⟨?_, fun hi => ⟨_, hbad hi⟩⟩, hbad, hok⟩
  rintro ⟨e, he⟩
  by_contra hne
  obtain ⟨v', hv, -⟩ := hok (by omega)
  rw [hv] at he
  cases he

/-- Witness of C7: removing index 1 of `[10, 20, 30]`. -/
theorem int_vector_remove_spec_witness :
    int_vector_remove ⟨[10, 20, 30, 0], 3, 4⟩ 1 = .ok ⟨[10, 30, 30, 0], 2, 4⟩ ∧
      (((∃ e, int_vector_remove ⟨[10, 20, 30, 0], 3, 4⟩ 1 = .error e) ↔ 3 ≤ 1) ∧
      (3 ≤ 1 → int_vector_remove ⟨[10, 20, 30, 0], 3, 4⟩ 1 = .error .indexOutOfBounds) ∧
      (1 < 3 → ∃ v', int_vector_remove ⟨[10, 20, 30, 0], 3, 4⟩ 1 = .ok v' ∧
        v'.size = 3 - 1 ∧ v'.capacity = 4 ∧
        v'.elems = (IntVector.elems ⟨[10, 20, 30, 0], 3, 4⟩).take 1 ++
          (IntVector.elems ⟨[10, 20, 30, 0], 3, 4⟩).drop (1 + 1) ∧ v'.WF)) :=
  ⟨by decide, int_vector_remove_spec ⟨[10, 20, 30, 0], 3, 4⟩ 1 (by decide)⟩

/-- After the growth step of a well-formed vector, a block with room for index `size`
is a block of the full new capacity: the vector is well formed again, with the same
logical elements. -/
theorem grow_if_full_wf {vec v : IntVector} {r : Reply} (hwf : vec.WF)
    (h : grow_if_full vec r = .ok v) (hroom : v.size < v.data.length) :
    v.WF ∧ v.size = vec.size ∧ v.size < v.capacity ∧ v.elems = vec.elems := by
  have hw := hwf
  obtain ⟨w1, w2, w3⟩ := hw
  by_cases hfull : vec.size = vec.capacity
  · unfold grow_if_full at h
    rw [if_pos hfull] at h
    simp only at h
    split at h
    · simp at h
    · rename_i v2 success hres
      cases success with
      | false => simp at h
      | true =>
        simp only [if_true, Except.ok.injEq] at h
        subst h
        obtain ⟨hsz, hsize, -, hb⟩ := resize_ok hres
        obtain ⟨hc, hd⟩ := hb rfl
        have hbytes : v2.capacity * SIZEOF_INT < SIZE_MOD := by
          rcases hd with ⟨hz, -⟩ | ⟨-, hd⟩
          · rw [hc, hz]; simp [SIZE_MOD]
          · have hl := realloc_length hd
            rw [hc]
            simp only [SIZE_MOD, SIZEOF_INT, GROWTH_FACTOR, DEFAULT_SIZE] at hl w3 ⊢
            split at hl <;> split <;> omega
        rw [hc] at hbytes
        obtain ⟨a1, a2, a3, a4⟩ := resize_wf hwf hbytes hres
        refine ⟨a1, a2, ?_, a4⟩
        obtain ⟨b1, b2, -⟩ := a1
        omega
  · obtain ⟨-, -, -, heq⟩ := grow_if_full_ok (by simp only [SIZE_MOD, SIZEOF_INT] at w3 ⊢; omega) h
    have := heq hfull
    subst this
    exact ⟨hwf, rfl, by omega, rfl⟩


theorem load_fault {data : List Int} {i : Nat} {e : Fault} (h : load data i = .error e) :
    e = .undefinedBehaviour := by
  unfold load at h
  split at h <;> simp at h
  exact h.symm

theorem store_fault {data : List Int} {i : Nat} {x : Int} {e : Fault}
    (h : store data i x = .error e) : e = .undefinedBehaviour := by
  unfold store at h
  split at h <;> simp at h
  exact h.symm

theorem shift_right_fault {index : Nat} {e : Fault} : ∀ (i : Nat) (data : List Int),
    shift_right index i data = .error e → e = .undefinedBehaviour := by
  intro i
  induction i with
  | zero =>
    intro data h
    simp [shift_right] at h
  | succ i ih =>
    intro data h
    unfold shift_right at h
    split at h
    · split at h
      · rename_i e2 he2
        simp only [Except.error.injEq] at h
        subst h
        exact load_fault he2
      · split at h
        · rename_i e2 he2
          simp only [Except.error.injEq] at h
          subst h
          exact store_fault he2
        · exact ih _ h
    · simp at h

/-- A call of `int_vector_resize` returns false when the allocator refuses, or when the
byte size of the request has wrapped to 0 on a vector that has a block. -/
theorem resize_false {vec v : IntVector} {n : Nat} {r : Reply}
    (h : int_vector_resize vec n r = .ok (v, false)) :
    r = none ∨ (n * SIZEOF_INT % SIZE_MOD = 0 ∧ vec.capacity ≠ 0) := by
  rcases ((resize_ok h).2.2.1 rfl).2 with hv | ⟨-, h1, h2⟩
  · cases r with
    | none => exact Or.inl rfl
    | some junk =>
      right
      unfold int_vector_resize at h
      split at h
      · cases h
      · split at h
        · cases h
        · split at h
          · rename_i hrel
            unfold realloc at hrel
            split at hrel
            · cases hrel
            · cases hrel
          · rename_i hrel
            unfold realloc at hrel
            split at hrel
            · rename_i hc
              exact ⟨hc.1, by simpa using hc.2⟩
            · cases hrel
          · cases h
  · exact Or.inr ⟨h1, h2⟩

theorem grow_if_full_fault {vec : IntVector} {r : Reply} {e : Fault}
    (h : grow_if_full vec r = .error e) :
    vec.size = vec.capacity ∧ (e = .resizeBelowSize ∨ e = .allocFailed) := by
  unfold grow_if_full at h
  split at h
  · rename_i hfull
    refine ⟨hfull, ?_⟩
    simp only at h
    split at h
    · rename_i e2 he2
      simp only [Except.error.injEq] at h
      subst h
      exact Or.inl (resize_fault he2).1
    · rename_i v2 success hres
      cases success with
      | true => simp at h
      | false =>
        simp at h
        exact Or.inr h.symm
  · simp at h

/-- The growth step succeeds, and leaves room for one more element, when the vector is
not full or the allocator grants a request whose byte size does not wrap. -/
theorem grow_if_full_grant {vec : IntVector} {r : Reply} (hwf : vec.WF)
    (h : vec.size < vec.capacity ∨ (r.isSome = true ∧ vec.capacity * 8 < SIZE_MOD)) :
    ∃ v, grow_if_full vec r = .ok v ∧ v.size < v.data.length := by
  obtain ⟨w1, w2, w3⟩ := hwf
  by_cases hfull : vec.size = vec.capacity
  · rcases h with h | ⟨hr, hb⟩
    · omega
    · obtain ⟨junk, rfl⟩ := Option.isSome_iff_exists.mp hr
      simp only [SIZE_MOD] at hb
      by_cases hz : vec.capacity = 0
      · refine ⟨{ vec with
          data := (List.range 8).map (fun i => vec.data.getD i (junk i)),
          capacity := 8 }, ?_, ?_⟩
        · simp [grow_if_full, hfull, hz, int_vector_resize, realloc, DEFAULT_SIZE, SIZEOF_INT,
            SIZE_MOD]
        · simp; omega
      · have e1 : vec.capacity * GROWTH_FACTOR % SIZE_MOD = vec.capacity * 2 := by
          simp only [GROWTH_FACTOR, SIZE_MOD]; omega
        have e2 : vec.capacity * 2 * SIZEOF_INT % SIZE_MOD / SIZEOF_INT = vec.capacity * 2 := by
          simp only [SIZEOF_INT, SIZE_MOD]; omega
        refine ⟨{ vec with
          data := (List.range (vec.capacity * 2)).map (fun i => vec.data.getD i (junk i)),
          capacity := vec.capacity * 2 }, ?_, ?_⟩
        · have n1 : ¬ vec.capacity * 2 < vec.capacity := by omega
          have n2 : ¬ vec.capacity * 2 * SIZEOF_INT % SIZE_MOD = 0 := by
            simp only [SIZEOF_INT, SIZE_MOD]; omega
          simp [grow_if_full, hfull, hz, int_vector_resize, realloc, e1, e2, n1, n2]
        · simp; omega
  · exact ⟨vec, by simp [grow_if_full, hfull], by omega⟩

/-- The index check of `int_vector_insert` is the one that stops the call exactly when
`index > size`. -/
theorem insert_index_fault (v : IntVector) (index : Nat) (value : Int) (r : Reply) :
    int_vector_insert v index value r = .error .indexOutOfBounds ↔ v.size < index := by
  constructor
  · intro h
    by_contra hle
    have hi : index ≤ v.size := by omega
    unfold int_vector_insert at h
    rw [if_pos hi] at h
    split at h
    · rename_i e he
      simp only [Except.error.injEq] at h
      subst h
      rcases (grow_if_full_fault he).2 with h1 | h1 <;> cases h1
    · split at h
      · rename_i e he
        simp only [Except.error.injEq] at h
        subst h
        cases shift_right_fault _ _ he
      · split at h
        · rename_i e he
          simp only [Except.error.injEq] at h
          subst h
          cases store_fault he
        · simp at h
  · intro h
    have : ¬ index ≤ v.size := by omega
    simp [int_vector_insert, this]

/-- A completed insertion into a well-formed vector puts the value at `index` and keeps
the relative order of the other elements. -/
theorem insert_ok_spec {v v' : IntVector} {index : Nat} {value : Int} {r : Reply}
    (hwf : v.WF) (hi : index ≤ v.size) (h : int_vector_insert v index value r = .ok v') :
    v'.size = v.size + 1 ∧
      v'.elems = v.elems.take index ++ value :: v.elems.drop index ∧ v'.WF := by
  unfold int_vector_insert at h
  rw [if_pos hi] at h
  split at h
  · simp at h
  · rename_i g hg
    split at h
    · simp at h
    · rename_i d hd
      split at h
      · simp at h
      · rename_i d2 hd2
        simp only [Except.ok.injEq] at h
        subst h
        obtain ⟨hdl, hroom⟩ := shift_right_ok _ _ _ hd
        obtain ⟨hl2, hd2e⟩ := store_eq_ok.mp hd2
        have hgs : g.size = v.size := by
          have w3 := hwf.2.2
          exact (grow_if_full_ok (by simp only [SIZE_MOD, SIZEOF_INT] at w3 ⊢; omega) hg).1
        have hroom2 : g.size < g.data.length := by
          by_cases c : index < g.size
          · exact hroom c
          · omega
        obtain ⟨gwf, -, gcap, gel⟩ := grow_if_full_wf hwf hg hroom2
        obtain ⟨d', hd', hdl', hget⟩ := shift_right_spec index g.size g.data hroom2 (by omega)
        rw [hd] at hd'
        simp only [Except.ok.injEq] at hd'
        subst hd'
        obtain ⟨g1, g2, g3⟩ := gwf
        have hmod : (g.size + 1) % SIZE_MOD = g.size + 1 := by
          simp only [SIZE_MOD, SIZEOF_INT] at g3 ⊢
          omega
        have gel2 : List.take g.size g.data = List.take v.size v.data := gel
        refine ⟨?_, ?_, ?_⟩
        · show (g.size + 1) % SIZE_MOD = v.size + 1
          rw [hmod, hgs]
        · simp only [IntVector.elems, hmod, hd2e]
          rw [take_set_shift_right value hroom2 (by omega) hdl hget, gel2]
        · refine ⟨by simp only [hmod]; omega, ?_, g3⟩
          simp only [hd2e, List.length_set]
          omega

/-- An insertion at a valid index completes when the vector is not full or the allocator
grants a growth request whose byte size fits `size_t`. -/
theorem insert_grant {v : IntVector} {index : Nat} (value : Int) {r : Reply}
    (hwf : v.WF) (hi : index ≤ v.size)
    (hgr : v.size < v.capacity ∨ (r.isSome = true ∧ v.capacity * 8 < SIZE_MOD)) :
    ∃ v', int_vector_insert v index value r = .ok v' := by
  obtain ⟨g, hg, hroom⟩ := grow_if_full_grant hwf hgr
  have hgs : g.size = v.size := by
    have w3 := hwf.2.2
    exact (grow_if_full_ok (by simp only [SIZE_MOD, SIZEOF_INT] at w3 ⊢; omega) hg).1
  obtain ⟨d, hd, hdl, -⟩ := shift_right_spec index g.size g.data hroom (by omega)
  have hl : index < d.length := by omega
  exact ⟨{ g with data := d.set index value, size := (g.size + 1) % SIZE_MOD },
    by simp only [int_vector_insert, if_pos hi, hg, hd, store_of_lt value hl]⟩

/-- C6: on a well-formed vector `int_vector_insert` is stopped by its index check exactly
when `index > size`. For `index <= size`, whenever the call completes the size is
`size + 1` and the logical elements are `e[0..index)`, then `value`, then `e[index..size)`;
it does complete whenever no growth is needed or the allocator grants a growth request
whose byte size fits `size_t`, so the only other way to stop is the growth step of a full
vector (the allocator refuses, or the doubled byte size does not fit `size_t`). -/
theorem int_vector_insert_spec (v : IntVector) (index : Nat) (value : Int) (r : Reply)
    (hwf : v.WF) :
    (int_vector_insert v index value r = .error .indexOutOfBounds ↔ v.size < index) ∧
      (index ≤ v.size → ∀ v', int_vector_insert v index value r = .ok v' →
        v'.size = v.size + 1 ∧
        v'.elems = v.elems.take index ++ value :: v.elems.drop index ∧ v'.WF) ∧
      (index ≤ v.size →
        (v.size < v.capacity ∨ (r.isSome = true ∧ v.capacity * 8 < SIZE_MOD)) →
        ∃ v', int_vector_insert v index value r = .ok v') ∧
      (index ≤ v.size → ∀ e, int_vector_insert v index value r = .error e →
        v.size = v.capacity ∧ (r = none ∨ SIZE_MOD ≤ v.capacity * 8)) := by
  refine ⟨insert_index_fault v index value r, fun hi v' h => insert_ok_spec hwf hi h,
    fun hi hgr => insert_grant value hwf hi hgr, fun hi e he => ?_⟩
  have hsz := hwf.1
  by_contra hcon
  have hgr : v.size < v.capacity ∨ (r.isSome = true ∧ v.capacity * 8 < SIZE_MOD) := by
    by_cases hfull : v.size = v.capacity
    · right
      cases r with
      | none => exact absurd ⟨hfull, Or.inl rfl⟩ hcon
      | some junk =>
        refine ⟨rfl, ?_⟩
        by_contra hb
        exact hcon ⟨hfull, Or.inr (by omega)⟩
    · left
      omega
  obtain ⟨v', hv'⟩ := insert_grant value hwf hi hgr
  rw [hv'] at he
  cases he

/-- Witness of C6: `insert(1, 15)` into `[10, 20, 30]` held in a block of 5 slots. -/
theorem int_vector_insert_spec_witness :
    int_vector_insert ⟨[10, 20, 30, 0, 0], 3, 5⟩ 1 15 none = .ok ⟨[10, 15, 20, 30, 0], 4, 5⟩ ∧
      ((int_vector_insert ⟨[10, 20, 30, 0, 0], 3, 5⟩ 1 15 none = .error .indexOutOfBounds ↔
          3 < 1) ∧
      (1 ≤ 3 → ∀ v', int_vector_insert ⟨[10, 20, 30, 0, 0], 3, 5⟩ 1 15 none = .ok v' →
        v'.size = 3 + 1 ∧
        v'.elems = (IntVector.elems ⟨[10, 20, 30, 0, 0], 3, 5⟩).take 1 ++
          15 :: (IntVector.elems ⟨[10, 20, 30, 0, 0], 3, 5⟩).drop 1 ∧ v'.WF) ∧
      (1 ≤ 3 → (3 < 5 ∨ ((none : Reply).isSome = true ∧ 5 * 8 < SIZE_MOD)) →
        ∃ v', int_vector_insert ⟨[10, 20, 30, 0, 0], 3, 5⟩ 1 15 none = .ok v') ∧
      (1 ≤ 3 → ∀ e, int_vector_insert ⟨[10, 20, 30, 0, 0], 3, 5⟩ 1 15 none = .error e →
        (3 : Nat) = 5 ∧ ((none : Reply) = none ∨ SIZE_MOD ≤ 5 * 8))) :=
  ⟨by decide, int_vector_insert_spec ⟨[10, 20, 30, 0, 0], 3, 5⟩ 1 15 none (by decide)⟩

/-! ## Push as insertion at the end -/

theorem grow_if_full_size {vec v : IntVector} {r : Reply} (h : grow_if_full vec r = .ok v) :
    v.size = vec.size := by
  unfold grow_if_full at h
  split at h
  · simp only at h
    split at h
    · simp at h
    · rename_i v2 success hres
      cases success with
      | false => simp at h
      | true =>
        simp only [if_true, Except.ok.injEq] at h
        subst h
        exact (resize_ok hres).2.1
  · simp only [Except.ok.injEq] at h
    subst h
    rfl

theorem grow_if_full_cap_lt {vec v : IntVector} {r : Reply} (hcap : vec.capacity < SIZE_MOD)
    (h : grow_if_full vec r = .ok v) : v.capacity < SIZE_MOD := by
  unfold grow_if_full at h
  split at h
  · simp only at h
    split at h
    · simp at h
    · rename_i v2 success hres
      cases success with
      | false => simp at h
      | true =>
        simp only [if_true, Except.ok.injEq] at h
        subst h
        rw [((resize_ok hres).2.2.2 rfl).1]
        simp only [SIZE_MOD, DEFAULT_SIZE]
        split <;> omega
  · simp only [Except.ok.injEq] at h
    subst h
    exact hcap

theorem shift_right_self (i : Nat) (data : List Int) : shift_right i i data = .ok data := by
  cases i with
  | zero => rfl
  | succ i => simp [shift_right]

theorem push_eq_insert (v : IntVector) (value : Int) (r : Reply) :
    int_vector_push v value r = int_vector_insert v v.size value r := by
  unfold int_vector_push int_vector_insert
  rw [if_pos (le_refl _)]
  cases hg : grow_if_full v r with
  | error e => rfl
  | ok g =>
    simp only
    rw [← grow_if_full_size hg, shift_right_self]

/-- A completed push on a well-formed vector appends the value. -/
theorem push_ok_spec {v v' : IntVector} {value : Int} {r : Reply} (hwf : v.WF)
    (h : int_vector_push v value r = .ok v') :
    v'.WF ∧ v'.size = v.size + 1 ∧ v'.elems = v.elems ++ [value] := by
  rw [push_eq_insert] at h
  obtain ⟨h1, h2, h3⟩ := insert_ok_spec hwf (le_refl _) h
  refine ⟨h3, h1, ?_⟩
  rw [h2, ← IntVector.elems_length hwf, List.take_length, List.drop_length]

/-- A push completes when the vector is not full or the allocator grants a growth request
whose byte size fits `size_t`. -/
theorem push_grant {v : IntVector} (value : Int) {r : Reply} (hwf : v.WF)
    (h : v.size < v.capacity ∨ (r.isSome = true ∧ v.capacity * 8 < SIZE_MOD)) :
    ∃ v', int_vector_push v value r = .ok v' := by
  rw [push_eq_insert]
  exact insert_grant value hwf (le_refl _) h

/-- C3: growth rule. A completed `int_vector_push` or `int_vector_insert` leaves the
capacity unchanged when `size < capacity` held before, and when `size == capacity` held the
new capacity is 8 for an old capacity of 0 and exactly twice the old capacity otherwise.
On a well-formed vector both calls complete whenever no growth is needed or the allocator
grants the growth request (of a byte size that fits `size_t`). -/
theorem growth_rule (v : IntVector) (index : Nat) (value : Int) (r : Reply)
    (hcap : v.capacity < SIZE_MOD) :
    (∀ v', int_vector_push v value r = .ok v' →
        (v.size < v.capacity → v'.capacity = v.capacity) ∧
        (v.size = v.capacity → v'.capacity = if v.capacity = 0 then 8 else 2 * v.capacity)) ∧
      (∀ v', int_vector_insert v index value r = .ok v' →
        (v.size < v.capacity → v'.capacity = v.capacity) ∧
        (v.size = v.capacity → v'.capacity = if v.capacity = 0 then 8 else 2 * v.capacity)) ∧
      (v.WF → (v.size < v.capacity ∨ (r.isSome = true ∧ v.capacity * 8 < SIZE_MOD)) →
        (∃ v', int_vector_push v value r = .ok v') ∧
        (index ≤ v.size → ∃ v', int_vector_insert v index value r = .ok v')) := by
  have key : ∀ g, grow_if_full v r = .ok g →
      (v.size < v.capacity → g.capacity = v.capacity) ∧
      (v.size = v.capacity → g.capacity = if v.capacity = 0 then 8 else 2 * v.capacity) := by
    intro g hg
    obtain ⟨-, hc, -, -⟩ := grow_if_full_ok hcap hg
    constructor
    · intro hlt
      rw [hc, if_neg (by omega)]
    · intro heq
      rw [hc, if_pos heq]
  refine ⟨?_, ?_, ?_⟩
  · intro v' h
    unfold int_vector_push at h
    split at h
    · simp at h
    · rename_i g hg
      split at h
      · simp at h
      · simp only [Except.ok.injEq] at h
        subst h
        exact key g hg
  · intro v' h
    unfold int_vector_insert at h
    split at h
    · split at h
      · simp at h
      · rename_i g hg
        split at h
        · simp at h
        · split at h
          · simp at h
          · simp only [Except.ok.injEq] at h
            subst h
            exact key g hg
    · simp at h
  · intro hwf hgr
    exact ⟨push_grant value hwf hgr, fun hi => insert_grant value hwf hi hgr⟩

/-- Witness of C3: a push on the full vector `[10, 20]` of capacity 2 doubles the capacity. -/
theorem growth_rule_witness :
    int_vector_push ⟨[10, 20], 2, 2⟩ 30 grant = .ok ⟨[10, 20, 30, 0], 3, 4⟩ ∧
      ((∀ v', int_vector_push ⟨[10, 20], 2, 2⟩ 30 grant = .ok v' →
        ((2 : Nat) < 2 → v'.capacity = 2) ∧
        ((2 : Nat) = 2 → v'.capacity = if (2 : Nat) = 0 then 8 else 2 * 2)) ∧
      (∀ v', int_vector_insert ⟨[10, 20], 2, 2⟩ 1 30 grant = .ok v' →
        ((2 : Nat) < 2 → v'.capacity = 2) ∧
        ((2 : Nat) = 2 → v'.capacity = if (2 : Nat) = 0 then 8 else 2 * 2)) ∧
      (IntVector.WF ⟨[10, 20], 2, 2⟩ →
        ((2 : Nat) < 2 ∨ (grant.isSome = true ∧ 2 * 8 < SIZE_MOD)) →
        (∃ v', int_vector_push ⟨[10, 20], 2, 2⟩ 30 grant = .ok v') ∧
        (1 ≤ 2 → ∃ v', int_vector_insert ⟨[10, 20], 2, 2⟩ 1 30 grant = .ok v'))) :=
  ⟨by decide, growth_rule ⟨[10, 20], 2, 2⟩ 1 30 grant (by decide)⟩

/-! ## Capacity management -/

/-- A completed `int_vector_reserve` never lowers the capacity, reaches at least the
requested one, and keeps the size. -/
theorem reserve_capacity {v v' : IntVector} {n : Nat} {r : Reply}
    (h : int_vector_reserve v n r = .ok v') :
    v'.capacity = (if n > v.capacity then n else v.capacity) ∧ v.capacity ≤ v'.capacity ∧
      n ≤ v'.capacity ∧ v'.size = v.size := by
  unfold int_vector_reserve at h
  split at h
  · rename_i hgt
    split at h
    · simp at h
    · rename_i v2 success hres
      cases success with
      | false => simp at h
      | true =>
        simp only [if_true, Except.ok.injEq] at h
        subst h
        obtain ⟨-, hsize, -, hb⟩ := resize_ok hres
        obtain ⟨hc, -⟩ := hb rfl
        exact ⟨by rw [if_pos hgt]; exact hc, by omega, by omega, hsize⟩
  · rename_i hle
    simp only [Except.ok.injEq] at h
    subst h
    exact ⟨by rw [if_neg hle], le_refl _, by omega, rfl⟩

/-- For a requested capacity whose byte size fits `size_t`, a completed
`int_vector_reserve` on a well-formed vector keeps the logical elements. -/
theorem reserve_small {v v' : IntVector} {n : Nat} {r : Reply} (hwf : v.WF)
    (hn : n * SIZEOF_INT < SIZE_MOD) (h : int_vector_reserve v n r = .ok v') :
    v'.WF ∧ v'.elems = v.elems := by
  unfold int_vector_reserve at h
  split at h
  · split at h
    · simp at h
    · rename_i v2 success hres
      cases success with
      | false => simp at h
      | true =>
        simp only [if_true, Except.ok.injEq] at h
        subst h
        obtain ⟨a1, -, -, a4⟩ := resize_wf hwf hn hres
        exact ⟨a1, a4⟩
  · simp only [Except.ok.injEq] at h
    subst h
    exact ⟨hwf, rfl⟩

/-- C9 (failing input): on the well-formed vector `[1, 2]` of capacity 2 a
`int_vector_reserve` of `2 ^ 62 + 1` slots asks `realloc` for `(2 ^ 62 + 1) * 4 mod 2 ^ 64
= 4` bytes. Whenever the allocator grants that, the call completes with capacity
`2 ^ 62 + 1` and size 2 over a block of a single slot: the logical element at index 1 is
gone and reading it is undefined behaviour. -/
theorem int_vector_reserve_overflow (junk : Nat → Int) :
    IntVector.WF ⟨[1, 2], 2, 2⟩ ∧
      int_vector_get ⟨[1, 2], 2, 2⟩ 1 = .ok 2 ∧
      int_vector_reserve ⟨[1, 2], 2, 2⟩ 4611686018427387905 (some junk) =
        .ok ⟨[1], 2, 4611686018427387905⟩ ∧
      IntVector.elems ⟨[1], 2, 4611686018427387905⟩ ≠ IntVector.elems ⟨[1, 2], 2, 2⟩ ∧
      int_vector_get ⟨[1], 2, 4611686018427387905⟩ 1 = .error .undefinedBehaviour := by
  refine ⟨by decide, by decide, ?_, by decide, by decide⟩
  rfl

/-- C10: on a well-formed vector a completed `int_vector_shrink_to_fit` leaves
`capacity == size` (so capacity 0 for size 0) and keeps the size and the logical elements;
the call completes whenever nothing has to shrink, the vector is empty, or the allocator
grants the smaller block. -/
theorem int_vector_shrink_to_fit_spec (v : IntVector) (r : Reply) (hwf : v.WF) :
    (∀ v', int_vector_shrink_to_fit v r = .ok v' →
        v'.capacity = v'.size ∧ v'.size = v.size ∧ v'.elems = v.elems ∧
        (v.size = 0 → v'.capacity = 0) ∧ v'.WF) ∧
      ((v.size = v.capacity ∨ v.size = 0 ∨ r.isSome = true) →
        ∃ v', int_vector_shrink_to_fit v r = .ok v') := by
  have hw := hwf
  obtain ⟨w1, w2, w3⟩ := hw
  constructor
  · intro v' h
    unfold int_vector_shrink_to_fit at h
    split at h
    · split at h
      · simp at h
      · rename_i v2 success hres
        cases success with
        | false => simp at h
        | true =>
          simp only [if_true, Except.ok.injEq] at h
          subst h
          have hn : v.size * SIZEOF_INT < SIZE_MOD := by
            simp only [SIZEOF_INT, SIZE_MOD] at w3 ⊢
            omega
          obtain ⟨a1, a2, a3, a4⟩ := resize_wf hwf hn hres
          exact ⟨by omega, a2, a4, fun h0 => by omega, a1⟩
    · rename_i hge
      simp only [Except.ok.injEq] at h
      subst h
      exact ⟨by omega, rfl, rfl, fun h0 => by omega, hwf⟩
  · intro hc
    by_cases hlt : v.size < v.capacity
    · by_cases h0 : v.size = 0
      · have e : int_vector_resize v v.size r =
            .ok ({ v with data := [], capacity := 0 }, true) := by
          simp [int_vector_resize, h0]
        refine ⟨{ v with data := [], capacity := 0 }, ?_⟩
        simp only [int_vector_shrink_to_fit, if_pos hlt, e, if_true]
      · rcases hc with hc | hc | hc
        · omega
        · exact absurd hc h0
        · obtain ⟨junk, rfl⟩ := Option.isSome_iff_exists.mp hc
          have e : int_vector_resize v v.size (some junk) = .ok ({ v with
              data := (List.range (v.size * SIZEOF_INT % SIZE_MOD / SIZEOF_INT)).map
                (fun i => v.data.getD i (junk i)),
              capacity := v.size }, true) := by
            have n2 : ¬ v.size * SIZEOF_INT % SIZE_MOD = 0 := by
              simp only [SIZEOF_INT, SIZE_MOD] at w3 ⊢; omega
            simp [int_vector_resize, h0, realloc, n2]
          refine ⟨{ v with
              data := (List.range (v.size * SIZEOF_INT % SIZE_MOD / SIZEOF_INT)).map
                (fun i => v.data.getD i (junk i)),
              capacity := v.size }, ?_⟩
          simp only [int_vector_shrink_to_fit, if_pos hlt, e, if_true]
    · exact ⟨v, by simp [int_vector_shrink_to_fit, hlt]⟩

/-- Witness of C10: shrinking the vector `[0, 1, 2, 3, 4]` held in 8 slots. -/
theorem int_vector_shrink_to_fit_spec_witness :
    int_vector_shrink_to_fit ⟨[0, 1, 2, 3, 4, 0, 0, 0], 5, 8⟩ grant =
        .ok ⟨[0, 1, 2, 3, 4], 5, 5⟩ ∧
      ((∀ v', int_vector_shrink_to_fit ⟨[0, 1, 2, 3, 4, 0, 0, 0], 5, 8⟩ grant = .ok v' →
        v'.capacity = v'.size ∧ v'.size = 5 ∧
        v'.elems = IntVector.elems ⟨[0, 1, 2, 3, 4, 0, 0, 0], 5, 8⟩ ∧
        (5 = 0 → v'.capacity = 0) ∧ v'.WF) ∧
      (((5 : Nat) = 8 ∨ (5 : Nat) = 0 ∨ grant.isSome = true) →
        ∃ v', int_vector_shrink_to_fit ⟨[0, 1, 2, 3, 4, 0, 0, 0], 5, 8⟩ grant = .ok v')) :=
  ⟨by decide, int_vector_shrink_to_fit_spec ⟨[0, 1, 2, 3, 4, 0, 0, 0], 5, 8⟩ grant (by decide)⟩

/-! ## Sequences of pushes -/

/-- A vector just created with a capacity whose byte size fits `size_t` is well formed
and empty. -/
theorem create_wf {c : Nat} {vec_ok : Bool} {r : Reply} {v : IntVector}
    (hc : (if c = 0 then 8 else c) * SIZEOF_INT < SIZE_MOD)
    (h : int_vector_create c vec_ok r = some v) : v.WF ∧ v.size = 0 ∧ v.elems = [] := by
  unfold int_vector_create at h
  split at h
  · simp only at h
    split at h
    · simp at h
    · rename_i d hd
      simp only [Option.some.injEq] at h
      subst h
      have hcap : (if c > 0 then c else DEFAULT_SIZE) = (if c = 0 then 8 else c) := by
        by_cases hz : c = 0
        · simp [hz, DEFAULT_SIZE]
        · have : c > 0 := Nat.pos_of_ne_zero hz
          simp [hz, this]
      rw [hcap] at hd ⊢
      cases r with
      | none => simp [malloc] at hd
      | some junk =>
        simp only [malloc, Option.some.injEq] at hd
        subst hd
        refine ⟨⟨Nat.zero_le _, ?_, hc⟩, rfl, by simp [IntVector.elems]⟩
        simp only [List.length_map, List.length_range, SIZEOF_INT, SIZE_MOD] at hc ⊢
        omega
  · simp at h

/-- Completed pushes on a well-formed vector append the pushed values in order. -/
theorem push_all_spec : ∀ (l : List (Int × Reply)) (v v' : IntVector), v.WF →
    push_all v l = .ok v' →
    v'.WF ∧ v'.size = v.size + l.length ∧ v'.elems = v.elems ++ l.map Prod.fst := by
  intro l
  induction l with
  | nil =>
    intro v v' hwf h
    simp only [push_all, Except.ok.injEq] at h
    subst h
    simp [hwf]
  | cons p rest ih =>
    intro v v' hwf h
    obtain ⟨x, r⟩ := p
    unfold push_all at h
    split at h
    · simp at h
    · rename_i v1 hv1
      obtain ⟨a1, a2, a3⟩ := push_ok_spec hwf hv1
      obtain ⟨b1, b2, b3⟩ := ih v1 v' a1 h
      refine ⟨b1, ?_, ?_⟩
      · rw [b2, a2, List.length_cons]; omega
      · rw [b3, a3]; simp

/-- For a requested capacity whose byte size fits `size_t`: after a successful
`int_vector_create` and completed pushes of the values `xs`, the size is the length of `xs`
and `int_vector_get(i)` returns `xs[i]`. -/
theorem push_all_after_create {c : Nat} {vec_ok : Bool} {r : Reply} {v v' : IntVector}
    {l : List (Int × Reply)} (hc : (if c = 0 then 8 else c) * SIZEOF_INT < SIZE_MOD)
    (h : int_vector_create c vec_ok r = some v) (hp : push_all v l = .ok v') :
    int_vector_size v' = l.length ∧
      ∀ i, i < l.length → (int_vector_get v' i).toOption = (l.map Prod.fst)[i]? := by
  obtain ⟨a1, a2, a3⟩ := create_wf hc h
  obtain ⟨b1, b2, b3⟩ := push_all_spec l v v' a1 hp
  rw [a2, Nat.zero_add] at b2
  rw [a3, List.nil_append] at b3
  refine ⟨b2, fun i hi => ?_⟩
  obtain ⟨y, hy, hy2⟩ := get_eq_of_lt b1 (by omega : i < v'.size)
  rw [hy, ← b3, hy2]
  rfl

/-- C2 (failing input): `int_vector_create(2 ^ 62 + 1)` asks `malloc` for
`(2 ^ 62 + 1) * 4 mod 2 ^ 64 = 4` bytes. Whenever that allocation succeeds, pushing the
list `[1, 2]` does not end with a vector of size 2: the second push writes `data[1]`
outside the one-slot block, which is undefined behaviour, whatever the allocator
answers to the pushes. -/
theorem push_after_create_overflow (junk : Nat → Int) (r1 r2 : Reply) :
    (int_vector_create 4611686018427387905 true (some junk)).map
        (fun v => push_all v [(1, r1), (2, r2)]) =
      some (.error .undefinedBehaviour) := by
  rfl

/-! ## The invariant `size ≤ capacity` -/

theorem create_inv {c : Nat} {vec_ok : Bool} {r : Reply} {v : IntVector} (hc : c < SIZE_MOD)
    (h : int_vector_create c vec_ok r = some v) : v.Inv := by
  obtain ⟨h1, -, h3, -⟩ := create_ok h
  simp only [int_vector_size, int_vector_capacity] at h1 h3
  refine ⟨by omega, ?_⟩
  rw [h3]
  simp only [SIZE_MOD] at hc ⊢
  split <;> omega

theorem insert_inv {v v' : IntVector} {index : Nat} {value : Int} {r : Reply} (hv : v.Inv)
    (h : int_vector_insert v index value r = .ok v') : v'.Inv := by
  obtain ⟨h1, h2⟩ := hv
  unfold int_vector_insert at h
  split at h
  · split at h
    · simp at h
    · rename_i g hg
      split at h
      · simp at h
      · split at h
        · simp at h
        · simp only [Except.ok.injEq] at h
          subst h
          obtain ⟨-, -, hlt, -⟩ := grow_if_full_ok h2 hg
          have hc := grow_if_full_cap_lt h2 hg
          have := hlt h1
          refine ⟨?_, hc⟩
          simp only [SIZE_MOD] at hc ⊢
          omega
  · simp at h

theorem push_inv {v v' : IntVector} {value : Int} {r : Reply} (hv : v.Inv)
    (h : int_vector_push v value r = .ok v') : v'.Inv := by
  rw [push_eq_insert] at h
  exact insert_inv hv h

theorem pop_inv {v v' : IntVector} {x : Int} (hv : v.Inv)
    (h : int_vector_pop v = .ok (x, v')) : v'.Inv := by
  obtain ⟨h1, h2⟩ := hv
  unfold int_vector_pop at h
  split at h
  · simp at h
  · split at h
    · simp at h
    · simp only [Except.ok.injEq, Prod.mk.injEq] at h
      obtain ⟨-, h⟩ := h
      subst h
      exact ⟨by simp only; omega, h2⟩

theorem remove_inv {v v' : IntVector} {index : Nat} (hv : v.Inv)
    (h : int_vector_remove v index = .ok v') : v'.Inv := by
  obtain ⟨h1, h2⟩ := hv
  unfold int_vector_remove at h
  split at h
  · split at h
    · simp at h
    · simp only [Except.ok.injEq] at h
      subst h
      exact ⟨by simp only; omega, h2⟩
  · simp at h

theorem set_inv {v v' : IntVector} {index : Nat} {value : Int} (hv : v.Inv)
    (h : int_vector_set v index value = .ok v') : v'.Inv := by
  unfold int_vector_set at h
  split at h
  · split at h
    · simp at h
    · simp only [Except.ok.injEq] at h
      subst h
      exact hv
  · simp at h

theorem reserve_inv {v v' : IntVector} {n : Nat} {r : Reply} (hv : v.Inv) (hn : n < SIZE_MOD)
    (h : int_vector_reserve v n r = .ok v') : v'.Inv := by
  obtain ⟨h1, h2⟩ := hv
  obtain ⟨a1, a2, a3, a4⟩ := reserve_capacity h
  refine ⟨by omega, ?_⟩
  rw [a1]
  split <;> assumption

theorem shrink_inv {v v' : IntVector} {r : Reply} (hv : v.Inv)
    (h : int_vector_shrink_to_fit v r = .ok v') : v'.Inv := by
  obtain ⟨h1, h2⟩ := hv
  unfold int_vector_shrink_to_fit at h
  split at h
  · split at h
    · simp at h
    · rename_i v2 success hres
      cases success with
      | false => simp at h
      | true =>
        simp only [if_true, Except.ok.injEq] at h
        subst h
        obtain ⟨-, hsize, -, hb⟩ := resize_ok hres
        obtain ⟨hc, -⟩ := hb rfl
        exact ⟨by omega, by omega⟩
  · simp only [Except.ok.injEq] at h
    subst h
    exact ⟨h1, h2⟩

theorem copy_inv {v c : IntVector} {vec_ok : Bool} {r : Reply} (hv : v.Inv)
    (h : int_vector_copy v vec_ok r = .ok (some c)) : c.Inv := by
  obtain ⟨h1, h2⟩ := hv
  unfold int_vector_copy at h
  split at h
  · simp at h
  · rename_i c0 hc0
    split at h
    · simp at h
    · simp only [Except.ok.injEq, Option.some.injEq] at h
      subst h
      obtain ⟨-, b2⟩ := create_inv h2 hc0
      obtain ⟨-, -, b3, -⟩ := create_ok hc0
      simp only [int_vector_capacity] at b3
      refine ⟨?_, b2⟩
      show v.size ≤ c0.capacity
      rw [b3]
      split <;> omega

theorem extend_new_cap_ok {new_size : Nat} : ∀ (fuel c nc : Nat),
    extend_new_cap new_size fuel c = some nc →
    new_size ≤ nc ∧ (c < SIZE_MOD → nc < SIZE_MOD) := by
  intro fuel
  induction fuel with
  | zero =>
    intro c nc h
    unfold extend_new_cap at h
    split at h
    · simp at h
    · simp only [Option.some.injEq] at h
      subst h
      exact ⟨by omega, fun hc => hc⟩
  | succ fuel ih =>
    intro c nc h
    unfold extend_new_cap at h
    split at h
    · obtain ⟨a1, a2⟩ := ih _ _ h
      refine ⟨a1, fun _ => a2 ?_⟩
      simp only [SIZE_MOD, DEFAULT_SIZE]
      split <;> omega
    · simp only [Option.some.injEq] at h
      subst h
      exact ⟨by omega, fun hc => hc⟩

theorem extend_inv {fuel : Nat} {dest src dest' : IntVector} {r : Reply} (hv : dest.Inv)
    (h : int_vector_extend fuel dest src r = .ok dest') : dest'.Inv := by
  obtain ⟨h1, h2⟩ := hv
  unfold int_vector_extend at h
  simp only at h
  split at h
  · simp at h
  · rename_i g hg
    split at h
    · simp at h
    · simp only [Except.ok.injEq] at h
      subst h
      split at hg
      · rename_i hgt
        split at hg
        · simp at hg
        · rename_i nc hnc
          split at hg
          · simp at hg
          · rename_i v2 success hres
            cases success with
            | false => simp at hg
            | true =>
              simp only [if_true, Except.ok.injEq] at hg
              subst hg
              obtain ⟨a1, a2⟩ := extend_new_cap_ok _ _ _ hnc
              obtain ⟨-, -, -, hb⟩ := resize_ok hres
              obtain ⟨hc, -⟩ := hb rfl
              exact ⟨by simp only; omega, by rw [hc]; exact a2 h2⟩
      · rename_i hle
        simp only [Except.ok.injEq] at hg
        subst hg
        exact ⟨by simp only; omega, h2⟩

theorem reachable_inv {v : IntVector} (h : Reachable v) : v.Inv := by
  induction h with
  | create c vec_ok r v hc hv => exact create_inv hc hv
  | push v v' value r _ hp ih => exact push_inv ih hp
  | pop v v' x _ hp ih => exact pop_inv ih hp
  | insert v v' index value r _ _ hp ih => exact insert_inv ih hp
  | remove v v' index _ _ hp ih => exact remove_inv ih hp
  | set v v' index value _ _ hp ih => exact set_inv ih hp
  | clear v _ ih => exact ⟨Nat.zero_le _, ih.2⟩
  | reserve v v' n r _ hn hp ih => exact reserve_inv ih hn hp
  | shrink_to_fit v v' r _ hp ih => exact shrink_inv ih hp
  | copy v c vec_ok r _ hp ih => exact copy_inv ih hp
  | extend fuel dest src dest' r _ _ hp ih _ => exact extend_inv ih hp

/-- C1: every vector reachable from `int_vector_create` by completed calls of push, pop,
insert, remove, set, clear, reserve, shrink_to_fit, copy and extend satisfies
`size <= capacity`. -/
theorem reachable_size_le_capacity (v : IntVector) (h : Reachable v) :
    int_vector_size v ≤ int_vector_capacity v :=
  (reachable_inv h).1

/-- Witness of C1: the vector after `create(2)`, three pushes, a pop and a shrink. -/
theorem reachable_size_le_capacity_witness :
    Reachable ⟨[10, 20], 2, 2⟩ ∧
      int_vector_size ⟨[10, 20], 2, 2⟩ ≤ int_vector_capacity ⟨[10, 20], 2, 2⟩ :=
  have hr : Reachable ⟨[10, 20], 2, 2⟩ :=
    .shrink_to_fit ⟨[10, 20, 30, 0], 2, 4⟩ _ grant
      (.pop ⟨[10, 20, 30, 0], 3, 4⟩ _ 30
        (.push ⟨[10, 20], 2, 2⟩ _ 30 grant
          (.push ⟨[10, 0], 1, 2⟩ _ 20 grant
            (.push ⟨[0, 0], 0, 2⟩ _ 10 grant
              (.create 2 true grant _ (by decide) (by decide))
              (by decide))
            (by decide))
          (by decide))
        (by decide))
      (by decide)
  ⟨hr, reachable_size_le_capacity _ hr⟩

/-! ## Search -/

/-- The loop of `int_vector_find` over a block that holds the scanned range: it returns
the converted least index in the range that holds `value`, or -1 when there is none. -/
theorem find_loop_spec (data : List Int) (value : Int) : ∀ (n i : Nat), i + n ≤ data.length →
    (∃ k, i ≤ k ∧ k < i + n ∧ data[k]? = some value ∧
        (∀ j, i ≤ j → j < k → data[j]? ≠ some value) ∧
        find_loop data value i n = .ok (size_to_int k)) ∨
      ((∀ j, i ≤ j → j < i + n → data[j]? ≠ some value) ∧
        find_loop data value i n = .ok (-1)) := by
  intro n
  induction n with
  | zero =>
    intro i _
    exact Or.inr ⟨fun j h1 h2 => by omega, rfl⟩
  | succ n ih =>
    intro i h
    have hi : i < data.length := by omega
    by_cases hx : data.get ⟨i, hi⟩ = value
    · refine Or.inl ⟨i, le_refl _, by omega, ?_, fun j h1 h2 => by omega, ?_⟩
      · rw [List.getElem?_eq_getElem hi]
        exact congrArg some hx
      · simp only [find_loop, load_of_lt hi, if_pos hx]
    · have hne : data[i]? ≠ some value := by
        rw [List.getElem?_eq_getElem hi]
        intro hc
        exact hx (Option.some.inj hc)
      have hstep : find_loop data value i (n + 1) = find_loop data value (i + 1) n := by
        simp only [find_loop, load_of_lt hi, if_neg hx]
      rcases ih (i + 1) (by omega) with ⟨k, h1, h2, h3, h4, h5⟩ | ⟨h1, h2⟩
      · refine Or.inl ⟨k, by omega, by omega, h3, fun j hj1 hj2 => ?_, by rw [hstep, h5]⟩
        by_cases hji : j = i
        · subst hji; exact hne
        · exact h4 j (by omega) hj2
      · refine Or.inr ⟨fun j hj1 hj2 => ?_, by rw [hstep, h2]⟩
        by_cases hji : j = i
        · subst hji; exact hne
        · exact h1 j (by omega) (by omega)


/-- On a vector whose block holds its `size` elements, `int_vector_find` returns the
converted least index of `value` among the logical elements, or -1 when there is none. -/
theorem find_spec {v : IntVector} (value : Int) (h : v.size ≤ v.data.length) :
    (∃ k, k < v.size ∧ v.elems[k]? = some value ∧
        (∀ j, j < k → v.elems[j]? ≠ some value) ∧
        int_vector_find v value = .ok (size_to_int k)) ∨
      ((∀ j, j < v.size → v.elems[j]? ≠ some value) ∧ int_vector_find v value = .ok (-1)) := by
  rcases find_loop_spec v.data value v.size 0 (by omega) with
    ⟨k, -, h2, h3, h4, h5⟩ | ⟨h1, h2⟩
  · have hk : k < v.size := by omega
    refine Or.inl ⟨k, hk, ?_, fun j hj => ?_, h5⟩
    · rw [IntVector.elems_getElem? hk]; exact h3
    · rw [IntVector.elems_getElem? (by omega : j < v.size)]
      exact h4 j (Nat.zero_le _) hj
  · refine Or.inr ⟨fun j hj => ?_, h2⟩
    rw [IntVector.elems_getElem? hj]
    exact h1 j (Nat.zero_le _) (by omega)

theorem size_to_int_small {k : Nat} (h : k < 2 ^ 31) : size_to_int k = (k : Int) := by
  unfold size_to_int
  have h1 : k % 2 ^ 32 = k := Nat.mod_eq_of_lt (by omega)
  rw [h1, if_pos h]

/-- For a vector of at most `2 ^ 31` elements `int_vector_find` returns the lowest index
that holds `value`, and it returns -1 exactly when no logical element equals `value`. -/
theorem find_small {v : IntVector} (value : Int) (hwf : v.WF) (hs : v.size ≤ 2 ^ 31) :
    (∀ k, k < v.size → v.elems[k]? = some value →
        (∀ j, j < k → v.elems[j]? ≠ some value) →
        int_vector_find v value = .ok (k : Int)) ∧
      (int_vector_find v value = .ok (-1) ↔ ∀ j, j < v.size → v.elems[j]? ≠ some value) := by
  have hlen := hwf.size_le_length
  rcases find_spec value hlen with ⟨k, h1, h2, h3, h4⟩ | ⟨h1, h2⟩
  · rw [size_to_int_small (by omega)] at h4
    refine ⟨fun k' hk' he hl => ?_, ⟨fun hc => ?_, fun hall => absurd h2 (hall k h1)⟩⟩
    · have : k' = k := by
        rcases Nat.lt_trichotomy k' k with hlt | heq | hgt
        · exact absurd he (h3 k' hlt)
        · exact heq
        · exact absurd h2 (hl k hgt)
      rw [this, h4]
    · rw [h4] at hc
      simp only [Except.ok.injEq] at hc
      omega
  · exact ⟨fun k hk he _ => absurd he (h1 k hk), ⟨fun _ => h1, fun _ => h2⟩⟩

theorem getElem?_replicate_append (n : Nat) (a x : Int) :
    (List.replicate n a ++ [x])[n]? = some x ∧
      ∀ j, j < n → (List.replicate n a ++ [x])[j]? = some a := by
  constructor
  · rw [List.getElem?_append_right (by simp)]
    simp
  · intro j hj
    rw [List.getElem?_append_left (by simpa using hj)]
    simp [List.getElem?_replicate, hj]

/-- The vector of `n` copies of `a` followed by one `x`: `int_vector_find` for `x`
returns the conversion of `n` to `int`. -/
theorem find_replicate (n : Nat) (a x : Int) (hax : a ≠ x) :
    int_vector_get ⟨List.replicate n a ++ [x], n + 1, n + 1⟩ n = .ok x ∧
      int_vector_find ⟨List.replicate n a ++ [x], n + 1, n + 1⟩ x = .ok (size_to_int n) := by
  obtain ⟨g1, g2⟩ := getElem?_replicate_append n a x
  constructor
  · simp only [int_vector_get, Nat.lt_succ_self, if_true, load, g1]
  · rcases find_spec (v := ⟨List.replicate n a ++ [x], n + 1, n + 1⟩) x (by simp) with
      ⟨k, h1, h2, h3, h4⟩ | ⟨h1, -⟩
    · have hk : k = n := by
        rcases Nat.lt_trichotomy k n with hlt | heq | hgt
        · rw [IntVector.elems_getElem? h1] at h2
          simp only at h2
          rw [g2 k hlt] at h2
          exact absurd (Option.some.inj h2) hax
        · exact heq
        · simp only at h1
          omega
      rw [h4, hk]
    · have := h1 n (Nat.lt_succ_self n)
      rw [IntVector.elems_getElem? (by simp : n < (IntVector.mk (List.replicate n a ++ [x]) (n + 1) (n + 1)).size)] at this
      exact absurd g1 this

theorem wf_replicate (n : Nat) (a x : Int) (h : (n + 1) * SIZEOF_INT < SIZE_MOD) :
    IntVector.WF ⟨List.replicate n a ++ [x], n + 1, n + 1⟩ := by
  refine ⟨le_refl _, ?_, h⟩
  show n + 1 = (List.replicate n a ++ [x]).length
  rw [List.length_append, List.length_replicate, List.length_singleton]

/-- C11 (failing input): the well-formed vector of `2 ^ 31` zeros followed by a 7 holds 7
at index `2 ^ 31` only, and `int_vector_find` for 7 returns `(int)2147483648`, the
negative number `-2147483648`, not the index. -/
theorem int_vector_find_truncates :
    IntVector.WF ⟨List.replicate 2147483648 0 ++ [7], 2147483649, 2147483649⟩ ∧
      int_vector_get ⟨List.replicate 2147483648 0 ++ [7], 2147483649, 2147483649⟩
        2147483648 = .ok 7 ∧
      int_vector_find ⟨List.replicate 2147483648 0 ++ [7], 2147483649, 2147483649⟩ 7 =
        .ok (-2147483648) := by
  obtain ⟨h1, h2⟩ := find_replicate 2147483648 0 7 (by decide)
  refine ⟨wf_replicate 2147483648 0 7 (by decide), h1, ?_⟩
  rw [show (-2147483648 : Int) = size_to_int 2147483648 by decide]
  exact h2

/-- The result of `int_vector_contains` is the comparison of the result of
`int_vector_find` with -1. -/
theorem contains_eq_find (v : IntVector) (value : Int) :
    int_vector_contains v value = (int_vector_find v value).map (fun k => k != -1) := by
  unfold int_vector_contains
  cases int_vector_find v value <;> rfl

/-- For a vector of at most `2 ^ 31` elements `int_vector_contains` is true exactly when
some logical element equals `value`. -/
theorem contains_small {v : IntVector} (value : Int) (hwf : v.WF) (hs : v.size ≤ 2 ^ 31) :
    ∃ b, int_vector_contains v value = .ok b ∧
      (b = true ↔ ∃ i, i < v.size ∧ v.elems[i]? = some value) := by
  have hlen := hwf.size_le_length
  rw [contains_eq_find]
  rcases find_spec value hlen with ⟨k, h1, h2, h3, h4⟩ | ⟨h1, h2⟩
  · rw [size_to_int_small (by omega)] at h4
    refine ⟨true, ?_, ⟨fun _ => ⟨k, h1, h2⟩, fun _ => rfl⟩⟩
    rw [h4]
    show Except.ok (((k : Int) != -1)) = Except.ok true
    have : ((k : Int) != -1) = true := by
      simp only [bne_iff_ne, ne_eq]
      omega
    rw [this]
  · refine ⟨false, by rw [h2]; rfl,
      ⟨fun hc => (by cases hc), fun ⟨i, hi, he⟩ => absurd he (h1 i hi)⟩⟩

/-- C20 (failing input): the well-formed vector of `2 ^ 32 - 1` zeros followed by a 7
holds 7 at index `2 ^ 32 - 1`, where `int_vector_find` returns `(int)4294967295`, which
is the sentinel -1; `int_vector_contains` therefore answers false although an element
equals 7. -/
theorem int_vector_contains_misses :
    IntVector.WF ⟨List.replicate 4294967295 0 ++ [7], 4294967296, 4294967296⟩ ∧
      int_vector_get ⟨List.replicate 4294967295 0 ++ [7], 4294967296, 4294967296⟩
        4294967295 = .ok 7 ∧
      int_vector_find ⟨List.replicate 4294967295 0 ++ [7], 4294967296, 4294967296⟩ 7 =
        .ok (-1) ∧
      int_vector_contains ⟨List.replicate 4294967295 0 ++ [7], 4294967296, 4294967296⟩ 7 =
        .ok false := by
  obtain ⟨h1, h2⟩ := find_replicate 4294967295 0 7 (by decide)
  have h3 : int_vector_find ⟨List.replicate 4294967295 0 ++ [7], 4294967296, 4294967296⟩ 7 =
      .ok (-1) := by
    rw [show (-1 : Int) = size_to_int 4294967295 by decide]
    exact h2
  refine ⟨wf_replicate 4294967295 0 7 (by decide), h1, h3, ?_⟩
  rw [contains_eq_find, h3]
  rfl

/-! ## Equality -/

/-- The loop of `int_vector_equals` over two blocks that hold the compared range: it
returns whether the blocks agree on the range. -/
theorem equals_loop_spec (a b : List Int) : ∀ (n i : Nat), i + n ≤ a.length →
    i + n ≤ b.length →
    ∃ res, equals_loop a b i n = .ok res ∧
      (res = true ↔ ∀ j, i ≤ j → j < i + n → a[j]? = b[j]?) := by
  intro n
  induction n with
  | zero =>
    intro i _ _
    exact ⟨true, rfl, ⟨fun _ j h1 h2 => by omega, fun _ => rfl⟩⟩
  | succ n ih =>
    intro i ha hb
    have hia : i < a.length := by omega
    have hib : i < b.length := by omega
    by_cases hx : a.get ⟨i, hia⟩ = b.get ⟨i, hib⟩
    · obtain ⟨res, h1, h2⟩ := ih (i + 1) (by omega) (by omega)
      refine ⟨res, ?_, ?_⟩
      · simp only [equals_loop, load_of_lt hia, load_of_lt hib, ne_eq, hx, not_true_eq_false,
          if_false]
        exact h1
      · rw [h2]
        constructor
        · intro h j hj1 hj2
          by_cases hji : j = i
          · subst hji
            rw [List.getElem?_eq_getElem hia, List.getElem?_eq_getElem hib]
            exact congrArg some hx
          · exact h j (by omega) (by omega)
        · intro h j hj1 hj2
          exact h j (by omega) (by omega)
    · refine ⟨false, ?_, ⟨fun hc => (by cases hc), fun h => ?_⟩⟩
      · simp only [equals_loop, load_of_lt hia, load_of_lt hib, ne_eq, hx, not_false_eq_true,
          if_true]
      · have := h i (le_refl _) (by omega)
        rw [List.getElem?_eq_getElem hia, List.getElem?_eq_getElem hib] at this
        exact absurd (Option.some.inj this) hx

/-- On two vectors whose blocks hold their elements, `int_vector_equals` returns whether
the sizes agree and the logical elements agree at every index. -/
theorem equals_spec {a b : IntVector} (ha : a.size ≤ a.data.length)
    (hb : b.size ≤ b.data.length) :
    ∃ res, int_vector_equals a b = .ok res ∧
      (res = true ↔ a.size = b.size ∧ ∀ i, i < a.size → a.elems[i]? = b.elems[i]?) := by
  by_cases hs : a.size = b.size
  · obtain ⟨res, h1, h2⟩ := equals_loop_spec a.data b.data a.size 0 (by omega) (by omega)
    refine ⟨res, ?_, ?_⟩
    · simp only [int_vector_equals, ne_eq, hs, not_true_eq_false, if_false]
      rw [← hs]
      exact h1
    · rw [h2]
      constructor
      · intro h
        refine ⟨hs, fun i hi => ?_⟩
        rw [IntVector.elems_getElem? hi, IntVector.elems_getElem? (by omega : i < b.size)]
        exact h i (Nat.zero_le _) (by omega)
      · rintro ⟨-, h⟩ j _ hj
        have hj' : j < a.size := by omega
        have := h j hj'
        rw [IntVector.elems_getElem? hj', IntVector.elems_getElem? (by omega : j < b.size)] at this
        exact this
  · refine ⟨false, ?_, ⟨fun hc => (by cases hc), fun h => absurd h.1 hs⟩⟩
    simp only [int_vector_equals, ne_eq, hs, not_false_eq_true, if_true]

/-- Two vectors whose blocks hold their elements compare equal exactly when their
sequences of logical elements are the same list. -/
theorem equals_iff_elems {a b : IntVector} (ha : a.size ≤ a.data.length)
    (hb : b.size ≤ b.data.length) :
    int_vector_equals a b = .ok true ↔ a.elems = b.elems := by
  obtain ⟨res, h1, h2⟩ := equals_spec ha hb
  have la : a.elems.length = a.size := by simp [IntVector.elems]; omega
  have lb : b.elems.length = b.size := by simp [IntVector.elems]; omega
  constructor
  · intro h
    rw [h1] at h
    simp only [Except.ok.injEq] at h
    obtain ⟨hs, hall⟩ := h2.mp h
    apply List.ext_getElem?
    intro i
    by_cases hi : i < a.size
    · exact hall i hi
    · rw [List.getElem?_eq_none (by omega), List.getElem?_eq_none (by omega)]
  · intro h
    have hs : a.size = b.size := by rw [← la, ← lb, h]
    have : res = true := h2.mpr ⟨hs, fun i _ => by rw [h]⟩
    rw [h1, this]

/-- C12: on well-formed vectors `int_vector_equals(a, b)` returns a Boolean that is true
if and only if `a.size == b.size` and the logical elements agree at every index below
`a.size`; no capacity is read, so the result is the same for any capacities; and two
vectors just returned by `int_vector_create`, whatever the requested capacities, are
equal. -/
theorem int_vector_equals_spec (a b : IntVector) (ha : a.WF) (hb : b.WF) :
    (∃ res, int_vector_equals a b = .ok res ∧
        (res = true ↔ a.size = b.size ∧ ∀ i, i < a.size → a.elems[i]? = b.elems[i]?)) ∧
      (∀ ca cb, int_vector_equals { a with capacity := ca } { b with capacity := cb } =
        int_vector_equals a b) ∧
      (∀ c1 c2 ok1 ok2 r1 r2 v1 v2, int_vector_create c1 ok1 r1 = some v1 →
        int_vector_create c2 ok2 r2 = some v2 → int_vector_equals v1 v2 = .ok true) := by
  refine ⟨equals_spec ha.size_le_length hb.size_le_length, fun ca cb => rfl, ?_⟩
  intro c1 c2 ok1 ok2 r1 r2 v1 v2 h1 h2
  obtain ⟨s1, -⟩ := create_ok h1
  obtain ⟨s2, -⟩ := create_ok h2
  simp only [int_vector_size] at s1 s2
  simp [int_vector_equals, s1, s2, equals_loop]

/-- Witness of C12: the vectors `[0, 1, 2]` of capacities 3 and 8. -/
theorem int_vector_equals_spec_witness :
    int_vector_equals ⟨[0, 1, 2], 3, 3⟩ ⟨[0, 1, 2, 0, 0, 0, 0, 0], 3, 8⟩ = .ok true ∧
      ((∃ res, int_vector_equals ⟨[0, 1, 2], 3, 3⟩ ⟨[0, 1, 2, 0, 0, 0, 0, 0], 3, 8⟩ = .ok res ∧
        (res = true ↔ (3 : Nat) = 3 ∧ ∀ i, i < 3 →
          (IntVector.elems ⟨[0, 1, 2], 3, 3⟩)[i]? =
            (IntVector.elems ⟨[0, 1, 2, 0, 0, 0, 0, 0], 3, 8⟩)[i]?)) ∧
      (∀ ca cb, int_vector_equals { (⟨[0, 1, 2], 3, 3⟩ : IntVector) with capacity := ca }
          { (⟨[0, 1, 2, 0, 0, 0, 0, 0], 3, 8⟩ : IntVector) with capacity := cb } =
        int_vector_equals ⟨[0, 1, 2], 3, 3⟩ ⟨[0, 1, 2, 0, 0, 0, 0, 0], 3, 8⟩) ∧
      (∀ c1 c2 ok1 ok2 r1 r2 v1 v2, int_vector_create c1 ok1 r1 = some v1 →
        int_vector_create c2 ok2 r2 = some v2 → int_vector_equals v1 v2 = .ok true)) :=
  ⟨by decide, int_vector_equals_spec ⟨[0, 1, 2], 3, 3⟩ ⟨[0, 1, 2, 0, 0, 0, 0, 0], 3, 8⟩
    (by decide) (by decide)⟩

/-! ## Copy -/

/-- The loop of `int_vector_copy` over blocks that hold the copied range: the range is
overwritten with the source, the rest of the destination is kept. -/
theorem copy_elems_spec (src : List Int) : ∀ (n i : Nat) (dst : List Int),
    i + n ≤ src.length → i + n ≤ dst.length →
    ∃ d, copy_elems src i n dst = .ok d ∧ d.length = dst.length ∧
      ∀ j, d[j]? = if i ≤ j ∧ j < i + n then src[j]? else dst[j]? := by
  intro n
  induction n with
  | zero =>
    intro i dst _ _
    refine ⟨dst, rfl, rfl, fun j => ?_⟩
    rw [if_neg (by omega)]
  | succ n ih =>
    intro i dst hs hd
    have h1 : i < src.length := by omega
    have h2 : i < dst.length := by omega
    obtain ⟨d, hd1, hlen, hget⟩ := ih (i + 1) (dst.set i (src.get ⟨i, h1⟩)) (by omega)
      (by simp; omega)
    refine ⟨d, ?_, by simpa using hlen, fun j => ?_⟩
    · simp only [copy_elems, load_of_lt h1, store_of_lt _ h2]
      exact hd1
    · rw [hget j]
      by_cases c1 : j = i
      · subst c1
        rw [if_neg (by omega), if_pos (by omega), List.getElem?_set, if_pos rfl, if_pos h2,
          List.getElem?_eq_getElem h1]
        rfl
      · by_cases c2 : i + 1 ≤ j ∧ j < i + 1 + n
        · rw [if_pos c2, if_pos (by omega)]
        · rw [if_neg c2, if_neg (by omega), List.getElem?_set_ne (by omega)]

/-- A completed `int_vector_copy` of a well-formed vector returns a well-formed vector
with the same size and logical elements, of the capacity chosen by `int_vector_create`. -/
theorem copy_ok {v c : IntVector} {vec_ok : Bool} {r : Reply} (hwf : v.WF)
    (h : int_vector_copy v vec_ok r = .ok (some c)) :
    c.WF ∧ c.size = v.size ∧ c.elems = v.elems ∧
      c.capacity = (if v.capacity = 0 then 8 else v.capacity) := by
  have hw := hwf
  obtain ⟨w1, w2, w3⟩ := hw
  unfold int_vector_copy at h
  split at h
  · simp at h
  · rename_i c0 hc0
    have hbytes : (if v.capacity = 0 then 8 else v.capacity) * SIZEOF_INT < SIZE_MOD := by
      simp only [SIZE_MOD, SIZEOF_INT] at w3 ⊢
      split <;> omega
    obtain ⟨⟨a1, a2, a3⟩, -, -⟩ := create_wf hbytes hc0
    obtain ⟨-, -, b3, -⟩ := create_ok hc0
    simp only [int_vector_capacity] at b3
    have hcap : v.capacity ≤ c0.capacity := by
      rw [b3]; split <;> omega
    obtain ⟨d, hd1, hlen, hget⟩ := copy_elems_spec v.data v.size 0 c0.data (by omega) (by omega)
    rw [hd1] at h
    simp only [Except.ok.injEq, Option.some.injEq] at h
    subst h
    refine ⟨⟨by simp only; omega, by simp only; omega, a3⟩, rfl, ?_, b3⟩
    simp only [IntVector.elems]
    apply List.ext_getElem?
    intro j
    rw [List.getElem?_take, List.getElem?_take, hget j]
    by_cases hj : j < v.size
    · rw [if_pos hj, if_pos hj, if_pos (by omega)]
    · rw [if_neg hj, if_neg hj]

/-- On a well-formed vector `int_vector_copy` never stops: it returns a copy when both
allocations succeed and `NULL` otherwise. -/
theorem copy_total {v : IntVector} (vec_ok : Bool) (r : Reply) (hwf : v.WF) :
    (vec_ok = true → r.isSome = true → ∃ c, int_vector_copy v vec_ok r = .ok (some c)) ∧
      ((vec_ok = false ∨ r = none) → int_vector_copy v vec_ok r = .ok none) := by
  have hw := hwf
  obtain ⟨w1, w2, w3⟩ := hw
  constructor
  · intro hv hr
    obtain ⟨junk, rfl⟩ := Option.isSome_iff_exists.mp hr
    subst hv
    have hbytes : (if v.capacity = 0 then 8 else v.capacity) * SIZEOF_INT < SIZE_MOD := by
      simp only [SIZE_MOD, SIZEOF_INT] at w3 ⊢
      split <;> omega
    have hex : ∃ c0, int_vector_create v.capacity true (some junk) = some c0 := by
      simp [int_vector_create, malloc]
    obtain ⟨c0, hc0⟩ := hex
    obtain ⟨⟨a1, a2, a3⟩, -, -⟩ := create_wf hbytes hc0
    obtain ⟨-, -, b3, -⟩ := create_ok hc0
    simp only [int_vector_capacity] at b3
    have hcap : v.capacity ≤ c0.capacity := by
      rw [b3]; split <;> omega
    obtain ⟨d, hd1, -, -⟩ := copy_elems_spec v.data v.size 0 c0.data (by omega) (by omega)
    exact ⟨{ c0 with data := d, size := v.size }, by simp only [int_vector_copy, hc0, hd1]⟩
  · intro h
    have : int_vector_create v.capacity vec_ok r = none := by
      rcases h with h | h
      · simp [int_vector_create, h]
      · subst h
        unfold int_vector_create
        split <;> simp [malloc]
    simp only [int_vector_copy, this]

/-- C15: whenever `int_vector_copy` of a well-formed vector returns a copy (the
allocations succeeded), `int_vector_equals(v, c)` is true, and `c` has the size and the
logical elements of `v`, in order; it does return a copy whenever both allocations
succeed. -/
theorem int_vector_copy_equals (v : IntVector) (hwf : v.WF) :
    (∀ vec_ok r c, int_vector_copy v vec_ok r = .ok (some c) →
        int_vector_equals v c = .ok true ∧ c.size = v.size ∧ c.elems = v.elems) ∧
      (∀ junk, ∃ c, int_vector_copy v true (some junk) = .ok (some c)) := by
  constructor
  · intro vec_ok r c h
    obtain ⟨a1, a2, a3, -⟩ := copy_ok hwf h
    exact ⟨(equals_iff_elems hwf.size_le_length a1.size_le_length).mpr a3.symm, a2, a3⟩
  · intro junk
    exact (copy_total true (some junk) hwf).1 rfl rfl

/-- Witness of C15: the copy of `[0, 10, 20, 30, 40]`, and of an empty vector. -/
theorem int_vector_copy_equals_witness :
    int_vector_copy ⟨[0, 10, 20, 30, 40], 5, 5⟩ true grant =
        .ok (some ⟨[0, 10, 20, 30, 40], 5, 5⟩) ∧
      int_vector_copy ⟨[0, 0], 0, 2⟩ true grant = .ok (some ⟨[0, 0], 0, 2⟩) ∧
      ((∀ vec_ok r c, int_vector_copy ⟨[0, 10, 20, 30, 40], 5, 5⟩ vec_ok r = .ok (some c) →
        int_vector_equals ⟨[0, 10, 20, 30, 40], 5, 5⟩ c = .ok true ∧ c.size = 5 ∧
          c.elems = IntVector.elems ⟨[0, 10, 20, 30, 40], 5, 5⟩) ∧
      (∀ junk, ∃ c, int_vector_copy ⟨[0, 10, 20, 30, 40], 5, 5⟩ true (some junk) =
        .ok (some c))) :=
  ⟨by decide, by decide, int_vector_copy_equals ⟨[0, 10, 20, 30, 40], 5, 5⟩ (by decide)⟩

/-- C16 (counterexample): the empty vector of capacity 0, as left by
`int_vector_shrink_to_fit` on an empty vector, is copied into a vector of capacity 8. -/
theorem int_vector_copy_capacity_zero :
    int_vector_shrink_to_fit ⟨[0, 0, 0, 0, 0, 0, 0, 0], 0, 8⟩ grant = .ok ⟨[], 0, 0⟩ ∧
      int_vector_copy ⟨[], 0, 0⟩ true grant = .ok (some ⟨[0, 0, 0, 0, 0, 0, 0, 0], 0, 8⟩) ∧
      ¬ (∀ (v c : IntVector) (vec_ok : Bool) (r : Reply), v.WF →
        int_vector_copy v vec_ok r = .ok (some c) →
        int_vector_capacity c = int_vector_capacity v) := by
  refine ⟨by decide, by decide, fun h => ?_⟩
  have := h ⟨[], 0, 0⟩ ⟨[0, 0, 0, 0, 0, 0, 0, 0], 0, 8⟩ true grant (by decide) (by decide)
  revert this
  decide

/-- C16 (amended): a copy returned by `int_vector_copy` of a well-formed vector has the
capacity of the source when that is not 0, and the default capacity 8 when the source has
capacity 0; a copy is returned whenever both allocations succeed. -/
theorem int_vector_copy_capacity (v : IntVector) (hwf : v.WF) :
    (∀ vec_ok r c, int_vector_copy v vec_ok r = .ok (some c) →
        (v.capacity ≠ 0 → int_vector_capacity c = int_vector_capacity v) ∧
        (v.capacity = 0 → int_vector_capacity c = 8)) ∧
      (∀ junk, ∃ c, int_vector_copy v true (some junk) = .ok (some c)) := by
  constructor
  · intro vec_ok r c h
    obtain ⟨-, -, -, a4⟩ := copy_ok hwf h
    simp only [int_vector_capacity]
    constructor
    · intro hne; rw [a4, if_neg hne]
    · intro he; rw [a4, if_pos he]
  · intro junk
    exact (copy_total true (some junk) hwf).1 rfl rfl

/-- Witness of C16 (amended): the copy of a vector of capacity 5. -/
theorem int_vector_copy_capacity_witness :
    int_vector_copy ⟨[0, 10, 20, 0, 0], 3, 5⟩ true grant =
        .ok (some ⟨[0, 10, 20, 0, 0], 3, 5⟩) ∧
      ((∀ vec_ok r c, int_vector_copy ⟨[0, 10, 20, 0, 0], 3, 5⟩ vec_ok r = .ok (some c) →
        ((5 : Nat) ≠ 0 → int_vector_capacity c = int_vector_capacity ⟨[0, 10, 20, 0, 0], 3, 5⟩) ∧
        ((5 : Nat) = 0 → int_vector_capacity c = 8)) ∧
      (∀ junk, ∃ c, int_vector_copy ⟨[0, 10, 20, 0, 0], 3, 5⟩ true (some junk) =
        .ok (some c))) :=
  ⟨by decide, int_vector_copy_capacity ⟨[0, 10, 20, 0, 0], 3, 5⟩ (by decide)⟩

/-! ## Extend -/

/-- The copy loop of `int_vector_extend` over blocks that hold the ranges read and
written: the range from `dest_size` on is overwritten with the source, the rest of the
destination is kept. -/
theorem append_elems_spec (src : List Int) (off : Nat) : ∀ (n i : Nat) (dst : List Int),
    i + n ≤ src.length → off + i + n ≤ dst.length → off + i + n ≤ SIZE_MOD →
    ∃ d, append_elems src off i n dst = .ok d ∧ d.length = dst.length ∧
      ∀ j, d[j]? = if off + i ≤ j ∧ j < off + i + n then src[j - off]? else dst[j]? := by
  intro n
  induction n with
  | zero =>
    intro i dst _ _ _
    refine ⟨dst, rfl, rfl, fun j => ?_⟩
    rw [if_neg (by omega)]
  | succ n ih =>
    intro i dst hs hd hm
    have h1 : i < src.length := by omega
    have h2 : off + i < dst.length := by omega
    have hmod : (off + i) % SIZE_MOD = off + i := Nat.mod_eq_of_lt (by omega)
    obtain ⟨d, hd1, hlen, hget⟩ := ih (i + 1) (dst.set (off + i) (src.get ⟨i, h1⟩)) (by omega)
      (by simp; omega) (by omega)
    refine ⟨d, ?_, by simpa using hlen, fun j => ?_⟩
    · simp only [append_elems, load_of_lt h1, hmod, store_of_lt _ h2]
      exact hd1
    · rw [hget j]
      by_cases c1 : j = off + i
      · subst c1
        rw [if_neg (by omega), if_pos (by omega), List.getElem?_set, if_pos rfl, if_pos h2,
          Nat.add_sub_cancel_left, List.getElem?_eq_getElem h1]
        rfl
      · by_cases c2 : off + (i + 1) ≤ j ∧ j < off + (i + 1) + n
        · rw [if_pos c2, if_pos (by omega)]
        · rw [if_neg c2, if_neg (by omega), List.getElem?_set_ne (by omega)]

theorem append_elems_length {src : List Int} {off : Nat} : ∀ (n i : Nat) (dst d : List Int),
    append_elems src off i n dst = .ok d → d.length = dst.length := by
  intro n
  induction n with
  | zero =>
    intro i dst d h
    simp only [append_elems, Except.ok.injEq] at h
    subst h
    rfl
  | succ n ih =>
    intro i dst d h
    unfold append_elems at h
    split at h
    · simp at h
    · split at h
      · simp at h
      · rename_i d1 hd1
        obtain ⟨-, hd1e⟩ := store_eq_ok.mp hd1
        rw [ih _ _ _ h, hd1e, List.length_set]

/-- A copy loop of `int_vector_extend` that completes at least one iteration without
wrapping indices has written inside the block up to its last index. -/
theorem append_elems_room {src : List Int} {off : Nat} : ∀ (n i : Nat) (dst d : List Int),
    append_elems src off i (n + 1) dst = .ok d → off + i + (n + 1) ≤ SIZE_MOD →
    off + i + (n + 1) ≤ dst.length := by
  intro n
  induction n with
  | zero =>
    intro i dst d h hm
    unfold append_elems at h
    split at h
    · simp at h
    · split at h
      · simp at h
      · rename_i d1 hd1
        obtain ⟨hl, -⟩ := store_eq_ok.mp hd1
        rw [Nat.mod_eq_of_lt (by omega)] at hl
        omega
  | succ n ih =>
    intro i dst d h hm
    unfold append_elems at h
    split at h
    · simp at h
    · split at h
      · simp at h
      · rename_i d1 hd1
        obtain ⟨-, hd1e⟩ := store_eq_ok.mp hd1
        have := ih (i + 1) d1 d h (by omega)
        rw [hd1e, List.length_set] at this
        omega

/-- The capacity loop of `int_vector_extend` for a required size of at most `2 ^ 63`:
its result is the first value, at least the required size, of the sequence obtained from
the start by repeating `grow_step`. -/
theorem extend_new_cap_seq {ns : Nat} (hns : ns ≤ 2 ^ 63) : ∀ (fuel c nc : Nat),
    extend_new_cap ns fuel c = some nc →
    ∃ k, nc = grow_step^[k] c ∧ ns ≤ grow_step^[k] c ∧ ∀ j, j < k → grow_step^[j] c < ns := by
  intro fuel
  induction fuel with
  | zero =>
    intro c nc h
    unfold extend_new_cap at h
    split at h
    · simp at h
    · simp only [Option.some.injEq] at h
      subst h
      exact ⟨0, rfl, by simpa using (by omega : ns ≤ c), fun j hj => by omega⟩
  | succ fuel ih =>
    intro c nc h
    unfold extend_new_cap at h
    split at h
    · rename_i hlt
      have hstep : (if c = 0 then DEFAULT_SIZE else c * GROWTH_FACTOR % SIZE_MOD) =
          grow_step c := by
        simp only [grow_step, DEFAULT_SIZE, GROWTH_FACTOR, SIZE_MOD]
        split
        · rfl
        · omega
      rw [hstep] at h
      obtain ⟨k, h1, h2, h3⟩ := ih _ _ h
      refine ⟨k + 1, ?_, ?_, fun j hj => ?_⟩
      · rw [Function.iterate_succ_apply]; exact h1
      · rw [Function.iterate_succ_apply]; exact h2
      · cases j with
        | zero => simpa using hlt
        | succ j =>
          rw [Function.iterate_succ_apply]
          exact h3 j (by omega)
    · simp only [Option.some.injEq] at h
      subst h
      exact ⟨0, rfl, by simpa using (by omega : ns ≤ c), fun j hj => by omega⟩

/-- After at least one step the capacity loop of `int_vector_extend` ends below twice the
required size, or at the default capacity. -/
theorem extend_new_cap_bound {ns : Nat} (hns : ns ≤ 2 ^ 63) : ∀ (fuel c nc : Nat),
    extend_new_cap ns fuel c = some nc → c < ns → nc = 8 ∨ nc < 2 * ns := by
  intro fuel
  induction fuel with
  | zero =>
    intro c nc h hlt
    simp [extend_new_cap, hlt] at h
  | succ fuel ih =>
    intro c nc h hlt
    unfold extend_new_cap at h
    rw [if_pos hlt] at h
    by_cases hnext : (if c = 0 then DEFAULT_SIZE else c * GROWTH_FACTOR % SIZE_MOD) < ns
    · exact ih _ _ h hnext
    · have : extend_new_cap ns fuel
          (if c = 0 then DEFAULT_SIZE else c * GROWTH_FACTOR % SIZE_MOD) =
          some (if c = 0 then DEFAULT_SIZE else c * GROWTH_FACTOR % SIZE_MOD) := by
        cases fuel <;> simp [extend_new_cap, hnext]
      rw [this] at h
      simp only [Option.some.injEq] at h
      subst h
      simp only [DEFAULT_SIZE, GROWTH_FACTOR, SIZE_MOD]
      split
      · left; rfl
      · right; omega

/-- The capacity loop of `int_vector_extend` finishes within 64 iterations for every
required size of at most `2 ^ 63`. -/
theorem extend_new_cap_terminates {ns : Nat} (hns : ns ≤ 2 ^ 63) : ∀ (fuel c : Nat),
    (c ≠ 0 ∧ ns ≤ c * 2 ^ fuel) ∨ (c = 0 ∧ 1 ≤ fuel ∧ ns ≤ 4 * 2 ^ fuel) →
    ∃ nc, extend_new_cap ns fuel c = some nc := by
  intro fuel
  induction fuel with
  | zero =>
    intro c h
    have : ¬ c < ns := by
      rcases h with ⟨-, h⟩ | ⟨-, h, -⟩
      · omega
      · omega
    exact ⟨c, by simp [extend_new_cap, this]⟩
  | succ fuel ih =>
    intro c h
    by_cases hlt : c < ns
    · unfold extend_new_cap
      rw [if_pos hlt]
      apply ih
      left
      rw [pow_succ] at h
      simp only [DEFAULT_SIZE, GROWTH_FACTOR, SIZE_MOD]
      split
      · rename_i hz
        rcases h with ⟨h1, -⟩ | ⟨-, -, h⟩
        · exact absurd hz h1
        · exact ⟨by omega, by omega⟩
      · rename_i hz
        rcases h with ⟨-, h⟩ | ⟨h1, -, -⟩
        · refine ⟨by omega, ?_⟩
          have : c * 2 % 2 ^ 64 = c * 2 := by omega
          rw [this]
          calc ns ≤ c * (2 ^ fuel * 2) := h
            _ = c * 2 * 2 ^ fuel := by ring
        · exact absurd h1 hz
    · exact ⟨c, by simp [extend_new_cap, hlt]⟩

theorem resize_grant {vec : IntVector} {n : Nat} (junk : Nat → Int) (h : vec.size ≤ n)
    (hn : n * SIZEOF_INT < SIZE_MOD) :
    ∃ g, int_vector_resize vec n (some junk) = .ok (g, true) := by
  unfold int_vector_resize
  rw [if_neg (by omega)]
  by_cases hz : n = 0
  · rw [if_pos hz]; exact ⟨_, rfl⟩
  · have hb : 0 < n * SIZEOF_INT % SIZE_MOD := by
      rw [Nat.mod_eq_of_lt hn]
      simp only [SIZEOF_INT]; omega
    rw [if_neg hz, realloc_pos hb]
    exact ⟨_, rfl⟩

/-- The copy loop of `int_vector_extend` on a well-formed destination with room for the
source's elements: it completes and the first `size + src.size` slots hold the
destination's logical elements followed by the source's. -/
theorem append_vec_spec {g src : IntVector} (hg : g.WF) (hs : src.size ≤ src.data.length)
    (hroom : g.size + src.size ≤ g.capacity) :
    ∃ nd, append_elems src.data g.size 0 src.size g.data = .ok nd ∧
      nd.length = g.data.length ∧ nd.take (g.size + src.size) = g.elems ++ src.elems := by
  obtain ⟨w1, w2, w3⟩ := hg
  have hm : g.size + 0 + src.size ≤ SIZE_MOD := by
    simp only [SIZE_MOD, SIZEOF_INT] at w3 ⊢
    omega
  obtain ⟨nd, h1, h2, h3⟩ := append_elems_spec src.data g.size src.size 0 g.data (by omega)
    (by omega) hm
  refine ⟨nd, h1, h2, ?_⟩
  simp only [IntVector.elems]
  apply List.ext_getElem?
  intro j
  rw [List.getElem?_take, h3 j, List.getElem?_append, List.length_take,
    Nat.min_eq_left (by omega : g.size ≤ g.data.length), List.getElem?_take,
    List.getElem?_take]
  by_cases c1 : j < g.size
  · rw [if_pos (by omega), if_neg (by omega), if_pos c1, if_pos c1]
  · by_cases c2 : j < g.size + src.size
    · rw [if_pos c2, if_pos (by omega), if_neg c1, if_pos (by omega)]
    · rw [if_neg c2, if_neg c1, if_neg (by omega)]

/-- A completed `int_vector_extend` of a well-formed destination by a well-formed source
appends the source's logical elements, keeps the capacity when it suffices, and
otherwise moves it to the result of the capacity loop. -/
theorem extend_ok_spec {fuel : Nat} {dest src d' : IntVector} {r : Reply} (hd : dest.WF)
    (hs : src.WF) (h : int_vector_extend fuel dest src r = .ok d') :
    d'.WF ∧ d'.size = dest.size + src.size ∧ d'.elems = dest.elems ++ src.elems ∧
      (dest.size + src.size ≤ dest.capacity → d'.capacity = dest.capacity) ∧
      (dest.capacity < dest.size + src.size →
        extend_new_cap (dest.size + src.size) fuel dest.capacity = some d'.capacity) := by
  have hd0 := hd
  have hs0 := hs
  obtain ⟨w1, w2, w3⟩ := hd0
  obtain ⟨u1, u2, u3⟩ := hs0
  have hns : (dest.size + src.size) % SIZE_MOD = dest.size + src.size := by
    simp only [SIZE_MOD, SIZEOF_INT] at w3 u3 ⊢
    omega
  have hns63 : dest.size + src.size ≤ 2 ^ 63 := by
    simp only [SIZE_MOD, SIZEOF_INT] at w3 u3
    omega
  unfold int_vector_extend at h
  simp only [hns] at h
  split at h
  · simp at h
  · rename_i g hg
    split at h
    · simp at h
    · rename_i nd hnd
      simp only [Except.ok.injEq] at h
      subst h
      by_cases hgt : dest.size + src.size > dest.capacity
      · rw [if_pos hgt] at hg
        split at hg
        · simp at hg
        · rename_i nc hnc
          split at hg
          · simp at hg
          · rename_i v2 success hres
            cases success with
            | false => simp at hg
            | true =>
              simp only [if_true, Except.ok.injEq] at hg
              subst hg
              obtain ⟨a1, -⟩ := extend_new_cap_ok _ _ _ hnc
              have hb := extend_new_cap_bound hns63 _ _ _ hnc (by omega)
              obtain ⟨-, hsize, -, hbb⟩ := resize_ok hres
              obtain ⟨hc, hdd⟩ := hbb rfl
              have hpos : ∃ m, src.size = m + 1 := ⟨src.size - 1, by omega⟩
              obtain ⟨m, hm⟩ := hpos
              have hroom : v2.size + 0 + (m + 1) ≤ v2.data.length := by
                rw [hm] at hnd
                refine append_elems_room m 0 v2.data nd hnd ?_
                simp only [SIZE_MOD]
                omega
              have hbytes : nc * SIZEOF_INT < SIZE_MOD := by
                rcases hdd with ⟨hz, -⟩ | ⟨-, hdd⟩
                · omega
                · have hl := realloc_length hdd
                  simp only [SIZE_MOD, SIZEOF_INT] at hl ⊢
                  omega
              obtain ⟨b1, b2, b3, b4⟩ := resize_wf hd hbytes hres
              obtain ⟨nd2, e1, e2, e3⟩ := append_vec_spec b1 hs.size_le_length
                (by omega : v2.size + src.size ≤ v2.capacity)
              rw [hnd] at e1
              simp only [Except.ok.injEq] at e1
              subst e1
              obtain ⟨c1, c2, c3⟩ := b1
              refine ⟨⟨by simp only; omega, by simp only; omega, c3⟩, rfl, ?_,
                fun hle => by omega, fun _ => by simp only; rw [hc]; exact hnc⟩
              rw [b2, b4] at e3
              exact e3
      · rw [if_neg hgt] at hg
        simp only [Except.ok.injEq] at hg
        subst hg
        obtain ⟨nd2, e1, e2, e3⟩ := append_vec_spec hd hs.size_le_length
          (by omega : dest.size + src.size ≤ dest.capacity)
        rw [hnd] at e1
        simp only [Except.ok.injEq] at e1
        subst e1
        exact ⟨⟨by simp only; omega, by simp only; omega, w3⟩, rfl, e3,
          fun _ => rfl, fun hlt => by omega⟩

/-- With fuel for 64 iterations `int_vector_extend` on well-formed vectors completes
whenever the capacity suffices or the allocator grants a request whose byte size fits
`size_t`. -/
theorem extend_grant {fuel : Nat} {dest src : IntVector} {r : Reply} (hd : dest.WF)
    (hs : src.WF) (hfuel : 64 ≤ fuel)
    (hgr : dest.size + src.size ≤ dest.capacity ∨
      (r.isSome = true ∧ (dest.size + src.size) * 8 < SIZE_MOD)) :
    ∃ d', int_vector_extend fuel dest src r = .ok d' := by
  have hd0 := hd
  have hs0 := hs
  obtain ⟨w1, w2, w3⟩ := hd0
  obtain ⟨u1, u2, u3⟩ := hs0
  have hns : (dest.size + src.size) % SIZE_MOD = dest.size + src.size := by
    simp only [SIZE_MOD, SIZEOF_INT] at w3 u3 ⊢
    omega
  have hns63 : dest.size + src.size ≤ 2 ^ 63 := by
    simp only [SIZE_MOD, SIZEOF_INT] at w3 u3
    omega
  by_cases hgt : dest.size + src.size > dest.capacity
  · rcases hgr with hgr | ⟨hr, hb⟩
    · omega
    · obtain ⟨junk, rfl⟩ := Option.isSome_iff_exists.mp hr
      have hpow : 2 ^ 63 ≤ 2 ^ fuel := Nat.pow_le_pow_right (by omega) (by omega)
      obtain ⟨nc, hnc⟩ := extend_new_cap_terminates hns63 fuel dest.capacity (by
        by_cases hz : dest.capacity = 0
        · right
          exact ⟨hz, by omega, by omega⟩
        · left
          refine ⟨hz, ?_⟩
          calc dest.size + src.size ≤ 2 ^ 63 := hns63
            _ ≤ 2 ^ fuel := hpow
            _ = 1 * 2 ^ fuel := by ring
            _ ≤ dest.capacity * 2 ^ fuel := Nat.mul_le_mul_right _ (by omega))
      obtain ⟨a1, -⟩ := extend_new_cap_ok _ _ _ hnc
      have hbd := extend_new_cap_bound hns63 _ _ _ hnc (by omega)
      obtain ⟨g, hg⟩ := @resize_grant dest nc junk (by omega)
        (by simp only [SIZE_MOD, SIZEOF_INT] at hb ⊢; omega)
      have hbytes : nc * SIZEOF_INT < SIZE_MOD := by
        simp only [SIZE_MOD, SIZEOF_INT] at hb ⊢
        omega
      obtain ⟨b1, b2, b3, b4⟩ := resize_wf hd hbytes hg
      obtain ⟨nd, e1, -, -⟩ := append_vec_spec b1 hs.size_le_length
        (by omega : g.size + src.size ≤ g.capacity)
      exact ⟨{ g with data := nd, size := dest.size + src.size }, by
        simp only [int_vector_extend, hns, if_pos hgt, hnc, hg, if_true, e1]⟩
  · obtain ⟨nd, e1, -, -⟩ := append_vec_spec hd hs.size_le_length
      (by omega : dest.size + src.size ≤ dest.capacity)
    exact ⟨{ dest with data := nd, size := dest.size + src.size }, by
      simp only [int_vector_extend, hns, if_neg hgt, e1]⟩

/-- C13: for well-formed vectors `dest` and `src` (two distinct instances; `src` is only
read, so its size, capacity and elements cannot change), every completed
`int_vector_extend(dest, src)` leaves `dest` with its prior size plus `src.size`, its
first prior-size elements unchanged and the remaining elements equal to the logical
elements of `src` in order; with fuel for 64 iterations of the capacity loop the call
completes whenever the capacity suffices or the allocator grants a request whose byte
size fits `size_t`. -/
theorem int_vector_extend_spec (dest src : IntVector) (hd : dest.WF) (hs : src.WF) :
    (∀ fuel r d', int_vector_extend fuel dest src r = .ok d' →
        int_vector_size d' = int_vector_size dest + int_vector_size src ∧
        d'.elems.take dest.size = dest.elems ∧ d'.elems.drop dest.size = src.elems ∧
        d'.elems = dest.elems ++ src.elems ∧ d'.WF) ∧
      (∀ fuel r, 64 ≤ fuel →
        (dest.size + src.size ≤ dest.capacity ∨
          (r.isSome = true ∧ (dest.size + src.size) * 8 < SIZE_MOD)) →
        ∃ d', int_vector_extend fuel dest src r = .ok d') := by
  refine ⟨fun fuel r d' h => ?_, fun fuel r hfuel hgr => extend_grant hd hs hfuel hgr⟩
  obtain ⟨a1, a2, a3, -, -⟩ := extend_ok_spec hd hs h
  have hl := IntVector.elems_length hd
  refine ⟨a2, ?_, ?_, a3, a1⟩
  · rw [a3, List.take_left' hl]
  · rw [a3, List.drop_left' hl]

/-- Witness of C13: `[100]` of capacity 2 extended by `[0, 10, 20, 30, 40]`. -/
theorem int_vector_extend_spec_witness :
    int_vector_extend 64 ⟨[100, 0], 1, 2⟩ ⟨[0, 10, 20, 30, 40], 5, 5⟩ grant =
        .ok ⟨[100, 0, 10, 20, 30, 40, 0, 0], 6, 8⟩ ∧
      ((∀ fuel r d',
        int_vector_extend fuel ⟨[100, 0], 1, 2⟩ ⟨[0, 10, 20, 30, 40], 5, 5⟩ r = .ok d' →
        int_vector_size d' =
          int_vector_size ⟨[100, 0], 1, 2⟩ + int_vector_size ⟨[0, 10, 20, 30, 40], 5, 5⟩ ∧
        d'.elems.take 1 = IntVector.elems ⟨[100, 0], 1, 2⟩ ∧
        d'.elems.drop 1 = IntVector.elems ⟨[0, 10, 20, 30, 40], 5, 5⟩ ∧
        d'.elems = IntVector.elems ⟨[100, 0], 1, 2⟩ ++
          IntVector.elems ⟨[0, 10, 20, 30, 40], 5, 5⟩ ∧ d'.WF) ∧
      (∀ fuel r, 64 ≤ fuel →
        (1 + 5 ≤ 2 ∨ (r.isSome = true ∧ (1 + 5) * 8 < SIZE_MOD)) →
        ∃ d', int_vector_extend fuel ⟨[100, 0], 1, 2⟩ ⟨[0, 10, 20, 30, 40], 5, 5⟩ r =
          .ok d')) :=
  ⟨by decide, int_vector_extend_spec ⟨[100, 0], 1, 2⟩ ⟨[0, 10, 20, 30, 40], 5, 5⟩
    (by decide) (by decide)⟩

/-- C14: for well-formed vectors every completed `int_vector_extend` leaves the capacity
of `dest` unchanged when `dest.size + src.size <= dest.capacity`, and otherwise sets it
to the first value, at least `dest.size + src.size`, of the sequence obtained from the
old capacity by repeating `c == 0 ? 8 : 2 * c`; with fuel for 64 iterations the call
completes whenever the capacity suffices or the allocator grants a request whose byte
size fits `size_t`. -/
theorem int_vector_extend_capacity (dest src : IntVector) (hd : dest.WF) (hs : src.WF) :
    (∀ fuel r d', int_vector_extend fuel dest src r = .ok d' →
        (dest.size + src.size ≤ dest.capacity →
          int_vector_capacity d' = int_vector_capacity dest) ∧
        (dest.capacity < dest.size + src.size →
          ∃ k, int_vector_capacity d' = grow_step^[k] dest.capacity ∧
            dest.size + src.size ≤ grow_step^[k] dest.capacity ∧
            ∀ j, j < k → grow_step^[j] dest.capacity < dest.size + src.size)) ∧
      (∀ fuel r, 64 ≤ fuel →
        (dest.size + src.size ≤ dest.capacity ∨
          (r.isSome = true ∧ (dest.size + src.size) * 8 < SIZE_MOD)) →
        ∃ d', int_vector_extend fuel dest src r = .ok d') := by
  refine ⟨fun fuel r d' h => ?_, fun fuel r hfuel hgr => extend_grant hd hs hfuel hgr⟩
  obtain ⟨-, -, -, a4, a5⟩ := extend_ok_spec hd hs h
  refine ⟨a4, fun hlt => ?_⟩
  have hns63 : dest.size + src.size ≤ 2 ^ 63 := by
    have w3 := hd.2.2
    have u3 := hs.2.2
    have w1 := hd.1
    have u1 := hs.1
    simp only [SIZE_MOD, SIZEOF_INT] at w3 u3
    omega
  exact extend_new_cap_seq hns63 _ _ _ (a5 hlt)

/-- Witness of C14: `[100]` of capacity 2 extended by five elements ends with capacity
8, the second doubling of 2. -/
theorem int_vector_extend_capacity_witness :
    int_vector_extend 64 ⟨[100, 0], 1, 2⟩ ⟨[0, 10, 20, 30, 40], 5, 5⟩ grant =
        .ok ⟨[100, 0, 10, 20, 30, 40, 0, 0], 6, 8⟩ ∧
      grow_step^[2] 2 = 8 ∧
      ((∀ fuel r d',
        int_vector_extend fuel ⟨[100, 0], 1, 2⟩ ⟨[0, 10, 20, 30, 40], 5, 5⟩ r = .ok d' →
        (1 + 5 ≤ 2 → int_vector_capacity d' = int_vector_capacity ⟨[100, 0], 1, 2⟩) ∧
        (2 < 1 + 5 →
          ∃ k, int_vector_capacity d' = grow_step^[k] 2 ∧ 1 + 5 ≤ grow_step^[k] 2 ∧
            ∀ j, j < k → grow_step^[j] 2 < 1 + 5)) ∧
      (∀ fuel r, 64 ≤ fuel →
        (1 + 5 ≤ 2 ∨ (r.isSome = true ∧ (1 + 5) * 8 < SIZE_MOD)) →
        ∃ d', int_vector_extend fuel ⟨[100, 0], 1, 2⟩ ⟨[0, 10, 20, 30, 40], 5, 5⟩ r =
          .ok d')) :=
  ⟨by decide, by decide, int_vector_extend_capacity ⟨[100, 0], 1, 2⟩
    ⟨[0, 10, 20, 30, 40], 5, 5⟩ (by decide) (by decide)⟩

/-! ## Round trips and the frame of the capacity -/

/-- A removal at a valid index of a well-formed vector completes and erases that
element. -/
theorem remove_ok_spec {v : IntVector} {index : Nat} (hwf : v.WF) (hi : index < v.size) :
    ∃ v', int_vector_remove v index = .ok v' ∧ v'.size = v.size - 1 ∧
      v'.capacity = v.capacity ∧
      v'.elems = v.elems.take index ++ v.elems.drop (index + 1) ∧ v'.WF := by
  have hlen := hwf.size_le_length
  obtain ⟨d, hd, hdl, hget⟩ := shift_left_spec (v.size - 1 - index) index v.data (by omega)
  refine ⟨{ v with data := d, size := v.size - 1 }, ?_, rfl, rfl, ?_, ?_⟩
  · simp [int_vector_remove, hi, hd]
  · exact take_shift_left hi hget
  · obtain ⟨w1, w2, w3⟩ := hwf
    exact ⟨by simp only; omega, by simp only; omega, w3⟩

/-- A pop of a non-empty well-formed vector completes, returns the last logical element
and only lowers the size by 1. -/
theorem pop_ok_spec {v : IntVector} (hwf : v.WF) (hpos : 0 < v.size) :
    ∃ x, int_vector_pop v = .ok (x, { v with size := v.size - 1 }) ∧
      v.elems = ({ v with size := v.size - 1 } : IntVector).elems ++ [x] ∧
      ({ v with size := v.size - 1 } : IntVector).WF := by
  have hlen := hwf.size_le_length
  have hl : v.size - 1 < v.data.length := by omega
  refine ⟨v.data.get ⟨v.size - 1, hl⟩, ?_, ?_, ?_⟩
  · have hne : v.size ≠ 0 := by omega
    simp [int_vector_pop, hne, load_of_lt hl]
  · simp only [IntVector.elems]
    have e1 : v.size = (v.size - 1) + 1 := by omega
    conv_lhs => rw [e1]
    rw [List.take_succ, List.getElem?_eq_getElem hl]
    rfl
  · obtain ⟨w1, w2, w3⟩ := hwf
    exact ⟨by simp only; omega, w2, w3⟩

theorem take_drop_insert (e : List Int) (index : Nat) (value : Int) (h : index ≤ e.length) :
    (e.take index ++ value :: e.drop index).take index ++
      (e.take index ++ value :: e.drop index).drop (index + 1) = e := by
  have hl : (e.take index).length = index := by simp [h]
  have hl2 : (e.take index ++ [value]).length = index + 1 := by simp [h]
  rw [List.take_left' hl]
  have : e.take index ++ value :: e.drop index = (e.take index ++ [value]) ++ e.drop index := by
    simp
  rw [this, List.drop_left' hl2, List.take_append_drop]

/-- C17: on a well-formed vector, for every index `<= size`, a completed
`int_vector_insert(index, value)` followed by `int_vector_remove(index)` (which then
always completes) restores the original sequence of logical elements and the original
size; the insertion completes whenever no growth is needed or the allocator grants the
growth. -/
theorem insert_remove_roundtrip (v : IntVector) (index : Nat) (value : Int) (r : Reply)
    (hwf : v.WF) (hi : index ≤ v.size) :
    (∀ v1, int_vector_insert v index value r = .ok v1 →
        ∃ v2, int_vector_remove v1 index = .ok v2 ∧ v2.elems = v.elems ∧
          int_vector_size v2 = int_vector_size v) ∧
      ((v.size < v.capacity ∨ (r.isSome = true ∧ v.capacity * 8 < SIZE_MOD)) →
        ∃ v1, int_vector_insert v index value r = .ok v1) := by
  refine ⟨fun v1 h => ?_, fun hgr => insert_grant value hwf hi hgr⟩
  obtain ⟨a1, a2, a3⟩ := insert_ok_spec hwf hi h
  obtain ⟨v2, b1, b2, -, b4, -⟩ := remove_ok_spec a3 (by omega : index < v1.size)
  refine ⟨v2, b1, ?_, ?_⟩
  · rw [b4, a2]
    exact take_drop_insert v.elems index value (by rw [IntVector.elems_length hwf]; exact hi)
  · simp only [int_vector_size]
    omega

/-- Witness of C17: `insert(1, 15)` then `remove(1)` on `[10, 20, 30]`. -/
theorem insert_remove_roundtrip_witness :
    int_vector_insert ⟨[10, 20, 30, 0, 0], 3, 5⟩ 1 15 grant =
        .ok ⟨[10, 15, 20, 30, 0], 4, 5⟩ ∧
      int_vector_remove ⟨[10, 15, 20, 30, 0], 4, 5⟩ 1 = .ok ⟨[10, 20, 30, 30, 0], 3, 5⟩ ∧
      ((∀ v1, int_vector_insert ⟨[10, 20, 30, 0, 0], 3, 5⟩ 1 15 grant = .ok v1 →
        ∃ v2, int_vector_remove v1 1 = .ok v2 ∧
          v2.elems = IntVector.elems ⟨[10, 20, 30, 0, 0], 3, 5⟩ ∧
          int_vector_size v2 = int_vector_size ⟨[10, 20, 30, 0, 0], 3, 5⟩) ∧
      (((3 : Nat) < 5 ∨ (grant.isSome = true ∧ 5 * 8 < SIZE_MOD)) →
        ∃ v1, int_vector_insert ⟨[10, 20, 30, 0, 0], 3, 5⟩ 1 15 grant = .ok v1)) :=
  ⟨by decide, by decide,
    insert_remove_roundtrip ⟨[10, 20, 30, 0, 0], 3, 5⟩ 1 15 grant (by decide) (by decide)⟩

/-- C18: on a well-formed vector with `size > 0`, for every value `x` and whatever the
allocator would answer, `int_vector_pop` followed by `int_vector_push(x)` completes
(no growth is needed), restores the prior size, makes `int_vector_get(size - 1)` return
`x` and leaves the elements at the indices below `size - 1`, and the capacity,
unchanged. -/
theorem pop_push_roundtrip (v : IntVector) (x : Int) (r : Reply) (hwf : v.WF)
    (hpos : 0 < v.size) :
    ∃ y v1 v2, int_vector_pop v = .ok (y, v1) ∧ int_vector_push v1 x r = .ok v2 ∧
      int_vector_size v2 = int_vector_size v ∧
      int_vector_get v2 (v.size - 1) = .ok x ∧
      (∀ i, i < v.size - 1 → int_vector_get v2 i = int_vector_get v i) ∧
      int_vector_capacity v2 = int_vector_capacity v := by
  obtain ⟨y, h1, h2, h3⟩ := pop_ok_spec hwf hpos
  have hw := hwf
  obtain ⟨w1, w2, w3⟩ := hw
  have hroom : ({ v with size := v.size - 1 } : IntVector).size <
      ({ v with size := v.size - 1 } : IntVector).capacity := by
    simp only
    omega
  obtain ⟨v2, h4⟩ := push_grant x (r := r) h3 (Or.inl hroom)
  obtain ⟨a1, a2, a3⟩ := push_ok_spec h3 h4
  simp only at a2
  have hsz : v2.size = v.size := by omega
  have hcap : v2.capacity = v.capacity := by
    have hc : ({ v with size := v.size - 1 } : IntVector).capacity < SIZE_MOD := by
      simp only [SIZE_MOD, SIZEOF_INT] at w3 ⊢
      omega
    rw [push_eq_insert] at h4
    unfold int_vector_insert at h4
    split at h4
    · split at h4
      · simp at h4
      · rename_i g hg
        split at h4
        · simp at h4
        · split at h4
          · simp at h4
          · simp only [Except.ok.injEq] at h4
            subst h4
            obtain ⟨-, -, -, heq⟩ := grow_if_full_ok hc hg
            rw [heq (by simp only; omega)]
    · simp at h4
  have hlen1 : ({ v with size := v.size - 1 } : IntVector).elems.length = v.size - 1 :=
    IntVector.elems_length h3
  refine ⟨y, _, v2, h1, h4, hsz, ?_, ?_, hcap⟩
  · apply get_of_elems (by omega)
    rw [a3, List.getElem?_append_right (by omega), hlen1, Nat.sub_self]
    rfl
  · intro i hi
    obtain ⟨z, hz1, hz2⟩ := get_eq_of_lt hwf (by omega : i < v.size)
    rw [hz1]
    apply get_of_elems (by omega)
    rw [a3, List.getElem?_append_left (by omega), ← hz2, h2,
      List.getElem?_append_left (by omega)]

/-- Witness of C18: pop and push 99 on `[10, 20, 30]`. -/
theorem pop_push_roundtrip_witness :
    int_vector_pop ⟨[10, 20, 30, 0], 3, 4⟩ = .ok (30, ⟨[10, 20, 30, 0], 2, 4⟩) ∧
      int_vector_push ⟨[10, 20, 30, 0], 2, 4⟩ 99 none = .ok ⟨[10, 20, 99, 0], 3, 4⟩ ∧
      (∃ y v1 v2, int_vector_pop ⟨[10, 20, 30, 0], 3, 4⟩ = .ok (y, v1) ∧
        int_vector_push v1 99 none = .ok v2 ∧
        int_vector_size v2 = int_vector_size ⟨[10, 20, 30, 0], 3, 4⟩ ∧
        int_vector_get v2 (3 - 1) = .ok 99 ∧
        (∀ i, i < 3 - 1 → int_vector_get v2 i = int_vector_get ⟨[10, 20, 30, 0], 3, 4⟩ i) ∧
        int_vector_capacity v2 = int_vector_capacity ⟨[10, 20, 30, 0], 3, 4⟩) :=
  ⟨by decide, by decide,
    pop_push_roundtrip ⟨[10, 20, 30, 0], 3, 4⟩ 99 none (by decide) (by decide)⟩

/-- C19: a completed `int_vector_pop` or `int_vector_remove` and `int_vector_clear` leave
the capacity exactly unchanged (and clear sets the size to 0); a completed push, insert,
set, reserve or extend never ends with a smaller capacity than before. -/
theorem capacity_never_shrinks (v : IntVector) (hcap : v.capacity < SIZE_MOD) :
    (∀ x v', int_vector_pop v = .ok (x, v') → int_vector_capacity v' = int_vector_capacity v) ∧
      (∀ index v', int_vector_remove v index = .ok v' →
        int_vector_capacity v' = int_vector_capacity v) ∧
      (int_vector_capacity (int_vector_clear v) = int_vector_capacity v ∧
        int_vector_size (int_vector_clear v) = 0) ∧
      (∀ value r v', int_vector_push v value r = .ok v' →
        int_vector_capacity v ≤ int_vector_capacity v') ∧
      (∀ index value r v', int_vector_insert v index value r = .ok v' →
        int_vector_capacity v ≤ int_vector_capacity v') ∧
      (∀ index value v', int_vector_set v index value = .ok v' →
        int_vector_capacity v' = int_vector_capacity v) ∧
      (∀ n r v', int_vector_reserve v n r = .ok v' →
        int_vector_capacity v ≤ int_vector_capacity v') ∧
      (∀ fuel src r v', int_vector_extend fuel v src r = .ok v' →
        int_vector_capacity v ≤ int_vector_capacity v') := by
  have hins : ∀ index value r v', int_vector_insert v index value r = .ok v' →
      int_vector_capacity v ≤ int_vector_capacity v' := by
    intro index value r v' h
    unfold int_vector_insert at h
    split at h
    · split at h
      · simp at h
      · rename_i g hg
        split at h
        · simp at h
        · split at h
          · simp at h
          · simp only [Except.ok.injEq] at h
            subst h
            obtain ⟨-, hc, -, -⟩ := grow_if_full_ok hcap hg
            simp only [int_vector_capacity, hc]
            split
            · split <;> omega
            · exact le_refl _
    · simp at h
  refine ⟨?_, ?_, ⟨rfl, rfl⟩, ?_, hins, ?_, ?_, ?_⟩
  · intro x v' h
    unfold int_vector_pop at h
    split at h
    · simp at h
    · split at h
      · simp at h
      · simp only [Except.ok.injEq, Prod.mk.injEq] at h
        obtain ⟨-, h⟩ := h
        subst h
        rfl
  · intro index v' h
    unfold int_vector_remove at h
    split at h
    · split at h
      · simp at h
      · simp only [Except.ok.injEq] at h
        subst h
        rfl
    · simp at h
  · intro value r v' h
    rw [push_eq_insert] at h
    exact hins _ _ _ _ h
  · intro index value v' h
    unfold int_vector_set at h
    split at h
    · split at h
      · simp at h
      · simp only [Except.ok.injEq] at h
        subst h
        rfl
    · simp at h
  · intro n r v' h
    exact (reserve_capacity h).2.1
  · intro fuel src r v' h
    unfold int_vector_extend at h
    simp only at h
    split at h
    · simp at h
    · rename_i g hg
      split at h
      · simp at h
      · simp only [Except.ok.injEq] at h
        subst h
        simp only [int_vector_capacity]
        split at hg
        · rename_i hgt
          split at hg
          · simp at hg
          · rename_i nc hnc
            split at hg
            · simp at hg
            · rename_i v2 success hres
              cases success with
              | false => simp at hg
              | true =>
                simp only [if_true, Except.ok.injEq] at hg
                subst hg
                obtain ⟨a1, -⟩ := extend_new_cap_ok _ _ _ hnc
                obtain ⟨-, -, -, hb⟩ := resize_ok hres
                obtain ⟨hc, -⟩ := hb rfl
                omega
        · simp only [Except.ok.injEq] at hg
          subst hg
          exact le_refl _

/-- Witness of C19: the vector `[10, 20]` of capacity 2. -/
theorem capacity_never_shrinks_witness :
    int_vector_pop ⟨[10, 20], 2, 2⟩ = .ok (20, ⟨[10, 20], 1, 2⟩) ∧
      int_vector_remove ⟨[10, 20], 2, 2⟩ 0 = .ok ⟨[20, 20], 1, 2⟩ ∧
      int_vector_clear ⟨[10, 20], 2, 2⟩ = ⟨[10, 20], 0, 2⟩ ∧
      int_vector_push ⟨[10, 20], 2, 2⟩ 30 grant = .ok ⟨[10, 20, 30, 0], 3, 4⟩ ∧
      ((∀ x v', int_vector_pop ⟨[10, 20], 2, 2⟩ = .ok (x, v') →
        int_vector_capacity v' = int_vector_capacity ⟨[10, 20], 2, 2⟩) ∧
      (∀ index v', int_vector_remove ⟨[10, 20], 2, 2⟩ index = .ok v' →
        int_vector_capacity v' = int_vector_capacity ⟨[10, 20], 2, 2⟩) ∧
      (int_vector_capacity (int_vector_clear ⟨[10, 20], 2, 2⟩) =
          int_vector_capacity ⟨[10, 20], 2, 2⟩ ∧
        int_vector_size (int_vector_clear ⟨[10, 20], 2, 2⟩) = 0) ∧
      (∀ value r v', int_vector_push ⟨[10, 20], 2, 2⟩ value r = .ok v' →
        int_vector_capacity ⟨[10, 20], 2, 2⟩ ≤ int_vector_capacity v') ∧
      (∀ index value r v', int_vector_insert ⟨[10, 20], 2, 2⟩ index value r = .ok v' →
        int_vector_capacity ⟨[10, 20], 2, 2⟩ ≤ int_vector_capacity v') ∧
      (∀ index value v', int_vector_set ⟨[10, 20], 2, 2⟩ index value = .ok v' →
        int_vector_capacity v' = int_vector_capacity ⟨[10, 20], 2, 2⟩) ∧
      (∀ n r v', int_vector_reserve ⟨[10, 20], 2, 2⟩ n r = .ok v' →
        int_vector_capacity ⟨[10, 20], 2, 2⟩ ≤ int_vector_capacity v') ∧
      (∀ fuel src r v', int_vector_extend fuel ⟨[10, 20], 2, 2⟩ src r = .ok v' →
        int_vector_capacity ⟨[10, 20], 2, 2⟩ ≤ int_vector_capacity v')) :=
  ⟨by decide, by decide, by decide, by decide,
    capacity_never_shrinks ⟨[10, 20], 2, 2⟩ (by decide)⟩

/-! ## The internal resize -/

/-- When the byte size of the request does not wrap, a call of `int_vector_resize` that
returns false leaves the vector exactly as it was, and it does return false when the
allocator refuses. -/
theorem resize_refused_keeps (vec : IntVector) (n : Nat) (h1 : vec.size ≤ n) (h2 : 0 < n)
    (h3 : n * SIZEOF_INT < SIZE_MOD) :
    int_vector_resize vec n none = .ok (vec, false) ∧
      ∀ r v, int_vector_resize vec n r = .ok (v, false) → v = vec := by
  have hb : 0 < n * SIZEOF_INT % SIZE_MOD := by
    rw [Nat.mod_eq_of_lt h3]
    simp only [SIZEOF_INT]; omega
  constructor
  · unfold int_vector_resize
    rw [if_neg (by omega), if_neg (by omega), realloc_pos hb]
  · intro r v h
    rcases ((resize_ok h).2.2.1 rfl).2 with hv | ⟨-, hz, -⟩
    · exact hv
    · omega

/-- C27 fails on `int_vector_resize(vec, 2 ^ 62)` for the vector `[10, 20]` of capacity 2
(the call that `int_vector_reserve(vec, 2 ^ 62)` makes): the new capacity is positive and
at least the size, but `2 ^ 62 * sizeof(int)` wraps to 0, so `realloc(data, 0)` releases
the block and returns `NULL`. Whatever the allocator would answer, the function returns
false with size and capacity as before and the block gone: the logical elements are no
longer `[10, 20]` and element 0, readable before the call, is outside any block. -/
theorem int_vector_resize_releases_block (r : Reply) :
    (2 : Nat) ≤ 4611686018427387904 ∧ 0 < 4611686018427387904 ∧
    int_vector_resize ⟨[10, 20], 2, 2⟩ 4611686018427387904 r = .ok (⟨[], 2, 2⟩, false) ∧
    IntVector.elems ⟨[10, 20], 2, 2⟩ = [10, 20] ∧ IntVector.elems ⟨[], 2, 2⟩ = [] ∧
    int_vector_get ⟨[10, 20], 2, 2⟩ 0 = .ok 10 ∧
    int_vector_get ⟨[], 2, 2⟩ 0 = .error .undefinedBehaviour := by
  refine ⟨by decide, by decide, ?_, by decide, by decide, by decide, by decide⟩
  cases r <;> rfl

theorem resize_below_iff (vec : IntVector) (n : Nat) (r : Reply) :
    int_vector_resize vec n r = .error .resizeBelowSize ↔ n < vec.size := by
  constructor
  · intro h
    exact (resize_fault h).2
  · intro h
    simp [int_vector_resize, h]

theorem append_elems_fault {src : List Int} {off : Nat} {e : Fault} :
    ∀ (n i : Nat) (dst : List Int), append_elems src off i n dst = .error e →
    e = .undefinedBehaviour := by
  intro n
  induction n with
  | zero =>
    intro i dst h
    simp [append_elems] at h
  | succ n ih =>
    intro i dst h
    unfold append_elems at h
    split at h
    · rename_i e2 he2
      simp only [Except.error.injEq] at h
      subst h
      exact load_fault he2
    · split at h
      · rename_i e2 he2
        simp only [Except.error.injEq] at h
        subst h
        exact store_fault he2
      · exact ih _ _ h

theorem grow_if_full_not_below {v : IntVector} (r : Reply)
    (hcap : v.capacity * SIZEOF_INT < SIZE_MOD) :
    grow_if_full v r ≠ .error .resizeBelowSize := by
  intro h
  unfold grow_if_full at h
  split at h
  · rename_i hfull
    simp only at h
    split at h
    · rename_i e he
      have := (resize_fault he).2
      simp only [SIZE_MOD, SIZEOF_INT, GROWTH_FACTOR, DEFAULT_SIZE] at this hcap
      split at this <;> omega
    · split at h <;> simp at h
  · simp at h

/-- C26: on every vector with `size <= capacity` whose block (of `capacity` slots) is
addressable, no call of push, insert, reserve, shrink_to_fit or extend is stopped by the
precondition check of `int_vector_resize`, which fires exactly when `new_capacity < size`:
every call they make passes `new_capacity >= size`. -/
theorem resize_precondition_never_fails (v : IntVector) (hsz : v.size ≤ v.capacity)
    (hcap : v.capacity * SIZEOF_INT < SIZE_MOD) :
    (∀ vec n r, int_vector_resize vec n r = .error .resizeBelowSize ↔ n < vec.size) ∧
      (∀ value r, int_vector_push v value r ≠ .error .resizeBelowSize) ∧
      (∀ index value r, int_vector_insert v index value r ≠ .error .resizeBelowSize) ∧
      (∀ n r, int_vector_reserve v n r ≠ .error .resizeBelowSize) ∧
      (∀ r, int_vector_shrink_to_fit v r ≠ .error .resizeBelowSize) ∧
      (∀ fuel src r, int_vector_extend fuel v src r ≠ .error .resizeBelowSize) := by
  have hins : ∀ index value r, int_vector_insert v index value r ≠ .error .resizeBelowSize := by
    intro index value r h
    unfold int_vector_insert at h
    split at h
    · split at h
      · rename_i e he
        simp only [Except.error.injEq] at h
        subst h
        exact grow_if_full_not_below r hcap he
      · split at h
        · rename_i e he
          simp only [Except.error.injEq] at h
          subst h
          cases shift_right_fault _ _ he
        · split at h
          · rename_i e he
            simp only [Except.error.injEq] at h
            subst h
            cases store_fault he
          · simp at h
    · simp at h
  refine ⟨resize_below_iff, ?_, hins, ?_, ?_, ?_⟩
  · intro value r h
    rw [push_eq_insert] at h
    exact hins _ _ _ h
  · intro n r h
    unfold int_vector_reserve at h
    split at h
    · split at h
      · rename_i e he
        have := (resize_fault he).2
        omega
      · split at h <;> simp at h
    · simp at h
  · intro r h
    unfold int_vector_shrink_to_fit at h
    split at h
    · split at h
      · rename_i e he
        have := (resize_fault he).2
        omega
      · split at h <;> simp at h
    · simp at h
  · intro fuel src r h
    unfold int_vector_extend at h
    simp only at h
    split at h
    · rename_i e he
      simp only [Except.error.injEq] at h
      subst h
      split at he
      · rename_i hgt
        split at he
        · simp at he
        · rename_i nc hnc
          split at he
          · rename_i e2 he2
            have := (resize_fault he2).2
            obtain ⟨a1, -⟩ := extend_new_cap_ok _ _ _ hnc
            omega
          · split at he <;> simp at he
      · simp at he
    · split at h
      · rename_i e he
        simp only [Except.error.injEq] at h
        subst h
        cases append_elems_fault _ _ _ he
      · simp at h

/-- Witness of C26: the full vector `[10, 20]` of capacity 2, whose push grows through
`int_vector_resize`. -/
theorem resize_precondition_never_fails_witness :
    int_vector_push ⟨[10, 20], 2, 2⟩ 30 grant = .ok ⟨[10, 20, 30, 0], 3, 4⟩ ∧
      ((∀ vec n r, int_vector_resize vec n r = .error .resizeBelowSize ↔ n < vec.size) ∧
      (∀ value r, int_vector_push ⟨[10, 20], 2, 2⟩ value r ≠ .error .resizeBelowSize) ∧
      (∀ index value r,
        int_vector_insert ⟨[10, 20], 2, 2⟩ index value r ≠ .error .resizeBelowSize) ∧
      (∀ n r, int_vector_reserve ⟨[10, 20], 2, 2⟩ n r ≠ .error .resizeBelowSize) ∧
      (∀ r, int_vector_shrink_to_fit ⟨[10, 20], 2, 2⟩ r ≠ .error .resizeBelowSize) ∧
      (∀ fuel src r, int_vector_extend fuel ⟨[10, 20], 2, 2⟩ src r ≠ .error .resizeBelowSize)) :=
  ⟨by decide, resize_precondition_never_fails ⟨[10, 20], 2, 2⟩ (by decide) (by decide)⟩

/-! ## The capacity loop of extend -/

/-- The values met by the capacity loop started at 1: zero and the powers of two up to
`2 ^ 63`. -/
theorem doubling_orbit_closed :
    ∀ c ∈ (0 :: (List.range 64).map (fun k => 2 ^ k) : List Nat),
      c < 9223372036854775809 ∧
        (if c = 0 then DEFAULT_SIZE else c * GROWTH_FACTOR % SIZE_MOD) ∈
          (0 :: (List.range 64).map (fun k => 2 ^ k) : List Nat) := by
  decide

theorem extend_new_cap_orbit : ∀ (fuel c : Nat),
    c ∈ (0 :: (List.range 64).map (fun k => 2 ^ k) : List Nat) →
    extend_new_cap 9223372036854775809 fuel c = none := by
  intro fuel
  induction fuel with
  | zero =>
    intro c hc
    have := (doubling_orbit_closed c hc).1
    simp [extend_new_cap, this]
  | succ fuel ih =>
    intro c hc
    obtain ⟨h1, h2⟩ := doubling_orbit_closed c hc
    unfold extend_new_cap
    rw [if_pos h1]
    exact ih _ h2

/-- The bare loop outside the sizes that vectors can have: started at capacity 1 with the
required size `2 ^ 63 + 1` it runs through 1, 2, 4, ..., `2 ^ 63`, then `2 ^ 63 * 2` wraps
to 0, 0 is replaced by 8, and so on. No call of `int_vector_extend` gives the loop such a
required size, which is the sum of the sizes of two vectors. -/
theorem extend_new_cap_diverges :
    extend_new_cap 9223372036854775809 64 1 = none ∧
      ∀ fuel, extend_new_cap 9223372036854775809 fuel 1 = none := by
  have h : ∀ fuel, extend_new_cap 9223372036854775809 fuel 1 = none :=
    fun fuel => extend_new_cap_orbit fuel 1 (by decide)
  exact ⟨h 64, h⟩

/-- For every starting capacity (0 included) and every required size of at most `2 ^ 63`,
the capacity loop of `int_vector_extend` terminates within 64 iterations with a final
value that is at least the required size; the required size `dest.size + src.size` of two
well-formed vectors is always at most `2 ^ 63`. -/
theorem extend_new_cap_total (c ns fuel : Nat) (hns : ns ≤ 2 ^ 63) (hfuel : 64 ≤ fuel) :
    (∃ nc, extend_new_cap ns fuel c = some nc ∧ ns ≤ nc) ∧
      ∀ dest src : IntVector, dest.WF → src.WF → dest.size + src.size ≤ 2 ^ 63 := by
  constructor
  · have hpow : 2 ^ 63 ≤ 2 ^ fuel := Nat.pow_le_pow_right (by omega) (by omega)
    obtain ⟨nc, hnc⟩ := extend_new_cap_terminates hns fuel c (by
      by_cases hz : c = 0
      · right
        exact ⟨hz, by omega, by omega⟩
      · left
        refine ⟨hz, ?_⟩
        calc ns ≤ 2 ^ 63 := hns
          _ ≤ 2 ^ fuel := hpow
          _ = 1 * 2 ^ fuel := by ring
          _ ≤ c * 2 ^ fuel := Nat.mul_le_mul_right _ (by omega))
    exact ⟨nc, hnc, (extend_new_cap_ok _ _ _ hnc).1⟩
  · intro dest src hd hs
    obtain ⟨w1, -, w3⟩ := hd
    obtain ⟨u1, -, u3⟩ := hs
    simp only [SIZE_MOD, SIZEOF_INT] at w3 u3
    omega

/-- The capacity loop from capacity 0 to the required size 10. -/
theorem extend_new_cap_total_witness :
    extend_new_cap 10 64 0 = some 16 ∧
      ((∃ nc, extend_new_cap 10 64 0 = some nc ∧ 10 ≤ nc) ∧
        ∀ dest src : IntVector, dest.WF → src.WF → dest.size + src.size ≤ 2 ^ 63) :=
  ⟨by decide, extend_new_cap_total 0 10 64 (by decide) (by decide)⟩

/-- C28: for every starting capacity (0 included) and every required size that a call of
`int_vector_extend` can give it, that is `dest.size + src.size` for two well-formed
vectors, the capacity loop terminates, within 64 iterations, with a final value that is at
least the required size; the sum does not wrap. -/
theorem extend_capacity_loop_terminates (dest src : IntVector) (hd : dest.WF) (hs : src.WF)
    (c fuel : Nat) (hfuel : 64 ≤ fuel) :
    (dest.size + src.size) % SIZE_MOD = dest.size + src.size ∧
      ∃ nc, extend_new_cap ((dest.size + src.size) % SIZE_MOD) fuel c = some nc ∧
        dest.size + src.size ≤ nc := by
  obtain ⟨w1, -, w3⟩ := hd
  obtain ⟨u1, -, u3⟩ := hs
  have hns63 : dest.size + src.size ≤ 2 ^ 63 := by
    simp only [SIZE_MOD, SIZEOF_INT] at w3 u3
    omega
  have hns : (dest.size + src.size) % SIZE_MOD = dest.size + src.size := by
    simp only [SIZE_MOD]
    omega
  rw [hns]
  exact ⟨rfl, (extend_new_cap_total c (dest.size + src.size) fuel hns63 hfuel).1⟩

/-- Witness of C28: `[100]` of capacity 2 extended by five elements, the loop started at
the capacity 2 of the destination. -/
theorem extend_capacity_loop_terminates_witness :
    extend_new_cap ((1 + 5) % SIZE_MOD) 64 2 = some 8 ∧
      ((1 + 5) % SIZE_MOD = 1 + 5 ∧
        ∃ nc, extend_new_cap ((1 + 5) % SIZE_MOD) 64 2 = some nc ∧ 1 + 5 ≤ nc) :=
  ⟨by decide, extend_capacity_loop_terminates ⟨[100, 0], 1, 2⟩ ⟨[0, 10, 20, 30, 40], 5, 5⟩
    (by decide) (by decide) 2 64 (by decide)⟩

/-! ## Repeated push against the growth sequence -/

theorem grow_step_iterate {c : Nat} (hc : c ≠ 0) : ∀ k, grow_step^[k] c = c * 2 ^ k := by
  intro k
  induction k with
  | zero => simp
  | succ k ih =>
    rw [Function.iterate_succ_apply', ih]
    have : c * 2 ^ k ≠ 0 := Nat.mul_ne_zero hc (by positivity)
    simp only [grow_step, if_neg this]
    ring

/-- The first value of a sequence that reaches a bound is determined by the bound. -/
theorem first_reach_unique (f : Nat → Nat) (c n k1 k2 : Nat)
    (h1 : n ≤ f^[k1] c) (l1 : ∀ j, j < k1 → f^[j] c < n)
    (h2 : n ≤ f^[k2] c) (l2 : ∀ j, j < k2 → f^[j] c < n) : k1 = k2 := by
  rcases Nat.lt_trichotomy k1 k2 with h | h | h
  · have := l2 k1 h
    omega
  · exact h
  · have := l1 k2 h
    omega

/-- Completed pushes on a well-formed vector leave the capacity alone when it suffices,
and otherwise end at the first value of the growth sequence that holds all elements. -/
theorem push_all_capacity : ∀ (l : List (Int × Reply)) (v v' : IntVector), v.WF →
    push_all v l = .ok v' →
    (v.size + l.length ≤ v.capacity → v'.capacity = v.capacity) ∧
      (v.capacity < v.size + l.length →
        ∃ k, v'.capacity = grow_step^[k] v.capacity ∧
          v.size + l.length ≤ grow_step^[k] v.capacity ∧
          ∀ j, j < k → grow_step^[j] v.capacity < v.size + l.length) := by
  intro l
  induction l with
  | nil =>
    intro v v' hwf h
    simp only [push_all, Except.ok.injEq] at h
    subst h
    have := hwf.1
    exact ⟨fun _ => rfl, fun hlt => by simp at hlt; omega⟩
  | cons p rest ih =>
    intro v v' hwf h
    obtain ⟨x, r⟩ := p
    unfold push_all at h
    split at h
    · simp at h
    · rename_i v1 hv1
      obtain ⟨a1, a2, -⟩ := push_ok_spec hwf hv1
      obtain ⟨b1, b2⟩ := ih v1 v' a1 h
      have hw := hwf
      obtain ⟨w1, -, w3⟩ := hw
      have hcap : v.capacity < SIZE_MOD := by
        simp only [SIZE_MOD, SIZEOF_INT] at w3 ⊢
        omega
      have hc1 : v1.capacity = (if v.size = v.capacity then grow_step v.capacity
          else v.capacity) := by
        have hv1' := hv1
        rw [push_eq_insert] at hv1'
        unfold int_vector_insert at hv1'
        split at hv1'
        · split at hv1'
          · simp at hv1'
          · rename_i g hg
            split at hv1'
            · simp at hv1'
            · split at hv1'
              · simp at hv1'
              · simp only [Except.ok.injEq] at hv1'
                subst hv1'
                obtain ⟨-, hc, -, -⟩ := grow_if_full_ok hcap hg
                simp only [hc, grow_step]
        · simp at hv1'
      simp only [List.length_cons]
      by_cases hfull : v.size = v.capacity
      · rw [if_pos hfull] at hc1
        refine ⟨fun hle => by omega, fun _ => ?_⟩
        by_cases hle : v1.size + rest.length ≤ v1.capacity
        · refine ⟨1, ?_, ?_, fun j hj => ?_⟩
          · rw [b1 hle, hc1]; rfl
          · rw [Function.iterate_one, ← hc1]; omega
          · have : j = 0 := by omega
            subst this
            simp only [Function.iterate_zero, id_eq]
            omega
        · obtain ⟨k, c1, c2, c3⟩ := b2 (by omega)
          rw [hc1] at c1 c2 c3
          refine ⟨k + 1, ?_, ?_, fun j hj => ?_⟩
          · rw [Function.iterate_succ_apply]; exact c1
          · rw [Function.iterate_succ_apply]; omega
          · cases j with
            | zero =>
              simp only [Function.iterate_zero, id_eq]
              omega
            | succ j =>
              rw [Function.iterate_succ_apply]
              have := c3 j (by omega)
              omega
      · rw [if_neg hfull] at hc1
        rw [hc1] at b1 b2
        refine ⟨fun hle => b1 (by omega), fun hlt => ?_⟩
        obtain ⟨k, c1, c2, c3⟩ := b2 (by omega)
        exact ⟨k, c1, by omega, fun j hj => by have := c3 j hj; omega⟩

/-- Pushes on a well-formed vector all complete when the allocator grants every request
and the byte size of twice the final number of elements fits `size_t`. -/
theorem push_all_grant : ∀ (l : List (Int × Reply)) (v : IntVector), v.WF →
    (∀ p ∈ l, p.2.isSome = true) → (v.size + l.length) * 8 < SIZE_MOD →
    ∃ v', push_all v l = .ok v' := by
  intro l
  induction l with
  | nil =>
    intro v _ _ _
    exact ⟨v, rfl⟩
  | cons p rest ih =>
    intro v hwf hall hb
    obtain ⟨x, r⟩ := p
    have hr : r.isSome = true := hall (x, r) (List.mem_cons_self _ _)
    have hw := hwf
    obtain ⟨w1, -, -⟩ := hw
    simp only [List.length_cons] at hb
    obtain ⟨v1, hv1⟩ := push_grant x (r := r) hwf (by
      by_cases hfull : v.size = v.capacity
      · right
        refine ⟨hr, ?_⟩
        simp only [SIZE_MOD] at hb ⊢
        omega
      · left
        omega)
    obtain ⟨a1, a2, -⟩ := push_ok_spec hwf hv1
    obtain ⟨v', hv'⟩ := ih v1 a1 (fun p hp => hall p (List.mem_cons_of_mem _ hp))
      (by rw [a2]; simp only [SIZE_MOD] at hb ⊢; omega)
    exact ⟨v', by simp only [push_all, hv1, hv']⟩

/-- For a requested capacity whose byte size fits `size_t`: after a successful
`int_vector_create` and `n` completed pushes the size is `n` and the capacity is
`c0 * 2 ^ k` for the least `k` with `c0 * 2 ^ k >= n`, where `c0` is 8 for a request of 0
and the request otherwise. -/
theorem push_all_capacity_after_create {c : Nat} {vec_ok : Bool} {r : Reply}
    {v v' : IntVector} {l : List (Int × Reply)}
    (hc : (if c = 0 then 8 else c) * SIZEOF_INT < SIZE_MOD)
    (h : int_vector_create c vec_ok r = some v) (hp : push_all v l = .ok v') :
    int_vector_size v' = l.length ∧
      ∃ k, int_vector_capacity v' = (if c = 0 then 8 else c) * 2 ^ k ∧
        l.length ≤ (if c = 0 then 8 else c) * 2 ^ k ∧
        ∀ j, j < k → (if c = 0 then 8 else c) * 2 ^ j < l.length := by
  obtain ⟨a1, a2, -⟩ := create_wf hc h
  obtain ⟨-, -, a4, -⟩ := create_ok h
  simp only [int_vector_capacity] at a4
  obtain ⟨-, b2, -⟩ := push_all_spec l v v' a1 hp
  obtain ⟨d1, d2⟩ := push_all_capacity l v v' a1 hp
  have hne : (if c = 0 then 8 else c) ≠ 0 := by split <;> omega
  rw [a2, Nat.zero_add] at b2 d1 d2
  rw [a4] at d1 d2
  refine ⟨b2, ?_⟩
  simp only [int_vector_capacity]
  by_cases hle : l.length ≤ (if c = 0 then 8 else c)
  · exact ⟨0, by rw [d1 hle]; simp, by simpa using hle, fun j hj => by omega⟩
  · obtain ⟨k, c1, c2, c3⟩ := d2 (by omega)
    refine ⟨k, ?_, ?_, fun j hj => ?_⟩
    · rw [c1, grow_step_iterate hne]
    · rw [← grow_step_iterate hne]; exact c2
    · rw [← grow_step_iterate hne]; exact c3 j hj

/-- The scenarios of C21 with small capacities: `create(0)` and 10 pushes give size 10
and capacity 16; `create(2)` and 3 pushes give size 3 and capacity 4. -/
theorem push_all_scenarios :
    (int_vector_create 0 true grant).map (fun v => push_all v
        [(0, grant), (1, grant), (2, grant), (3, grant), (4, grant), (5, grant), (6, grant),
          (7, grant), (8, grant), (9, grant)]) =
      some (.ok ⟨[0, 1, 2, 3, 4, 5, 6, 7, 8, 9, 0, 0, 0, 0, 0, 0], 10, 16⟩) ∧
    (int_vector_create 2 true grant).map (fun v => push_all v
        [(10, grant), (20, grant), (30, grant)]) =
      some (.ok ⟨[10, 20, 30, 0], 3, 4⟩) := by
  decide

/-- C21 (failing input): `int_vector_create(2 ^ 62 + 1)` asks `malloc` for 4 bytes, so
the vector records capacity `2 ^ 62 + 1` over a block of one slot. Whenever that
allocation succeeds, two pushes of any values, with any answers of the allocator, do not
end with size 2 and capacity `2 ^ 62 + 1`: the first push completes, the second writes
outside the block. -/
theorem push_capacity_after_create_overflow (junk : Nat → Int) (x1 x2 : Int)
    (r1 r2 : Reply) :
    (int_vector_create 4611686018427387905 true (some junk)).map
        (fun v => push_all v [(x1, r1)]) =
      some (.ok ⟨[x1], 1, 4611686018427387905⟩) ∧
    (int_vector_create 4611686018427387905 true (some junk)).map
        (fun v => push_all v [(x1, r1), (x2, r2)]) =
      some (.error .undefinedBehaviour) := by
  constructor <;> rfl

/-- C30: for well-formed distinct vectors, whenever `int_vector_extend(dest, src)`
completes and the pushes of the logical elements of `src`, in order, onto `dest` complete,
both leave `dest` with the same size, the same logical elements and the same capacity;
both complete when the allocator grants every request and the byte size needed fits
`size_t`. -/
theorem extend_refines_push (dest src : IntVector) (hd : dest.WF) (hs : src.WF) :
    (∀ fuel r d1 l d2, int_vector_extend fuel dest src r = .ok d1 →
        l.map Prod.fst = src.elems → push_all dest l = .ok d2 →
        int_vector_size d1 = int_vector_size d2 ∧ d1.elems = d2.elems ∧
          int_vector_capacity d1 = int_vector_capacity d2) ∧
      (∀ fuel r l, 64 ≤ fuel → l.map Prod.fst = src.elems → r.isSome = true →
        (∀ p ∈ l, p.2.isSome = true) → (dest.size + src.size) * 8 < SIZE_MOD →
        (∃ d1, int_vector_extend fuel dest src r = .ok d1) ∧
          ∃ d2, push_all dest l = .ok d2) := by
  have hlen : ∀ l : List (Int × Reply), l.map Prod.fst = src.elems → l.length = src.size := by
    intro l hl
    rw [← IntVector.elems_length hs, ← hl, List.length_map]
  have hns63 : dest.size + src.size ≤ 2 ^ 63 := by
    have w1 := hd.1
    have w3 := hd.2.2
    have u1 := hs.1
    have u3 := hs.2.2
    simp only [SIZE_MOD, SIZEOF_INT] at w3 u3
    omega
  constructor
  · intro fuel r d1 l d2 h1 hl h2
    obtain ⟨-, a2, a3, a4, a5⟩ := extend_ok_spec hd hs h1
    obtain ⟨-, b2, b3⟩ := push_all_spec l dest d2 hd h2
    obtain ⟨c1, c2⟩ := push_all_capacity l dest d2 hd h2
    rw [hlen l hl] at b2 c1 c2
    refine ⟨by simp only [int_vector_size]; omega, by rw [a3, b3, hl], ?_⟩
    simp only [int_vector_capacity]
    by_cases hle : dest.size + src.size ≤ dest.capacity
    · rw [a4 hle, c1 hle]
    · obtain ⟨k1, e1, e2, e3⟩ := extend_new_cap_seq hns63 _ _ _ (a5 (by omega))
      obtain ⟨k2, f1, f2, f3⟩ := c2 (by omega)
      rw [e1, f1, first_reach_unique grow_step dest.capacity _ k1 k2 e2 e3 f2 f3]
  · intro fuel r l hfuel hl hr hall hb
    refine ⟨extend_grant hd hs hfuel (Or.inr ⟨hr, hb⟩), ?_⟩
    exact push_all_grant l dest hd hall (by rw [hlen l hl]; exact hb)

/-- Witness of C30: `[100]` of capacity 2 extended by `[0, 10, 20, 30, 40]`, against five
pushes. -/
theorem extend_refines_push_witness :
    int_vector_extend 64 ⟨[100, 0], 1, 2⟩ ⟨[0, 10, 20, 30, 40], 5, 5⟩ grant =
        .ok ⟨[100, 0, 10, 20, 30, 40, 0, 0], 6, 8⟩ ∧
      push_all ⟨[100, 0], 1, 2⟩
          [(0, grant), (10, grant), (20, grant), (30, grant), (40, grant)] =
        .ok ⟨[100, 0, 10, 20, 30, 40, 0, 0], 6, 8⟩ ∧
      ((∀ fuel r d1 l d2,
        int_vector_extend fuel ⟨[100, 0], 1, 2⟩ ⟨[0, 10, 20, 30, 40], 5, 5⟩ r = .ok d1 →
        l.map Prod.fst = IntVector.elems ⟨[0, 10, 20, 30, 40], 5, 5⟩ →
        push_all ⟨[100, 0], 1, 2⟩ l = .ok d2 →
        int_vector_size d1 = int_vector_size d2 ∧ d1.elems = d2.elems ∧
          int_vector_capacity d1 = int_vector_capacity d2) ∧
      (∀ fuel r l, 64 ≤ fuel →
        l.map Prod.fst = IntVector.elems ⟨[0, 10, 20, 30, 40], 5, 5⟩ → r.isSome = true →
        (∀ p ∈ l, p.2.isSome = true) → (1 + 5) * 8 < SIZE_MOD →
        (∃ d1, int_vector_extend fuel ⟨[100, 0], 1, 2⟩ ⟨[0, 10, 20, 30, 40], 5, 5⟩ r =
          .ok d1) ∧
          ∃ d2, push_all ⟨[100, 0], 1, 2⟩ l = .ok d2)) :=
  ⟨by decide, by decide, extend_refines_push ⟨[100, 0], 1, 2⟩ ⟨[0, 10, 20, 30, 40], 5, 5⟩
    (by decide) (by decide)⟩

/-! ## Extend of a vector by itself -/

/-- While no index wraps and the reads stay below `size`, the copy loop on one block
behaves as the copy loop from any source that agrees with the block below `size`. -/
theorem self_append_eq (size : Nat) (src : List Int) : ∀ (n i : Nat) (dst : List Int),
    (∀ j, j < size → dst[j]? = src[j]?) → i + n ≤ size → size + i + n ≤ SIZE_MOD →
    self_append_elems size i n dst = append_elems src size i n dst := by
  intro n
  induction n with
  | zero =>
    intro i dst _ _ _
    rfl
  | succ n ih =>
    intro i dst hag hi hm
    have hl : load dst i = load src i := by
      simp only [load, hag i (by omega)]
    unfold self_append_elems append_elems
    rw [hl]
    cases hx : load src i with
    | error e => rfl
    | ok x =>
      simp only
      cases hd : store dst ((size + i) % SIZE_MOD) x with
      | error e => rfl
      | ok d =>
        simp only
        obtain ⟨-, hde⟩ := store_eq_ok.mp hd
        have hmod : (size + i) % SIZE_MOD = size + i := Nat.mod_eq_of_lt (by omega)
        apply ih (i + 1) d _ (by omega) (by omega)
        intro j hj
        rw [hde, hmod, List.getElem?_set_ne (by omega)]
        exact hag j hj

/-- A completed `int_vector_extend` of a well-formed vector by itself doubles the size
and appends the logical elements to themselves. -/
theorem extend_self_ok_spec {fuel : Nat} {v v' : IntVector} {r : Reply} (hwf : v.WF)
    (h : int_vector_extend_self fuel v r = .ok v') :
    v'.WF ∧ v'.size = v.size + v.size ∧ v'.elems = v.elems ++ v.elems := by
  have hw := hwf
  obtain ⟨w1, w2, w3⟩ := hw
  have hns : (v.size + v.size) % SIZE_MOD = v.size + v.size := by
    simp only [SIZE_MOD, SIZEOF_INT] at w3 ⊢
    omega
  have hns63 : v.size + v.size ≤ 2 ^ 63 := by
    simp only [SIZE_MOD, SIZEOF_INT] at w3
    omega
  unfold int_vector_extend_self at h
  simp only [hns] at h
  split at h
  · simp at h
  · rename_i g hg
    split at h
    · simp at h
    · rename_i nd hnd
      simp only [Except.ok.injEq] at h
      subst h
      by_cases hgt : v.size + v.size > v.capacity
      · rw [if_pos hgt] at hg
        split at hg
        · simp at hg
        · rename_i nc hnc
          split at hg
          · simp at hg
          · rename_i v2 success hres
            cases success with
            | false => simp at hg
            | true =>
              simp only [if_true, Except.ok.injEq] at hg
              subst hg
              obtain ⟨a1, -⟩ := extend_new_cap_ok _ _ _ hnc
              have hb := extend_new_cap_bound hns63 _ _ _ hnc (by omega)
              obtain ⟨-, hsize, -, hbb⟩ := resize_ok hres
              obtain ⟨hc, hdd⟩ := hbb rfl
              have hm64 : v2.size + 0 + v2.size ≤ SIZE_MOD := by
                simp only [SIZE_MOD]
                omega
              rw [self_append_eq v2.size v2.data v2.size 0 v2.data (fun _ _ => rfl)
                (by omega) hm64] at hnd
              obtain ⟨m, hm⟩ : ∃ m, v2.size = m + 1 := ⟨v2.size - 1, by omega⟩
              have hroom : v2.size + 0 + (m + 1) ≤ v2.data.length := by
                have hnd' := hnd
                rw [show append_elems v2.data v2.size 0 v2.size v2.data =
                  append_elems v2.data v2.size 0 (m + 1) v2.data by rw [← hm]] at hnd'
                exact append_elems_room m 0 v2.data nd hnd' (by omega)
              have hbytes : nc * SIZEOF_INT < SIZE_MOD := by
                rcases hdd with ⟨hz, -⟩ | ⟨-, hdd⟩
                · omega
                · have hl := realloc_length hdd
                  simp only [SIZE_MOD, SIZEOF_INT] at hl ⊢
                  omega
              obtain ⟨b1, b2, b3, b4⟩ := resize_wf hwf hbytes hres
              obtain ⟨nd2, e1, e2, e3⟩ := append_vec_spec b1 b1.size_le_length
                (by omega : v2.size + v2.size ≤ v2.capacity)
              rw [hnd] at e1
              simp only [Except.ok.injEq] at e1
              subst e1
              obtain ⟨c1, c2, c3⟩ := b1
              refine ⟨⟨by simp only; omega, by simp only; omega, c3⟩, rfl, ?_⟩
              rw [b4] at e3
              rw [b2] at e3
              exact e3
      · rw [if_neg hgt] at hg
        simp only [Except.ok.injEq] at hg
        subst hg
        have hm64 : v.size + 0 + v.size ≤ SIZE_MOD := by
          simp only [SIZE_MOD]
          omega
        rw [self_append_eq v.size v.data v.size 0 v.data (fun _ _ => rfl)
          (by omega) hm64] at hnd
        obtain ⟨nd2, e1, e2, e3⟩ := append_vec_spec hwf hwf.size_le_length
          (by omega : v.size + v.size ≤ v.capacity)
        rw [hnd] at e1
        simp only [Except.ok.injEq] at e1
        subst e1
        exact ⟨⟨by simp only; omega, by simp only; omega, w3⟩, rfl, e3⟩

/-- With fuel for 64 iterations `int_vector_extend` of a well-formed vector by itself
completes whenever the capacity suffices or the allocator grants a request whose byte
size fits `size_t`. -/
theorem extend_self_grant {fuel : Nat} {v : IntVector} {r : Reply} (hwf : v.WF)
    (hfuel : 64 ≤ fuel)
    (hgr : v.size + v.size ≤ v.capacity ∨
      (r.isSome = true ∧ (v.size + v.size) * 8 < SIZE_MOD)) :
    ∃ v', int_vector_extend_self fuel v r = .ok v' := by
  have hw := hwf
  obtain ⟨w1, w2, w3⟩ := hw
  have hns : (v.size + v.size) % SIZE_MOD = v.size + v.size := by
    simp only [SIZE_MOD, SIZEOF_INT] at w3 ⊢
    omega
  have hns63 : v.size + v.size ≤ 2 ^ 63 := by
    simp only [SIZE_MOD, SIZEOF_INT] at w3
    omega
  by_cases hgt : v.size + v.size > v.capacity
  · rcases hgr with hgr | ⟨hr, hb⟩
    · omega
    · obtain ⟨junk, rfl⟩ := Option.isSome_iff_exists.mp hr
      have hpow : 2 ^ 63 ≤ 2 ^ fuel := Nat.pow_le_pow_right (by omega) (by omega)
      obtain ⟨nc, hnc⟩ := extend_new_cap_terminates hns63 fuel v.capacity (by
        by_cases hz : v.capacity = 0
        · right
          exact ⟨hz, by omega, by omega⟩
        · left
          refine ⟨hz, ?_⟩
          calc v.size + v.size ≤ 2 ^ 63 := hns63
            _ ≤ 2 ^ fuel := hpow
            _ = 1 * 2 ^ fuel := by ring
            _ ≤ v.capacity * 2 ^ fuel := Nat.mul_le_mul_right _ (by omega))
      obtain ⟨a1, -⟩ := extend_new_cap_ok _ _ _ hnc
      have hbd := extend_new_cap_bound hns63 _ _ _ hnc (by omega)
      obtain ⟨g, hg⟩ := @resize_grant v nc junk (by omega)
        (by simp only [SIZE_MOD, SIZEOF_INT] at hb ⊢; omega)
      have hbytes : nc * SIZEOF_INT < SIZE_MOD := by
        simp only [SIZE_MOD, SIZEOF_INT] at hb ⊢
        omega
      obtain ⟨b1, b2, b3, b4⟩ := resize_wf hwf hbytes hg
      obtain ⟨nd, e1, -, -⟩ := append_vec_spec b1 b1.size_le_length
        (by omega : g.size + g.size ≤ g.capacity)
      have hm64 : g.size + 0 + g.size ≤ SIZE_MOD := by
        simp only [SIZE_MOD]
        omega
      rw [← self_append_eq g.size g.data g.size 0 g.data (fun _ _ => rfl) (by omega) hm64]
        at e1
      exact ⟨{ g with data := nd, size := v.size + v.size }, by
        simp only [int_vector_extend_self, hns, if_pos hgt, hnc, hg, if_true, e1]⟩
  · obtain ⟨nd, e1, -, -⟩ := append_vec_spec hwf hwf.size_le_length
      (by omega : v.size + v.size ≤ v.capacity)
    have hm64 : v.size + 0 + v.size ≤ SIZE_MOD := by
      simp only [SIZE_MOD]
      omega
    rw [← self_append_eq v.size v.data v.size 0 v.data (fun _ _ => rfl) (by omega) hm64]
      at e1
    exact ⟨{ v with data := nd, size := v.size + v.size }, by
      simp only [int_vector_extend_self, hns, if_neg hgt, e1]⟩

/-- C22 (counterexample): `int_vector_extend(vec, vec)` on the vector `[1, 2]` is not
rejected: it completes, without needing the allocator when the capacity is 4 and with a
granted growth when it is 2, and leaves the vector `[1, 2, 1, 2]` of size 4. -/
theorem int_vector_extend_self_completes :
    int_vector_extend_self 64 ⟨[1, 2, 0, 0], 2, 4⟩ none = .ok ⟨[1, 2, 1, 2], 4, 4⟩ ∧
      int_vector_extend_self 64 ⟨[1, 2], 2, 2⟩ grant = .ok ⟨[1, 2, 1, 2], 4, 4⟩ ∧
      ¬ (∀ (v : IntVector) (fuel : Nat) (r : Reply), v.WF →
        ∃ e, int_vector_extend_self fuel v r = .error e) := by
  have h1 : int_vector_extend_self 64 ⟨[1, 2, 0, 0], 2, 4⟩ none =
      .ok ⟨[1, 2, 1, 2], 4, 4⟩ := by decide
  refine ⟨h1, by decide, fun h => ?_⟩
  obtain ⟨e, he⟩ := h ⟨[1, 2, 0, 0], 2, 4⟩ 64 none (by decide)
  rw [h1] at he
  cases he

/-- C22 (amended): `int_vector_extend(vec, vec)` is not detected. On a well-formed
vector every completed call doubles the size and appends the logical elements to
themselves; with fuel for 64 iterations of the capacity loop the call completes whenever
the capacity suffices or the allocator grants a request whose byte size fits `size_t`. -/
theorem int_vector_extend_self_spec (v : IntVector) (hwf : v.WF) :
    (∀ fuel r v', int_vector_extend_self fuel v r = .ok v' →
        int_vector_size v' = int_vector_size v + int_vector_size v ∧
        v'.elems = v.elems ++ v.elems ∧ v'.WF) ∧
      (∀ fuel r, 64 ≤ fuel →
        (v.size + v.size ≤ v.capacity ∨
          (r.isSome = true ∧ (v.size + v.size) * 8 < SIZE_MOD)) →
        ∃ v', int_vector_extend_self fuel v r = .ok v') := by
  refine ⟨fun fuel r v' h => ?_, fun fuel r hfuel hgr => extend_self_grant hwf hfuel hgr⟩
  obtain ⟨a1, a2, a3⟩ := extend_self_ok_spec hwf h
  exact ⟨a2, a3, a1⟩

/-- Witness of C22 (amended): the vector `[1, 2]` of capacity 2 extended by itself. -/
theorem int_vector_extend_self_spec_witness :
    int_vector_extend_self 64 ⟨[1, 2], 2, 2⟩ grant = .ok ⟨[1, 2, 1, 2], 4, 4⟩ ∧
      ((∀ fuel r v', int_vector_extend_self fuel ⟨[1, 2], 2, 2⟩ r = .ok v' →
        int_vector_size v' = int_vector_size ⟨[1, 2], 2, 2⟩ + int_vector_size ⟨[1, 2], 2, 2⟩ ∧
        v'.elems = IntVector.elems ⟨[1, 2], 2, 2⟩ ++ IntVector.elems ⟨[1, 2], 2, 2⟩ ∧
        v'.WF) ∧
      (∀ fuel r, 64 ≤ fuel →
        (2 + 2 ≤ 2 ∨ (r.isSome = true ∧ (2 + 2) * 8 < SIZE_MOD)) →
        ∃ v', int_vector_extend_self fuel ⟨[1, 2], 2, 2⟩ r = .ok v')) :=
  ⟨by decide, int_vector_extend_self_spec ⟨[1, 2], 2, 2⟩ (by decide)⟩

/-! ## The word counter -/

theorem int_incr_of_lt {x : Nat} (h : x < INT_MAX) : int_incr x = some (x + 1) := by
  unfold int_incr; rw [if_pos h]

theorem int_incr_none {x : Nat} (h : ¬ x < INT_MAX) : int_incr x = none := by
  unfold int_incr; rw [if_neg h]

theorem nonempty_pieces_nil_cons (ps : List (List Nat)) :
    nonempty_pieces ([] :: ps) = nonempty_pieces ps := by
  simp [nonempty_pieces]

theorem nonempty_pieces_cons_cons (x : Nat) (p : List Nat) (ps : List (List Nat)) :
    nonempty_pieces ((x :: p) :: ps) = nonempty_pieces ps + 1 := by
  simp [nonempty_pieces]

theorem words_to_come_space (looking : Bool) (ch : Nat) (rest : List Nat)
    (h : isspace ch = true) :
    words_to_come looking (ch :: rest) = words_to_come true rest := by
  unfold words_to_come
  rw [List.splitOnP_cons, if_pos h]
  cases looking
  · simp
  · simp [nonempty_pieces_nil_cons]

theorem words_to_come_start (ch : Nat) (rest : List Nat) (h : isspace ch = false) :
    words_to_come true (ch :: rest) = words_to_come false rest + 1 := by
  unfold words_to_come
  rw [List.splitOnP_cons]
  have hne := List.splitOnP_ne_nil isspace rest
  cases hs : rest.splitOnP isspace with
  | nil => exact absurd hs hne
  | cons p ps => simp [h, List.modifyHead, nonempty_pieces_cons_cons]

theorem words_to_come_inside (ch : Nat) (rest : List Nat) (h : isspace ch = false) :
    words_to_come false (ch :: rest) = words_to_come false rest := by
  unfold words_to_come
  rw [List.splitOnP_cons]
  have hne := List.splitOnP_ne_nil isspace rest
  cases hs : rest.splitOnP isspace with
  | nil => exact absurd hs hne
  | cons p ps => simp [h, List.modifyHead]

theorem isspace_newline : isspace 10 = true := by decide

/-- One pass through the loop body when no counter is at `INT_MAX`. -/
theorem count_step_ok (st : CountState) (ch : Nat) (rest : List Nat)
    (hc : st.stats.chars < INT_MAX) (hl : st.stats.lines ≤ st.stats.chars)
    (hw : st.stats.words ≤ st.stats.chars) :
    ∃ st1, count_step st ch = some st1 ∧
      st1.stats.chars = st.stats.chars + 1 ∧
      st1.stats.lines = st.stats.lines + (if ch = 10 then 1 else 0) ∧
      st1.stats.words + words_to_come st1.looking_for_word_start rest =
        st.stats.words + words_to_come st.looking_for_word_start (ch :: rest) ∧
      st1.stats.lines ≤ st1.stats.chars ∧ st1.stats.words ≤ st1.stats.chars ∧
      st1.last_char = ch := by
  have hl1 : st.stats.lines < INT_MAX := by omega
  have hw1 : st.stats.words < INT_MAX := by omega
  unfold count_step
  rw [int_incr_of_lt hc]
  by_cases h10 : ch = 10
  · subst h10
    simp only [if_true, int_incr_of_lt hl1, isspace_newline]
    refine ⟨_, rfl, rfl, rfl, ?_, ?_, ?_, rfl⟩
    · show st.stats.words + words_to_come true rest = _
      rw [words_to_come_space _ _ _ isspace_newline]
    · show st.stats.lines + 1 ≤ st.stats.chars + 1
      omega
    · show st.stats.words ≤ st.stats.chars + 1
      omega
  · simp only [if_neg h10]
    by_cases hsp : isspace ch = true
    · simp only [hsp, if_true]
      refine ⟨_, rfl, rfl, rfl, ?_, ?_, ?_, rfl⟩
      · show st.stats.words + words_to_come true rest = _
        rw [words_to_come_space _ _ _ hsp]
      · show st.stats.lines ≤ st.stats.chars + 1
        omega
      · show st.stats.words ≤ st.stats.chars + 1
        omega
    · have hsp2 : isspace ch = false := by simpa using hsp
      simp only [hsp2, Bool.false_eq_true, if_false]
      cases hlk : st.looking_for_word_start
      · simp only [Bool.false_eq_true, if_false]
        refine ⟨_, rfl, rfl, rfl, ?_, ?_, ?_, rfl⟩
        · show st.stats.words + words_to_come false rest = _
          rw [words_to_come_inside _ _ hsp2]
        · show st.stats.lines ≤ st.stats.chars + 1
          omega
        · show st.stats.words ≤ st.stats.chars + 1
          omega
      · simp only [if_true, int_incr_of_lt hw1]
        refine ⟨_, rfl, rfl, rfl, ?_, ?_, ?_, rfl⟩
        · show st.stats.words + 1 + words_to_come false rest = _
          rw [words_to_come_start _ _ hsp2]
          omega
        · show st.stats.lines ≤ st.stats.chars + 1
          omega
        · show st.stats.words + 1 ≤ st.stats.chars + 1
          omega

/-- The loop of `count_stream` on an input that leaves the `chars` counter within `int`. -/
theorem count_loop_spec : ∀ (input : List Nat) (st : CountState),
    st.stats.chars + input.length ≤ INT_MAX → st.stats.lines ≤ st.stats.chars →
    st.stats.words ≤ st.stats.chars →
    ∃ st1, count_loop st input = some st1 ∧
      st1.stats.chars = st.stats.chars + input.length ∧
      st1.stats.lines = st.stats.lines + input.count 10 ∧
      st1.stats.words = st.stats.words + words_to_come st.looking_for_word_start input ∧
      st1.last_char = input.getLast?.getD st.last_char := by
  intro input
  induction input with
  | nil =>
    intro st _ _ _
    refine ⟨st, rfl, rfl, rfl, ?_, rfl⟩
    cases hlk : st.looking_for_word_start <;>
      simp [words_to_come, List.splitOnP_nil, nonempty_pieces]
  | cons ch rest ih =>
    intro st hc hl hw
    have hlen : (ch :: rest).length = rest.length + 1 := rfl
    rw [hlen] at hc
    obtain ⟨st1, e1, c1, l1, w1, hl1, hw1, k1⟩ :=
      count_step_ok st ch rest (by omega) hl hw
    obtain ⟨st2, e2, c2, l2, w2, k2⟩ := ih st1 (by omega) hl1 hw1
    refine ⟨st2, ?_, ?_, ?_, ?_, ?_⟩
    · show (match count_step st ch with
        | none => none
        | some st1 => count_loop st1 rest) = some st2
      rw [e1]; exact e2
    · rw [c2, c1, hlen]; omega
    · rw [l2, l1, List.count_cons]
      by_cases h10 : ch = 10
      · simp [h10]; omega
      · simp [h10]
    · rw [w2, w1]
    · rw [k2, k1, List.getLast?_cons]; rfl

/-- The loop of `count_stream` has no result on an input that drives the `chars` counter
past `INT_MAX`. -/
theorem count_step_chars {st st1 : CountState} {ch : Nat} (h : count_step st ch = some st1) :
    st1.stats.chars = st.stats.chars + 1 := by
  unfold count_step at h
  by_cases hc : st.stats.chars < INT_MAX
  · rw [int_incr_of_lt hc] at h
    simp only at h
    split at h
    · cases h
    · split at h
      · cases h; rfl
      · split at h
        · split at h
          · cases h
          · cases h; rfl
        · cases h; rfl
  · rw [int_incr_none hc] at h
    cases h

theorem count_loop_overflow : ∀ (input : List Nat) (st : CountState),
    INT_MAX < st.stats.chars + input.length → st.stats.chars ≤ INT_MAX →
    count_loop st input = none := by
  intro input
  induction input with
  | nil =>
    intro st h1 h2
    simp only [List.length_nil, Nat.add_zero] at h1
    omega
  | cons ch rest ih =>
    intro st h1 h2
    have hlen : (ch :: rest).length = rest.length + 1 := rfl
    rw [hlen] at h1
    show (match count_step st ch with
        | none => none
        | some st1 => count_loop st1 rest) = none
    cases e1 : count_step st ch with
    | none => rfl
    | some st1 =>
      have c1 := count_step_chars e1
      have hlt : st.stats.chars < INT_MAX := by
        by_contra hc
        unfold count_step at e1
        rw [int_incr_none hc] at e1
        cases e1
      exact ih st1 (by omega) (by omega)

/-- The function `count_stream` has no defined result on an input of more than `INT_MAX`
bytes. -/
theorem count_stream_overflow (input : List Nat) (h : INT_MAX < input.length) :
    count_stream input = none := by
  unfold count_stream
  rw [count_loop_overflow input ⟨⟨0, 0, 0⟩, true, 0⟩ (by simpa using h)
    (Nat.zero_le _)]

/-- An input that is not empty and does not end in a newline has fewer newlines than
bytes. -/
theorem count_newline_lt (input : List Nat) (hne : input ≠ [])
    (hlast : input.getLast? ≠ some 10) : input.count 10 < input.length := by
  obtain ⟨a, ha⟩ : ∃ a, input.getLast? = some a := by
    cases hg : input.getLast? with
    | none => exact absurd (List.getLast?_eq_none_iff.mp hg) hne
    | some a => exact ⟨a, rfl⟩
  have hd := List.dropLast_append_getLast? a ha
  have ha10 : a ≠ 10 := by
    intro h; apply hlast; rw [ha, h]
  have h1 := List.count_le_length 10 input.dropLast
  have h2 : List.count 10 [a] = 0 := by
    simp [List.count_cons, ha10]
  have h3 : input.count 10 = input.dropLast.count 10 := by
    conv_lhs => rw [← hd]
    rw [List.count_append, h2, Nat.add_zero]
  have h4 : input.length = input.dropLast.length + 1 := by
    conv_lhs => rw [← hd]
    rw [List.length_append, List.length_singleton]
  omega

/-- The three figures of `count_stream` on an input of at most `INT_MAX` bytes. -/
theorem count_stream_spec (input : List Nat) (h : input.length ≤ INT_MAX) :
    ∃ s, count_stream input = some s ∧
      s.chars = input.length ∧
      s.words = word_runs input ∧
      s.lines = input.count 10 +
        (if input ≠ [] ∧ input.getLast? ≠ some 10 then 1 else 0) := by
  obtain ⟨st, e, c, l, w, k⟩ := count_loop_spec input ⟨⟨0, 0, 0⟩, true, 0⟩
    (by simpa using h) (Nat.le_refl _) (Nat.le_refl _)
  simp only [Nat.zero_add] at c l w
  have w2 : st.stats.words = word_runs input := by
    rw [w]; simp [words_to_come, word_runs]
  unfold count_stream
  rw [e]
  by_cases hne : input = []
  · subst hne
    have hc0 : ¬ (st.stats.chars > 0 ∧ st.last_char ≠ 10) := by
      rw [c]; simp
    simp only [if_neg hc0]
    refine ⟨st.stats, rfl, c, w2, ?_⟩
    rw [l]; simp
  · have hpos : 0 < input.length := List.length_pos.mpr hne
    by_cases hlast : input.getLast? = some 10
    · have hk : st.last_char = 10 := by
        rw [k, hlast]; rfl
      have hc0 : ¬ (st.stats.chars > 0 ∧ st.last_char ≠ 10) := by
        rw [hk]; simp
      simp only [if_neg hc0]
      refine ⟨st.stats, rfl, c, w2, ?_⟩
      rw [l]; simp [hlast]
    · have hk : st.last_char ≠ 10 := by
        rw [k]
        cases hg : input.getLast? with
        | none => exact absurd (List.getLast?_eq_none_iff.mp hg) hne
        | some a =>
          intro h10
          apply hlast
          rw [hg]
          simp only [Option.getD_some] at h10
          rw [h10]
      have hc0 : st.stats.chars > 0 ∧ st.last_char ≠ 10 := ⟨by rw [c]; exact hpos, hk⟩
      have hlt := count_newline_lt input hne hlast
      have hl1 : st.stats.lines < INT_MAX := by rw [l]; omega
      simp only [if_pos hc0, int_incr_of_lt hl1]
      refine ⟨_, rfl, c, w2, ?_⟩
      show st.stats.lines + 1 = _
      rw [l]; simp [hne, hlast]

/-- An input without whitespace that is not empty is one run. -/
theorem word_runs_replicate (n : Nat) (a : Nat) (hn : 0 < n) (ha : isspace a = false) :
    word_runs (List.replicate n a) = 1 := by
  unfold word_runs
  have h : (List.replicate n a).splitOnP isspace = [List.replicate n a] := by
    apply List.splitOnP_eq_single
    intro x hx
    rw [List.eq_of_mem_replicate hx, ha]
    exact Bool.false_ne_true
  rw [h]
  obtain ⟨m, rfl⟩ : ∃ m, n = m + 1 := ⟨n - 1, by omega⟩
  rw [List.replicate_succ, nonempty_pieces_cons_cons]
  rfl

/-- C24 fails on the three bytes `a`, newline, `b`: the input holds one newline byte, the
count that the help text (newline counts) and the description of the function (POSIX line
counting) announce, but the statement after the loop adds one for the unterminated last
line and `count_stream` returns the lines figure 2. -/
theorem count_stream_lines_not_newline_count :
    count_stream [97, 10, 98] = some ⟨2, 2, 3⟩ ∧ List.count 10 [97, 10, 98] = 1 ∧
    ¬ (∀ s, count_stream [97, 10, 98] = some s → s.lines = List.count 10 [97, 10, 98]) := by
  have h1 : count_stream [97, 10, 98] = some ⟨2, 2, 3⟩ := by decide
  have h2 : List.count 10 [97, 10, 98] = 1 := by decide
  refine ⟨h1, h2, ?_⟩
  intro h
  have h3 := h ⟨2, 2, 3⟩ h1
  rw [h2] at h3
  exact absurd h3 (by decide)

/-- C25 fails on a stream of `2 ^ 31` bytes `a`: the stream is `2 ^ 31` bytes long and is
one run of non-whitespace bytes, but the `int` counter `chars` is incremented at `INT_MAX`,
so `count_stream` has no defined result. -/
theorem count_stream_chars_overflow :
    (List.replicate 2147483648 97).length = 2147483648 ∧
    word_runs (List.replicate 2147483648 97) = 1 ∧
    count_stream (List.replicate 2147483648 97) = none := by
  refine ⟨List.length_replicate _ _, word_runs_replicate _ _ (by decide) (by decide), ?_⟩
  apply count_stream_overflow
  rw [List.length_replicate]
  decide

/-- C29 fails on a stream of `2 ^ 31` bytes `x`: the stream is not empty, its last byte is
not a newline and it holds no newline, so the lines figure should be 1, but the `int`
counter `chars` is incremented at `INT_MAX` and `count_stream` has no defined result. -/
theorem count_stream_last_line_overflow :
    List.replicate 2147483648 120 ≠ [] ∧
    (List.replicate 2147483648 120).getLast? = some 120 ∧
    List.count 10 (List.replicate 2147483648 120) = 0 ∧
    count_stream (List.replicate 2147483648 120) = none := by
  refine ⟨?_, ?_, ?_, ?_⟩
  · intro h
    have h2 := congrArg List.length h
    rw [List.length_replicate] at h2
    exact absurd h2 (by decide)
  · rw [List.getLast?_replicate, if_neg (by decide)]
  · rw [List.count_replicate, if_neg (by decide)]
  · apply count_stream_overflow
    rw [List.length_replicate]
    decide

/-! ## The fixed-string matcher -/

theorem char_equal_iff (a b : Nat) (ci : Bool) :
    char_equal a b ci = true ↔ (if ci then tolower a = tolower b else a = b) := by
  unfold char_equal
  cases ci <;> simp

/-- The inner loop leaves `match` true exactly when every remaining position agrees. -/
theorem match_at_spec (line pattern : List Nat) (ci : Bool) (i : Nat) :
    ∀ (n j : Nat), match_at line pattern ci i j n = true ↔
      ∀ t, j ≤ t → t < j + n →
        char_equal (line.getD (i + t) 0) (pattern.getD t 0) ci = true := by
  intro n
  induction n with
  | zero =>
    intro j
    constructor
    · intro _ t h1 h2; omega
    · intro _; rfl
  | succ n ih =>
    intro j
    show (if !char_equal (line.getD (i + j) 0) (pattern.getD j 0) ci then false
      else match_at line pattern ci i (j + 1) n) = true ↔ _
    cases hc : char_equal (line.getD (i + j) 0) (pattern.getD j 0) ci
    · simp only [Bool.not_false, if_true]
      constructor
      · intro h; cases h
      · intro h
        have := h j (Nat.le_refl _) (by omega)
        rw [hc] at this
        exact this
    · simp only [Bool.not_true, Bool.false_eq_true, if_false]
      rw [ih (j + 1)]
      constructor
      · intro h t h1 h2
        by_cases hj : t = j
        · subst hj; exact hc
        · exact h t (by omega) (by omega)
      · intro h t h1 h2
        exact h t (by omega) (by omega)

/-- Within the range of the outer loop the inner loop decides an occurrence. -/
theorem match_at_iff_occurs (line pattern : List Nat) (ci : Bool) (i : Nat)
    (hi : i + pattern.length ≤ line.length) :
    match_at line pattern ci i 0 pattern.length = true ↔ occurs_at line pattern ci i := by
  rw [match_at_spec]
  unfold occurs_at
  constructor
  · intro h
    refine ⟨hi, fun j hj => ?_⟩
    exact (char_equal_iff _ _ _).mp (h j (Nat.zero_le _) (by omega))
  · intro h t _ ht
    exact (char_equal_iff _ _ _).mpr (h.2 t (by omega))

/-- The outer loop returns the first position of its range at which the inner loop
succeeds, and returns false when there is none. -/
theorem search_loop_spec (line pattern : List Nat) (ci : Bool) :
    ∀ (n i : Nat),
      (∃ k, i ≤ k ∧ k < i + n ∧ match_at line pattern ci k 0 pattern.length = true ∧
        (∀ j, i ≤ j → j < k → match_at line pattern ci j 0 pattern.length = false) ∧
        search_loop line pattern ci i n =
          some (size_to_int k, size_to_int pattern.length)) ∨
      ((∀ j, i ≤ j → j < i + n → match_at line pattern ci j 0 pattern.length = false) ∧
        search_loop line pattern ci i n = none) := by
  intro n
  induction n with
  | zero =>
    intro i
    right
    exact ⟨fun j h1 h2 => by omega, rfl⟩
  | succ n ih =>
    intro i
    cases hm : match_at line pattern ci i 0 pattern.length
    · rcases ih (i + 1) with ⟨k, h1, h2, h3, h4, h5⟩ | ⟨h1, h2⟩
      · left
        refine ⟨k, by omega, by omega, h3, ?_, ?_⟩
        · intro j hj1 hj2
          by_cases hji : j = i
          · subst hji; exact hm
          · exact h4 j (by omega) hj2
        · show (if match_at line pattern ci i 0 pattern.length = true then _
            else search_loop line pattern ci (i + 1) n) = _
          rw [hm]
          simp only [Bool.false_eq_true, if_false]
          exact h5
      · right
        refine ⟨?_, ?_⟩
        · intro j hj1 hj2
          by_cases hji : j = i
          · subst hji; exact hm
          · exact h1 j (by omega) (by omega)
        · show (if match_at line pattern ci i 0 pattern.length = true then _
            else search_loop line pattern ci (i + 1) n) = _
          rw [hm]
          simp only [Bool.false_eq_true, if_false]
          exact h2
    · left
      refine ⟨i, Nat.le_refl _, by omega, hm, fun j h1 h2 => by omega, ?_⟩
      show (if match_at line pattern ci i 0 pattern.length = true then _
        else search_loop line pattern ci (i + 1) n) = _
      rw [hm]
      simp only [if_true]

theorem size_to_int_zero : size_to_int 0 = 0 := by decide

/-- The function `raw_string_match` on every line and pattern: it returns true exactly when
the pattern occurs in the line, and then the outputs are the conversions to `int` of the
lowest position of an occurrence and of the length of the pattern. -/
theorem raw_string_match_spec (line pattern : List Nat) (ci : Bool) :
    (∃ k, occurs_at line pattern ci k ∧ (∀ j, j < k → ¬ occurs_at line pattern ci j) ∧
      raw_string_match line pattern ci =
        some (size_to_int k, size_to_int pattern.length)) ∨
    ((∀ j, ¬ occurs_at line pattern ci j) ∧ raw_string_match line pattern ci = none) := by
  unfold raw_string_match
  by_cases hp : pattern.length = 0
  · left
    refine ⟨0, ⟨by omega, fun j hj => by omega⟩, fun j hj => by omega, ?_⟩
    rw [if_pos hp, hp, size_to_int_zero]
  · rw [if_neg hp]
    by_cases hl : line.length < pattern.length
    · right
      rw [if_pos hl]
      exact ⟨fun j hj => by have := hj.1; omega, rfl⟩
    · rw [if_neg hl]
      rcases search_loop_spec line pattern ci (line.length - pattern.length + 1) 0 with
        ⟨k, _, h2, h3, h4, h5⟩ | ⟨h1, h2⟩
      · left
        refine ⟨k, (match_at_iff_occurs line pattern ci k (by omega)).mp h3, ?_, h5⟩
        intro j hj hocc
        have hb := hocc.1
        have := (match_at_iff_occurs line pattern ci j hb).mpr hocc
        rw [h4 j (Nat.zero_le _) hj] at this
        cases this
      · right
        refine ⟨?_, h2⟩
        intro j hocc
        have hb := hocc.1
        have := (match_at_iff_occurs line pattern ci j hb).mpr hocc
        rw [h1 j (Nat.zero_le _) (by omega)] at this
        cases this

/-- The boolean result of `raw_string_match` on every line and pattern. -/
theorem raw_string_match_isSome (line pattern : List Nat) (ci : Bool) :
    (raw_string_match line pattern ci).isSome = true ↔ ∃ i, occurs_at line pattern ci i := by
  rcases raw_string_match_spec line pattern ci with ⟨k, h1, _, h3⟩ | ⟨h1, h2⟩
  · rw [h3]
    exact ⟨fun _ => ⟨k, h1⟩, fun _ => rfl⟩
  · rw [h2]
    constructor
    · intro h; cases h
    · rintro ⟨i, hi⟩; exact absurd hi (h1 i)

/-- On a line shorter than `2 ^ 31` bytes the outputs of `raw_string_match` are the lowest
position of an occurrence and the length of the pattern themselves. -/
theorem raw_string_match_small (line pattern : List Nat) (ci : Bool)
    (hlen : line.length < 2 ^ 31) :
    (∃ k, occurs_at line pattern ci k ∧ (∀ j, j < k → ¬ occurs_at line pattern ci j) ∧
      raw_string_match line pattern ci = some ((k : Int), (pattern.length : Int))) ∨
    ((∀ j, ¬ occurs_at line pattern ci j) ∧ raw_string_match line pattern ci = none) := by
  rcases raw_string_match_spec line pattern ci with ⟨k, h1, h2, h3⟩ | h
  · left
    have hb := h1.1
    refine ⟨k, h1, h2, ?_⟩
    rw [h3, size_to_int_small (by omega), size_to_int_small (by omega)]
  · right
    exact h

theorem getD_replicate_append (n a x : Nat) :
    (List.replicate n a ++ [x]).getD n 0 = x ∧
      ∀ j, j < n → (List.replicate n a ++ [x]).getD j 0 = a := by
  constructor
  · rw [List.getD_eq_getElem?_getD, List.getElem?_append_right (by simp)]
    simp
  · intro j hj
    rw [List.getD_eq_getElem?_getD, List.getElem?_append_left (by simpa using hj)]
    simp [List.getElem?_replicate, hj]

/-- A line of `n` bytes `a` followed by one byte `x`: the one-byte pattern `x` occurs at
position `n` and nowhere before, and `raw_string_match` reports the conversion of `n` to
`int`. -/
theorem raw_string_match_replicate (n a x : Nat) (hax : a ≠ x) :
    occurs_at (List.replicate n a ++ [x]) [x] false n ∧
    (∀ j, j < n → ¬ occurs_at (List.replicate n a ++ [x]) [x] false j) ∧
    raw_string_match (List.replicate n a ++ [x]) [x] false =
      some (size_to_int n, size_to_int 1) := by
  obtain ⟨g1, g2⟩ := getD_replicate_append n a x
  have hocc : occurs_at (List.replicate n a ++ [x]) [x] false n := by
    refine ⟨by simp, ?_⟩
    intro j hj
    have hj0 : j = 0 := by
      simp only [List.length_singleton] at hj; omega
    subst hj0
    simp only [Bool.false_eq_true, if_false, Nat.add_zero]
    rw [g1]; rfl
  have hnot : ∀ j, j < n → ¬ occurs_at (List.replicate n a ++ [x]) [x] false j := by
    intro j hj h
    have := h.2 0 (by simp)
    simp only [Bool.false_eq_true, if_false, Nat.add_zero] at this
    rw [g2 j hj] at this
    exact hax this
  refine ⟨hocc, hnot, ?_⟩
  rcases raw_string_match_spec (List.replicate n a ++ [x]) [x] false with
    ⟨k, h1, h2, h3⟩ | ⟨h1, _⟩
  · have hk : k = n := by
      rcases Nat.lt_trichotomy k n with h | h | h
      · exact absurd h1 (hnot k h)
      · exact h
      · exact absurd hocc (h2 n h)
    rw [h3, hk]; rfl
  · exact absurd hocc (h1 n)

/-- C23 fails on a line of `2 ^ 31` bytes `a` followed by one `b`, searched for the pattern
`b`: the pattern occurs at position `2 ^ 31` and nowhere before, and the length output is 1,
but `raw_string_match` stores the `size_t` position in the `int` output `match_start`,
which receives `-2147483648`. -/
theorem raw_string_match_start_narrowed :
    occurs_at (List.replicate 2147483648 97 ++ [98]) [98] false 2147483648 ∧
    (∀ j, j < 2147483648 → ¬ occurs_at (List.replicate 2147483648 97 ++ [98]) [98] false j) ∧
    raw_string_match (List.replicate 2147483648 97 ++ [98]) [98] false =
      some (-2147483648, 1) := by
  obtain ⟨h1, h2, h3⟩ := raw_string_match_replicate 2147483648 97 98 (by decide)
  refine ⟨h1, h2, ?_⟩
  rw [h3]
  have e1 : size_to_int 2147483648 = -2147483648 := by decide
  have e2 : size_to_int 1 = 1 := by decide
  rw [e1, e2]

theorem getD_map_getElem? (f : Nat → Nat) (l : List Nat) (k : Nat) (hk : k < l.length) :
    (l.map f)[k]? = some (f (l.getD k 0)) := by
  rw [List.getD_eq_getElem?_getD, List.getElem?_map, List.getElem?_eq_getElem hk]
  rfl

/-- An occurrence at some position is the same as being a contiguous sublist, after the
bytes of both strings have been passed through `f`. -/
theorem occurs_iff_sublist (f : Nat → Nat) (l p : List Nat) :
    (∃ i, i + p.length ≤ l.length ∧
      ∀ j, j < p.length → f (l.getD (i + j) 0) = f (p.getD j 0)) ↔
    p.map f <:+: l.map f := by
  constructor
  · rintro ⟨i, hb, h⟩
    have e : p.map f = ((l.map f).drop i).take p.length := by
      apply List.ext_getElem?
      intro j
      by_cases hj : j < p.length
      · rw [List.getElem?_take_of_lt hj, List.getElem?_drop,
          getD_map_getElem? f p j hj, getD_map_getElem? f l (i + j) (by omega), h j hj]
      · rw [List.getElem?_eq_none (by simpa using hj),
          List.getElem?_eq_none (by simp; omega)]
    rw [e]
    exact (List.IsPrefix.isInfix ( List.take_prefix _ _)).trans ((List.drop_suffix _ _).isInfix)
  · rintro ⟨s, t, e⟩
    have hlen := congrArg List.length e
    simp only [List.length_append, List.length_map] at hlen
    refine ⟨s.length, by omega, ?_⟩
    intro j hj
    have h1 : (l.map f)[s.length + j]? = (p.map f)[j]? := by
      rw [← e, List.append_assoc, List.getElem?_append_right (by omega),
        List.getElem?_append_left (by simpa using hj)]
      congr 1
      omega
    rw [getD_map_getElem? f l _ (by omega), getD_map_getElem? f p j hj] at h1
    exact Option.some.inj h1

/-- The occurrences of `occurs_at` are the contiguous substrings: compared exactly, the
pattern is a contiguous sublist of the line; compared without case, it is one after
`tolower` has been applied to both. -/
theorem occurs_at_iff_sublist (line pattern : List Nat) :
    ((∃ i, occurs_at line pattern false i) ↔ pattern <:+: line) ∧
    ((∃ i, occurs_at line pattern true i) ↔
      pattern.map tolower <:+: line.map tolower) := by
  constructor
  · have h := occurs_iff_sublist id line pattern
    simp only [List.map_id, id] at h
    rw [← h]
    simp [occurs_at]
  · rw [← occurs_iff_sublist tolower line pattern]
    simp [occurs_at]
